import Mathlib

/-!
# Charm parser: a shallow embedding of `Parser.cpp`

The lexer/parser of the Charm interpreter (`src/Parser.cpp`) is embedded as Lean
functions over character lists.  A `std::string` is a `List Char`; a `std::stringstream`
read by repeated `std::getline` is the list of the pieces it yields; the mutable members
of `Parser` (`definitionInfoCache`, `fA`) are passed explicitly and returned.

Every function returns an `Outcome`: a value, a fatal `parsetime_die`, a fault (an
uncaught exception, or the C++ code leaves defined behaviour), or `outOfFuel`.  Loops of
the form `while (advanceParse(token, rest))` carry a counter that starts at
`rest.length + 1`;
every successful `advanceParse` shortens `rest`, so these counters are not exhausted (see
`loops_eq_lexItems`, `parsePopsLoop_tokens`, `escapeStringLoop_ne_outOfFuel`).  The
genuine recursion of the lexer is driven by a `fuel` argument: list bodies and
definition bodies are lexed by a nested call of `lexAskToInline`, which takes one unit,
and `parseTypeSignature` jumps back with `goto`, one unit per jump.

`FunctionAnalyzer`, `parsetime_die` and `OPTIMIZE_INLINE` are declared in headers that
are not among the sources; they are modelled from the specification or taken as
arguments, as their doc comments say.  The constructors `mpz_class` and `mpf_class`,
which `parseNumberFunction` calls, belong to the GMP library: whether they accept a
token or throw is modelled after `mpz_set_str` and `mpf_set_str` of GMP 6; the values
they build are not modelled, a number node records its token.

The file has two parts: the definitions (the embedding, then the vocabulary of the
statements), and the theorems.
-/

namespace Charm

/-- A `std::string`, as the list of its characters. -/
abbrev Str := List Char

/-! ## Outcomes -/

/-- The messages given to `parsetime_die` in `Parser.cpp`. -/
inductive ParseError where
  /-- Message "Unrecognized type: " followed by the token (`tokenToType`). -/
  | unrecognizedType (token : Str)
  /-- Message "Type alternative specified before completion of type." -/
  | typeAlternativeBeforeCompletion
  /-- Message "Expected an ending quote before the end of the line. Perhaps you missed a space?" -/
  | expectedEndingQuote
  /-- Message "Expected a close bracket before the end of the line. Perhaps you missed a space?" -/
  | expectedCloseBracket
deriving DecidableEq, Repr

/-- Ways in which the C++ code leaves the parser other than by returning or by
`parsetime_die`: an exception that `Parser.cpp` does not catch, or undefined behaviour. -/
inductive Fault where
  /-- The call `std::string::substr(pos)` with `pos > size()` throws `std::out_of_range`. -/
  | substrOutOfRange
  /-- The constructors `mpz_class(const char*)` and `mpf_class(const char*)` throw
  `std::invalid_argument` on a string that GMP does not read as a number. -/
  | invalidArgument
  /-- The iterator of `escapeString` is dereferenced at or beyond `tok.end()`. -/
  | readPastEnd
deriving DecidableEq, Repr

/-- Result of running a piece of the parser.

Modelled from the spec: `parsetime_die` (declared in `Error.h`, which is not among the
sources) is fatal for the current parse call and produces no partial result; it is the
outcome `die`. -/
inductive Outcome (α : Type) where
  | ok (a : α)
  | die (e : ParseError)
  | fault (f : Fault)
  | outOfFuel
deriving DecidableEq, Repr

/-- Sequencing of two steps: the second runs only when the first returned. -/
def Outcome.bind {α β : Type} (x : Outcome α) (f : α → Outcome β) : Outcome β :=
  match x with
  | .ok a => f a
  | .die e => .die e
  | .fault e => .fault e
  | .outOfFuel => .outOfFuel

/-- Post-processing of a returned value. -/
def Outcome.map {α β : Type} (f : α → β) (x : Outcome α) : Outcome β :=
  x.bind fun a => .ok (f a)

/-! ## Data model (`ParserTypes.h`) -/

/-- Kinds of function recognised by `Parser::recognizeFunction`. -/
inductive CharmFunctionType where
  | LIST_FUNCTION
  | STRING_FUNCTION
  | FUNCTION_DEFINITION
  | NUMBER_FUNCTION
  | DEFINED_FUNCTION
deriving DecidableEq, Repr

/-- A number literal.  The arbitrary-precision values `mpz_class(tok)` and
`mpf_class(tok)` are built by the GMP library, which is not part of the sources;
a number records which of the two constructors was applied (`whichType`) and the
token it was applied to.  Whether the constructor accepts the token is modelled by
`mpz_class` and `mpf_class` below. -/
inductive CharmNumber where
  /-- Case `whichType = INTEGER_VALUE`, `integerValue = mpz_class(tok)`. -/
  | integerValue (tok : Str)
  /-- Case `whichType = FLOAT_VALUE`, `floatValue = mpf_class(tok)`. -/
  | floatValue (tok : Str)
deriving DecidableEq, Repr

/-- The struct `CharmFunctionDefinitionInfo`. -/
structure CharmFunctionDefinitionInfo where
  inlineable : Bool
  tailCallRecursive : Bool
deriving DecidableEq, Repr

/-- A function node.  The C++ `CharmFunction` is a struct with a discriminator
`functionType` and optionally populated fields; here it is one constructor per kind.
`defaultConstructed` is the struct as `CharmFunction currentFunction;` leaves it,
which `delegateParsing` pushes for a token of kind `FUNCTION_DEFINITION`. -/
inductive CharmFunction where
  | numberFunction (numberValue : CharmNumber)
  | stringFunction (stringValue : Str)
  | listFunction (literalFunctions : List CharmFunction)
  | definedFunction (functionName : Str)
  | functionDefinition (functionName : Str) (literalFunctions : List CharmFunction)
      (definitionInfo : CharmFunctionDefinitionInfo)
  | defaultConstructed
deriving Repr

/-- The enum `CharmTypes`: the type tokens of a signature. -/
inductive CharmTypes where
  | TYPESIG_ANY
  | TYPESIG_LIST
  | TYPESIG_LISTSTRING
  | TYPESIG_STRING
  | TYPESIG_INT
  | TYPESIG_FLOAT
deriving DecidableEq, Repr

/-- The struct `CharmTypeSignatureUnit`: one alternative of a signature. -/
structure CharmTypeSignatureUnit where
  pops : List CharmTypes
  pushes : List CharmTypes
deriving DecidableEq, Repr

/-- The struct `CharmTypeSignature`. -/
structure CharmTypeSignature where
  functionName : Str
  units : List CharmTypeSignatureUnit
deriving DecidableEq, Repr

/-! ## Parser state -/

/-- Modelled from the spec: the class `FunctionAnalyzer` (`FunctionAnalyzer.h` and its
implementation are not among the sources).  It owns two registries, mappings from a
function name to a body, and from a function name to a type signature. -/
structure FunctionAnalyzer where
  inlineDefinitions : List (Str × List CharmFunction)
  typeSignatures : List (Str × CharmTypeSignature)

/-- The mutable members of `Parser`: the cache `definitionInfoCache` and the analyzer `fA`. -/
structure Parser where
  definitionInfoCache : List (Str × CharmFunctionDefinitionInfo)
  fA : FunctionAnalyzer

/-- Lookup in a mapping (`find` of a map). -/
def mapFind {β : Type} (k : Str) : List (Str × β) → Option β
  | [] => none
  | (k', v) :: m => if k' = k then some v else mapFind k m

/-- Assignment `m[k] = v` in a mapping: an earlier entry under `k` is overwritten. -/
def mapInsert {β : Type} (k : Str) (v : β) (m : List (Str × β)) : List (Str × β) :=
  (k, v) :: m.filter (fun e => decide (e.1 ≠ k))

/-- A freshly constructed `Parser`: empty cache, empty registries. -/
def Parser.new : Parser :=
  { definitionInfoCache := [], fA := { inlineDefinitions := [], typeSignatures := [] } }

/-! ## `std::string` and stream primitives -/

/-- Character test `std::isspace` in the "C" locale. -/
def isspace (ch : Char) : Bool :=
  ch = ' ' || ch = '\t' || ch = '\n' || ch = Char.ofNat 11 || ch = Char.ofNat 12 || ch = '\r'

/-- Trim from start: `Parser::ltrim`. -/
def ltrim (s : Str) : Str :=
  s.dropWhile isspace

/-- Trim from end: `Parser::rtrim`. -/
def rtrim (s : Str) : Str :=
  (s.reverse.dropWhile isspace).reverse

/-- The call `s.find(pat)`: index of the first occurrence of `pat` in `s`; `none` stands
for `std::string::npos`. -/
def find (pat : Str) : Str → Option Nat
  | [] => if pat = [] then some 0 else none
  | c :: cs =>
    if pat.isPrefixOf (c :: cs) then some 0
    else (find pat cs).map fun r => r + 1

/-- The call `s.find_first_of(ch)`: index of the first `ch` in `s`; `none` stands for
`std::string::npos`. -/
def find_first_of (ch : Char) : Str → Option Nat
  | [] => none
  | c :: cs =>
    if c = ch then some 0
    else (find_first_of ch cs).map fun r => r + 1

/-- The `size_t` sum `index + k`, where `npos` is `2 ^ 64 - 1` and the sum wraps. -/
def indexPlus (index : Option Nat) (k : Nat) : Nat :=
  match index with
  | some i => i + k
  | none => (2 ^ 64 - 1 + k) % 2 ^ 64

/-- The call `s.substr(0, n)`; with `n = npos` it is the whole of `s`. -/
def substrTo (s : Str) (n : Option Nat) : Str :=
  match n with
  | some n => s.take n
  | none => s

/-- The call `s.substr(pos)`, which throws `std::out_of_range` when `pos > s.size()`. -/
def substrFrom (s : Str) (pos : Nat) : Outcome Str :=
  if pos ≤ s.length then .ok (s.drop pos) else .fault .substrOutOfRange

/-- The pieces read by `while (std::getline(stream, piece, delim))` from a stream
holding `s`: `s` is cut at every `delim`, and no piece is read after a final `delim`
or from the empty string. -/
def getlineAll (delim : Char) : Str → List Str
  | [] => []
  | c :: cs =>
    if c = delim then [] :: getlineAll delim cs
    else
      match getlineAll delim cs with
      | [] => [[c]]
      | p :: ps => (c :: p) :: ps

/-! ## Token classification -/

/-- Translation of `Parser::isCharDigit`. -/
def isCharDigit (c : Char) : Bool :=
  "-.0123456789".toList.any fun checkNum => c = checkNum

/-- The loop of `Parser::isStringNumber`, with its two flags. -/
def isStringNumberLoop : Str → Bool → Bool → Bool
  | [], hasDigit, hasPunctuation => (hasDigit && hasPunctuation) || hasDigit
  | c :: cs, hasDigit, hasPunctuation =>
    if !isCharDigit c then false
    else if c = '.' || c = '-' then isStringNumberLoop cs hasDigit true
    else isStringNumberLoop cs true hasPunctuation

/-- Translation of `Parser::isStringNumber`. -/
def isStringNumber (str : Str) : Bool :=
  isStringNumberLoop str false false

/-- Translation of `Parser::recognizeFunction`. -/
def recognizeFunction (s : Str) : CharmFunctionType :=
  if s = "[".toList then .LIST_FUNCTION
  else if s = "\"".toList then .STRING_FUNCTION
  else if s = ":=".toList then .FUNCTION_DEFINITION
  else if isStringNumber s then .NUMBER_FUNCTION
  else .DEFINED_FUNCTION

/-- The scan shared by `isLineFunctionDefinition` and `isLineTypeSignature` over the
pieces of the line: `isSeparator` is the test made at list depth zero outside a string. -/
def classifyLoop (isSeparator : Str → Bool) : List Str → Bool → Int → Bool
  | [], _, _ => false
  | f :: fs, stringDepth, listDepth =>
    let listDepth' :=
      if recognizeFunction f = .LIST_FUNCTION then listDepth + 1
      else if f = "]".toList then listDepth - 1
      else listDepth
    let stringDepth' :=
      if recognizeFunction f = .LIST_FUNCTION then stringDepth
      else if f = "]".toList then stringDepth
      else if recognizeFunction f = .STRING_FUNCTION then !stringDepth
      else stringDepth
    if listDepth' = 0 && !stringDepth' && isSeparator f then true
    else classifyLoop isSeparator fs stringDepth' listDepth'

/-- Translation of `Parser::isLineFunctionDefinition`. -/
def isLineFunctionDefinition (line : Str) : Bool :=
  classifyLoop (fun f => recognizeFunction f = .FUNCTION_DEFINITION)
    (getlineAll ' ' line) false 0

/-- Translation of `Parser::isLineTypeSignature`. -/
def isLineTypeSignature (line : Str) : Bool :=
  classifyLoop (fun f => f = "::".toList) (getlineAll ' ' line) false 0

/-- Translation of `Parser::advanceParse`: the returned triple is the boolean result
and the new values of `token` and `rest`. -/
def advanceParse (token rest : Str) : Bool × Str × Str :=
  if rest = [] then (false, token, rest)
  else
    match find_first_of ' ' rest with
    | none => (true, rest, [])
    | some nextSpace => (true, rest.take nextSpace, rest.drop (nextSpace + 1))

/-! ## Type signatures -/

/-- Translation of `Parser::tokenToType`. -/
def tokenToType (token : Str) : Outcome CharmTypes :=
  if token = "any".toList then .ok .TYPESIG_ANY
  else if token = "list".toList then .ok .TYPESIG_LIST
  else if token = "list/string".toList then .ok .TYPESIG_LISTSTRING
  else if token = "string".toList then .ok .TYPESIG_STRING
  else if token = "int".toList then .ok .TYPESIG_INT
  else if token = "float".toList then .ok .TYPESIG_FLOAT
  else .die (.unrecognizedType token)

/-- First loop of `Parser::parseTypeSignature` ("parse the popped types").  It returns
`unit.pops`, `typeStringToken` and `typeStringRest` as the loop leaves them. -/
def parsePopsLoop : Nat → List CharmTypes → Str → Str → Outcome (List CharmTypes × Str × Str)
  | 0, _, _, _ => .outOfFuel
  | n + 1, pops, typeStringToken, typeStringRest =>
    match advanceParse typeStringToken typeStringRest with
    | (false, typeStringToken, typeStringRest) => .ok (pops, typeStringToken, typeStringRest)
    | (true, typeStringToken, typeStringRest) =>
      if typeStringToken = [] then parsePopsLoop n pops typeStringToken typeStringRest
      else if typeStringToken = "->".toList then .ok (pops, typeStringToken, typeStringRest)
      else if typeStringToken = "|".toList then .die .typeAlternativeBeforeCompletion
      else
        (tokenToType typeStringToken).bind fun t =>
          parsePopsLoop n (pops ++ [t]) typeStringToken typeStringRest

/-- Second loop of `Parser::parseTypeSignature` ("parse the pushed types").  The boolean
of the result tells whether the loop was left at a `|` token (`true`) or because
`advanceParse` failed (`false`). -/
def parsePushesLoop :
    Nat → List CharmTypes → Str → Str → Outcome (Bool × List CharmTypes × Str × Str)
  | 0, _, _, _ => .outOfFuel
  | n + 1, pushes, typeStringToken, typeStringRest =>
    match advanceParse typeStringToken typeStringRest with
    | (false, typeStringToken, typeStringRest) =>
      .ok (false, pushes, typeStringToken, typeStringRest)
    | (true, typeStringToken, typeStringRest) =>
      if typeStringToken = [] then parsePushesLoop n pushes typeStringToken typeStringRest
      else if typeStringToken = "|".toList then
        .ok (true, pushes, typeStringToken, typeStringRest)
      else
        (tokenToType typeStringToken).bind fun t =>
          parsePushesLoop n (pushes ++ [t]) typeStringToken typeStringRest

/-- The part of `Parser::parseTypeSignature` from the label `ParseUnit:` on.  Each
arrival at the label builds a fresh `unit` and a fresh `typeStringToken`, and reads
`typeStringRest` again from `line.substr(colonIndex + 2)`; `goto ParseUnit` is the
recursive call, which takes one unit of fuel.  The call of `advanceParse` that precedes
the `goto` changes only the two variables that are built anew at the label, so it does
not appear. -/
def parseUnit (line : Str) (colonIndex : Option Nat) :
    Nat → List CharmTypeSignatureUnit → Outcome (List CharmTypeSignatureUnit)
  | 0, _ => .outOfFuel
  | fuel + 1, units =>
    (substrFrom line (indexPlus colonIndex 2)).bind fun typeStringRest =>
    (parsePopsLoop (typeStringRest.length + 1) [] [] typeStringRest).bind
      fun (pops, typeStringToken, typeStringRest) =>
    (parsePushesLoop (typeStringRest.length + 1) [] typeStringToken typeStringRest).bind
      fun (alternative, pushes, _, _) =>
    if alternative then parseUnit line colonIndex fuel (units ++ [⟨pops, pushes⟩])
    else .ok (units ++ [⟨pops, pushes⟩])

/-- Translation of `Parser::parseTypeSignature`. -/
def parseTypeSignature (fuel : Nat) (line : Str) : Outcome CharmTypeSignature :=
  let colonIndex := find "::".toList line
  let functionName := ltrim (rtrim (substrTo line colonIndex))
  (parseUnit line colonIndex fuel []).bind fun units => .ok ⟨functionName, units⟩

/-! ## Function analyzer -/

mutual
/-- Whether a node is, or a list body inside it contains, `DefinedFunction(name)`. -/
def referencesName (name : Str) : CharmFunction → Bool
  | .listFunction body => bodyReferencesName name body
  | .definedFunction n => n = name
  | _ => false
/-- Whether some node of a body references `name` (see `referencesName`). -/
def bodyReferencesName (name : Str) : List CharmFunction → Bool
  | [] => false
  | f :: fs => referencesName name f || bodyReferencesName name fs
end

/-- Modelled from the spec: `FunctionAnalyzer::addTypeSignature`, "store under `sig.name`". -/
def FunctionAnalyzer.addTypeSignature (fA : FunctionAnalyzer) (sig : CharmTypeSignature) :
    FunctionAnalyzer :=
  { fA with typeSignatures := mapInsert sig.functionName sig fA.typeSignatures }

/-- Modelled from the spec: `FunctionAnalyzer::isInlinableIgnoringTypeSignature`, true iff
no `DefinedFunction` in the body names the definition, recursively scanning contained
list bodies. -/
def FunctionAnalyzer.isInlinableIgnoringTypeSignature (_fA : FunctionAnalyzer)
    (functionName : Str) (literalFunctions : List CharmFunction) : Bool :=
  !bodyReferencesName functionName literalFunctions

/-- Modelled from the spec: `FunctionAnalyzer::isInlinable`, true iff the body is
non-recursive by name and no type signature is registered for the name. -/
def FunctionAnalyzer.isInlinable (fA : FunctionAnalyzer)
    (functionName : Str) (literalFunctions : List CharmFunction) : Bool :=
  !bodyReferencesName functionName literalFunctions &&
    (mapFind functionName fA.typeSignatures).isNone

/-- Modelled from the spec: `FunctionAnalyzer::addToInlineDefinitions`, "store
`def.name → def.body` (overwrite)". -/
def FunctionAnalyzer.addToInlineDefinitions (fA : FunctionAnalyzer)
    (functionName : Str) (literalFunctions : List CharmFunction) : FunctionAnalyzer :=
  { fA with inlineDefinitions := mapInsert functionName literalFunctions fA.inlineDefinitions }

/-- Whether a node is `DefinedFunction(name)`. -/
def isDefinedFunctionNamed (name : Str) : CharmFunction → Bool
  | .definedFunction n => n = name
  | _ => false

/-- Modelled from the spec: `FunctionAnalyzer::isTailCallRecursive`, true iff the body's
last node is `DefinedFunction(name)` and no earlier node in the body is
`DefinedFunction(name)`. -/
def FunctionAnalyzer.isTailCallRecursive (_fA : FunctionAnalyzer)
    (functionName : Str) (literalFunctions : List CharmFunction) : Bool :=
  match literalFunctions.getLast? with
  | none => false
  | some last =>
    isDefinedFunctionNamed functionName last &&
      !literalFunctions.dropLast.any (isDefinedFunctionNamed functionName)

/-- Modelled from the spec: `FunctionAnalyzer::doInline`, "if `callNode.name` is present in
`inlineDefinitions`, append each node of its stored body to `out` and return true; else
return false".  The result is the new `out` when the call returns true. -/
def FunctionAnalyzer.doInline (fA : FunctionAnalyzer) (out : List CharmFunction)
    (functionName : Str) : Option (List CharmFunction) :=
  match mapFind functionName fA.inlineDefinitions with
  | some body => some (out ++ body)
  | none => none

/-! ## Expression parser -/

/-- Translation of `Parser::parseDefinedFunction`. -/
def parseDefinedFunction (tok : Str) : CharmFunction :=
  .definedFunction tok

/-- A string without its leading `-`, when it has one. -/
def unsignedPart : Str → Str
  | '-' :: rest => rest
  | t => t

/-- The C string `s.c_str()` as the callee reads it: the characters before the first NUL. -/
def c_str (s : Str) : Str :=
  s.takeWhile fun c => decide (c ≠ Char.ofNat 0)

/-- Whether a character is a digit of the given base (at most 36) in the table of digit
values of GMP: `0`..`9` count 0 to 9, and the letters, of either case, 10 to 35. -/
def gmpIsDigit (base : Nat) (c : Char) : Bool :=
  if '0' ≤ c ∧ c ≤ '9' then decide (c.toNat - '0'.toNat < base)
  else if 'a' ≤ c ∧ c ≤ 'z' then decide (c.toNat - 'a'.toNat + 10 < base)
  else if 'A' ≤ c ∧ c ≤ 'Z' then decide (c.toNat - 'A'.toNat + 10 < base)
  else false

/-- The base that `mpz_set_str` with base 0 reads off the text after a first digit `0`,
and the text after the mark of the base: `x` selects base 16, `b` base 2, and otherwise
the base is 8. -/
def mpzBase (rest : Str) : Nat × Str :=
  match rest with
  | 'x' :: rest => (16, rest)
  | 'X' :: rest => (16, rest)
  | 'b' :: rest => (2, rest)
  | 'B' :: rest => (2, rest)
  | _ => (8, rest)

/-- The digits of `mpz_set_str` after the sign: the first character must be a decimal
digit; leading zeros and white space are skipped, and every other character that is not
white space must be a digit of the base. -/
def mpzDigits : Str → Bool
  | [] => false
  | c :: rest =>
    if !gmpIsDigit 10 c then false
    else
      let r : Nat × Str := if c = '0' then mpzBase rest else (10, c :: rest)
      (r.2.dropWhile fun c => c = '0' || isspace c).all fun c => isspace c || gmpIsDigit r.1 c

/-- Whether the GMP call `mpz_set_str(x, str, 0)` accepts the string (GMP 6: white space
is skipped, one leading `-` is a sign, the first character after it must be a decimal
digit; a leading `0` selects base 8, `0x` base 16, `0b` base 2, otherwise the base is 10;
leading zeros are skipped, and every other character that is not white space must be a
digit of the base).  GMP is not among the sources; the value built is not modelled. -/
def mpz_set_str (str : Str) : Bool :=
  mpzDigits (unsignedPart (str.dropWhile isspace))

/-- The mantissa of a string read by `mpf_set_str`: the text before the last exponent mark
(`@`, `e` or `E`) that is not the first character. -/
def mpfMantissa : Str → Str
  | [] => []
  | c :: cs =>
    c :: (match cs.reverse.dropWhile fun c => !(c = '@' || c = 'e' || c = 'E') with
          | [] => cs
          | _ :: m => m.reverse)

/-- The exponent of a string read by `mpf_set_str`: the text after the last exponent mark
(`@`, `e` or `E`) that is not the first character, when there is one. -/
def mpfExponent : Str → Option Str
  | [] => none
  | _ :: cs =>
    if cs.any fun c => c = '@' || c = 'e' || c = 'E' then
      some (cs.reverse.takeWhile fun c => !(c = '@' || c = 'e' || c = 'E')).reverse
    else none

/-- The loop of `mpf_set_str` over the mantissa: white space is skipped, one decimal point
is allowed, every other character must be a decimal digit. -/
def mpfMantissaLoop : Str → Bool → Bool
  | [], _ => true
  | c :: cs, dotSeen =>
    if isspace c then mpfMantissaLoop cs dotSeen
    else if c = '.' then !dotSeen && mpfMantissaLoop cs true
    else gmpIsDigit 10 c && mpfMantissaLoop cs dotSeen

/-- The first test of `mpf_set_str` after the sign: a decimal digit, or a decimal point
followed by one, is required. -/
def mpfLeading : Str → Bool
  | [] => false
  | [c] => gmpIsDigit 10 c
  | c :: d :: _ => gmpIsDigit 10 c || (c = '.' && gmpIsDigit 10 d)

/-- The test of `mpf_set_str` on the exponent: after an optional sign, its first character
must be a decimal digit. -/
def mpfExponentOk : Option Str → Bool
  | none => true
  | some ('-' :: c :: _) => gmpIsDigit 10 c
  | some ('+' :: c :: _) => gmpIsDigit 10 c
  | some ['-'] => false
  | some ['+'] => false
  | some (c :: _) => gmpIsDigit 10 c
  | some [] => false

/-- Whether the GMP call `mpf_set_str(x, str, 0)` accepts the string (GMP 6, "C" locale:
white space is skipped, one leading `-` is a sign, then a decimal digit, or a decimal point
followed by one, is required; the mantissa holds decimal digits and at most one decimal
point; when the mantissa is not zero, an exponent must start, after an optional sign, with
a decimal digit).  GMP is not among the sources; the value built is not modelled. -/
def mpf_set_str (str : Str) : Bool :=
  let str := unsignedPart (str.dropWhile isspace)
  mpfLeading str && mpfMantissaLoop (mpfMantissa str) false &&
    ((mpfMantissa str).all (fun c => isspace c || c = '.' || c = '0') ||
      mpfExponentOk (mpfExponent str))

/-- The constructor `mpz_class(tok.c_str())` of `gmpxx.h`: it throws `std::invalid_argument`
when `mpz_set_str` with base 0 rejects the string. -/
def mpz_class (tok : Str) : Outcome CharmNumber :=
  if mpz_set_str (c_str tok) then .ok (.integerValue tok) else .fault .invalidArgument

/-- The constructor `mpf_class(tok.c_str())` of `gmpxx.h`: it throws `std::invalid_argument`
when `mpf_set_str` with base 0 rejects the string. -/
def mpf_class (tok : Str) : Outcome CharmNumber :=
  if mpf_set_str (c_str tok) then .ok (.floatValue tok) else .fault .invalidArgument

/-- Translation of `Parser::parseNumberFunction`: a token containing `.` is a float.  The
exception that the GMP constructor throws on a token it rejects is not caught. -/
def parseNumberFunction (tok : Str) : Outcome CharmFunction :=
  if '.' ∈ tok then (mpf_class tok).bind fun floatValue => .ok (.numberFunction floatValue)
  else (mpz_class tok).bind fun integerValue => .ok (.numberFunction integerValue)

/-- The call `tok.replace(i, 2, s)`. -/
def replace2 (tok : Str) (i : Nat) (s : Str) : Str :=
  tok.take i ++ s ++ tok.drop (i + 2)

/-- The loop of `Parser::escapeString`; `c` is the offset of the iterator from
`tok.begin()`.  The loop is left when `c == tok.end()` and when
`c == std::prev(tok.end())`; in between, `*c` and `*std::next(c)` are read.  The
replacement text of the case `'0'` is the C string literal `"\0"`, whose length as a
`const char*` is zero. -/
def escapeStringLoop : Nat → Str → Nat → Outcome Str
  | 0, _, _ => .outOfFuel
  | n + 1, tok, c =>
    if c = tok.length then .ok tok
    else if c + 1 = tok.length then .ok tok
    else if tok.length < c then .fault .readPastEnd
    else if tok[c]? = some '\\' then
      if tok[c + 1]? = some 'n' then escapeStringLoop n (replace2 tok c ['\n']) (c + 1)
      else if tok[c + 1]? = some '"' then escapeStringLoop n (replace2 tok c ['"']) (c + 1)
      else if tok[c + 1]? = some 't' then escapeStringLoop n (replace2 tok c ['\t']) (c + 1)
      else if tok[c + 1]? = some '0' then escapeStringLoop n (replace2 tok c []) (c + 1)
      else if tok[c + 1]? = some '\\' then escapeStringLoop n (replace2 tok c ['\\']) (c + 1)
      else escapeStringLoop n tok (c + 1)
    else escapeStringLoop n tok (c + 1)

/-- Translation of `Parser::escapeString`. -/
def escapeString (tok : Str) : Outcome Str :=
  escapeStringLoop (tok.length + 1) tok 0

/-- The loop of `Parser::parseStringFunction`.  The result holds `correctlyEndQuoted`,
the text of `outS`, `token` and `rest`. -/
def parseStringLoop : Nat → Str → Str → Str → Outcome (Bool × Str × Str × Str)
  | 0, _, _, _ => .outOfFuel
  | n + 1, outS, token, rest =>
    match advanceParse token rest with
    | (false, token, rest) => .ok (false, outS, token, rest)
    | (true, token, rest) =>
      if token = "\"".toList then .ok (true, outS, token, rest)
      else
        (escapeString token).bind fun escaped =>
          parseStringLoop n (outS ++ escaped ++ " ".toList) token rest

/-- Translation of `Parser::parseStringFunction`; `token` and `rest` are passed by
reference, their new values are returned with the node. -/
def parseStringFunction (token rest : Str) : Outcome (CharmFunction × Str × Str) :=
  (parseStringLoop (rest.length + 1) [] token rest).bind
    fun (correctlyEndQuoted, outS, token, rest) =>
    if !correctlyEndQuoted then .die .expectedEndingQuote
    else if outS.length > 0 then .ok (.stringFunction outS.dropLast, token, rest)
    else .ok (.stringFunction outS, token, rest)

/-- The loop of `Parser::parseListFunction`, which runs once for each piece that
`std::getline(listS, f, ' ')` reads from the initial `rest`, and advances `token` and
`rest` by `advanceParse` in each round.  The result holds `listDepth`, the text of
`outS`, `token` and `rest`. -/
def parseListLoop : List Str → Int → Str → Str → Str → Int × Str × Str × Str
  | [], listDepth, outS, token, rest => (listDepth, outS, token, rest)
  | _ :: fs, listDepth, outS, token, rest =>
    match advanceParse token rest with
    | (_, token, rest) =>
      if recognizeFunction token = .LIST_FUNCTION then
        parseListLoop fs (listDepth + 1) (outS ++ token ++ " ".toList) token rest
      else if token = "]".toList then
        if listDepth - 1 ≤ 0 then (listDepth - 1, outS, token, rest)
        else parseListLoop fs (listDepth - 1) (outS ++ token ++ " ".toList) token rest
      else parseListLoop fs listDepth (outS ++ token ++ " ".toList) token rest

/-- The type of the nested call `lexAskToInline(charmInput, willInline)` on a parser
state: it returns the nodes and the new state. -/
abbrev LexCall := Parser → Str → Bool → Outcome (List CharmFunction × Parser)

/-- Translation of `Parser::parseListFunction`; `lexAskToInline` is the nested call. -/
def parseListFunction (lexAskToInline : LexCall) (p : Parser) (token rest : Str) :
    Outcome (CharmFunction × Str × Str × Parser) :=
  match parseListLoop (getlineAll ' ' rest) 1 [] token rest with
  | (listDepth, outS, token, rest) =>
    if listDepth > 0 then .die .expectedCloseBracket
    else
      (lexAskToInline p outS false).bind fun (literalFunctions, p) =>
        .ok (.listFunction literalFunctions, token, rest, p)

/-- Translation of `Parser::delegateParsing`.  `OPTIMIZE_INLINE` is the compile-time
switch of `Debug.h`, which is not among the sources, so it is an argument.  The
result holds `out`, `token`, `rest` and the parser state. -/
def delegateParsing (OPTIMIZE_INLINE : Bool) (lexAskToInline : LexCall) (p : Parser)
    (out : List CharmFunction) (token rest : Str) (willInline : Bool) :
    Outcome (List CharmFunction × Str × Str × Parser) :=
  match recognizeFunction token with
  | .DEFINED_FUNCTION =>
    let currentFunction := parseDefinedFunction token
    if OPTIMIZE_INLINE && willInline then
      match mapFind token p.definitionInfoCache with
      | some defInfo =>
        if defInfo.inlineable then
          match p.fA.doInline out token with
          | some out' => .ok (out', token, rest, p)
          | none => .ok (out ++ [currentFunction], token, rest, p)
        else .ok (out ++ [currentFunction], token, rest, p)
      | none => .ok (out ++ [currentFunction], token, rest, p)
    else .ok (out ++ [currentFunction], token, rest, p)
  | .NUMBER_FUNCTION =>
    (parseNumberFunction token).bind fun currentFunction =>
      .ok (out ++ [currentFunction], token, rest, p)
  | .STRING_FUNCTION =>
    (parseStringFunction token rest).bind fun (currentFunction, token, rest) =>
      .ok (out ++ [currentFunction], token, rest, p)
  | .LIST_FUNCTION =>
    (parseListFunction lexAskToInline p token rest).bind fun (currentFunction, token, rest, p) =>
      .ok (out ++ [currentFunction], token, rest, p)
  | .FUNCTION_DEFINITION => .ok (out ++ [.defaultConstructed], token, rest, p)

/-- Translation of `Parser::analyzeDefinition`: the info of the definition and the
analyzer after the call. -/
def analyzeDefinition (fA : FunctionAnalyzer) (functionName : Str)
    (literalFunctions : List CharmFunction) : CharmFunctionDefinitionInfo × FunctionAnalyzer :=
  let inlineable := fA.isInlinable functionName literalFunctions
  let fA' :=
    if fA.isInlinableIgnoringTypeSignature functionName literalFunctions then
      fA.addToInlineDefinitions functionName literalFunctions
    else fA
  (⟨inlineable, fA'.isTailCallRecursive functionName literalFunctions⟩, fA')

/-- Translation of `Parser::parseDefinition`; `lexAskToInline` is the nested call made
by `Parser::lex(nameAndDef.second)`. -/
def parseDefinition (lexAskToInline : LexCall) (p : Parser) (line : Str) :
    Outcome (CharmFunction × Parser) :=
  let equalsIndex := find ":=".toList line
  let first := ltrim (rtrim (substrTo line equalsIndex))
  (substrFrom line (indexPlus equalsIndex 2)).bind fun second =>
  (lexAskToInline p second true).bind fun (literalFunctions, p) =>
    match analyzeDefinition p.fA first literalFunctions with
    | (functionInfo, fA) =>
      .ok (.functionDefinition first literalFunctions functionInfo,
        { definitionInfoCache := mapInsert first functionInfo p.definitionInfoCache, fA := fA })

/-- The token loop of `Parser::lexAskToInline` on an expression line. -/
def tokenLoop (OPTIMIZE_INLINE : Bool) (lexAskToInline : LexCall) (willInline : Bool) :
    Nat → Parser → List CharmFunction → Str → Str → Outcome (List CharmFunction × Parser)
  | 0, _, _, _, _ => .outOfFuel
  | n + 1, p, out, token, rest =>
    match advanceParse token rest with
    | (false, _, _) => .ok (out, p)
    | (true, token, rest) =>
      if token = [] then tokenLoop OPTIMIZE_INLINE lexAskToInline willInline n p out token rest
      else
        (delegateParsing OPTIMIZE_INLINE lexAskToInline p out token rest willInline).bind
          fun (out, token, rest, p) =>
            tokenLoop OPTIMIZE_INLINE lexAskToInline willInline n p out token rest

/-- The line loop of `Parser::lexAskToInline`, over the lines read by `std::getline`.
The nested calls of `lexAskToInline` and the jumps of `parseTypeSignature` draw
on `fuel`. -/
def lineLoop (OPTIMIZE_INLINE : Bool) (lexAskToInline : LexCall) (fuel : Nat)
    (willInline : Bool) :
    List Str → Parser → List CharmFunction → Outcome (List CharmFunction × Parser)
  | [], p, out => .ok (out, p)
  | line :: lines, p, out =>
    if isLineFunctionDefinition line then
      (parseDefinition lexAskToInline p line).bind fun (f, p) =>
        lineLoop OPTIMIZE_INLINE lexAskToInline fuel willInline lines p (out ++ [f])
    else if isLineTypeSignature line then
      (parseTypeSignature fuel line).bind fun typeSignature =>
        lineLoop OPTIMIZE_INLINE lexAskToInline fuel willInline lines
          { p with fA := p.fA.addTypeSignature typeSignature } out
    else
      (tokenLoop OPTIMIZE_INLINE lexAskToInline willInline (line.length + 1) p out [] line).bind
        fun (out, p) => lineLoop OPTIMIZE_INLINE lexAskToInline fuel willInline lines p out

/-- Translation of `Parser::lexAskToInline`.  The result is the node list `out` and the
parser state after the call (the returned `FunctionAnalyzer*` points into it). -/
def lexAskToInline (OPTIMIZE_INLINE : Bool) :
    Nat → Parser → Str → Bool → Outcome (List CharmFunction × Parser)
  | 0, _, _, _ => .outOfFuel
  | fuel + 1, p, charmInput, willInline =>
    lineLoop OPTIMIZE_INLINE (lexAskToInline OPTIMIZE_INLINE fuel) (fuel + 1) willInline
      (getlineAll '\n' charmInput) p []

/-- Translation of `Parser::lex`. -/
def lex (OPTIMIZE_INLINE : Bool) (fuel : Nat) (p : Parser) (charmInput : Str) :
    Outcome (List CharmFunction × Parser) :=
  lexAskToInline OPTIMIZE_INLINE fuel p charmInput true

/-! ## Vocabulary of the statements -/

/-- Tokens joined by single spaces. -/
def joinSpaces : List Str → Str
  | [] => []
  | [t] => t
  | t :: t' :: ts => t ++ ' ' :: joinSpaces (t' :: ts)

/-- The characters accepted by `isCharDigit`. -/
def numberChars : Str := "-.0123456789".toList

/-- The digits `0` to `9`. -/
def digitChars : Str := "0123456789".toList

/-- A numeric token: all characters among `-`, `.`, `0`..`9`, at least one digit. -/
def numericToken (t : Str) : Bool :=
  t.all (fun c => decide (c ∈ numberChars)) && t.any (fun c => decide (c ∈ digitChars))

/-- The node of a token that is a number or a name: a number is a float when the token
contains `.` and an integer otherwise; any other token is a name. -/
def plainNode (t : Str) : CharmFunction :=
  if numericToken t then
    if '.' ∈ t then .numberFunction (.floatValue t) else .numberFunction (.integerValue t)
  else .definedFunction t

/-- What `delegateParsing` appends to `out` for a token that is a name. -/
def nameEmit (OPTIMIZE_INLINE willInline : Bool) (p : Parser) (t : Str) :
    List CharmFunction :=
  if OPTIMIZE_INLINE && willInline then
    match mapFind t p.definitionInfoCache with
    | some defInfo =>
      if defInfo.inlineable then
        match mapFind t p.fA.inlineDefinitions with
        | some body => body
        | none => [.definedFunction t]
      else [.definedFunction t]
    | none => [.definedFunction t]
  else [.definedFunction t]

/-- What `delegateParsing` appends to `out` for a token that is a name or a number. -/
def plainEmit (OPTIMIZE_INLINE willInline : Bool) (p : Parser) (t : Str) :
    Outcome (List CharmFunction) :=
  if isStringNumber t then (parseNumberFunction t).bind fun currentFunction => .ok [currentFunction]
  else .ok (nameEmit OPTIMIZE_INLINE willInline p t)

/-- Tokens each followed by one space: the text that the loops of `parseStringFunction`
and `parseListFunction` write to `outS`. -/
def spaced (ts : List Str) : Str :=
  ts.flatMap fun t => t ++ [' ']

/-- The function `escapeString` applied to each token in turn, stopping at the first
token on which it does not return. -/
def escapeAll : List Str → Outcome (List Str)
  | [] => .ok []
  | t :: ts => (escapeString t).bind fun e => (escapeAll ts).bind fun es => .ok (e :: es)

/-- The syntactic items of an expression line, read off its tokens. -/
inductive Item where
  /-- A name or a number. -/
  | plain (t : Str)
  /-- A free-standing `:=` token. -/
  | assign
  /-- A string literal with its interior tokens. -/
  | str (ss : List Str)
  /-- An opening quote that no later `"` token closes, with the tokens after it. -/
  | openStr (ss : List Str)
  /-- A list literal with its interior tokens. -/
  | lst (body : List Str)
  /-- An opening bracket whose depth does not return to zero. -/
  | openLst
deriving DecidableEq, Repr

/-- Where the scan of a line stands: at top level, inside a string literal (with the
interior tokens read so far), or inside a list literal (with its depth and the interior
tokens read so far). -/
inductive ScanMode where
  | top
  | inStr (acc : List Str)
  | inLst (listDepth : Int) (acc : List Str)
deriving DecidableEq, Repr

/-- The items of a token sequence, scanned from a given mode.  Empty tokens at top level
are skipped. -/
def itemizeFrom : ScanMode → List Str → List Item
  | .top, [] => []
  | .top, t :: ts =>
    if t = [] then itemizeFrom .top ts
    else if t = "[".toList then itemizeFrom (.inLst 1 []) ts
    else if t = "\"".toList then itemizeFrom (.inStr []) ts
    else if t = ":=".toList then .assign :: itemizeFrom .top ts
    else .plain t :: itemizeFrom .top ts
  | .inStr acc, [] => [.openStr acc]
  | .inStr acc, t :: ts =>
    if t = "\"".toList then .str acc :: itemizeFrom .top ts
    else itemizeFrom (.inStr (acc ++ [t])) ts
  | .inLst _ _, [] => [.openLst]
  | .inLst listDepth acc, t :: ts =>
    if t = "[".toList then itemizeFrom (.inLst (listDepth + 1) (acc ++ [t])) ts
    else if t = "]".toList then
      if listDepth - 1 ≤ 0 then .lst acc :: itemizeFrom .top ts
      else itemizeFrom (.inLst (listDepth - 1) (acc ++ [t])) ts
    else itemizeFrom (.inLst listDepth (acc ++ [t])) ts

/-- The items of the tokens of an expression line. -/
def itemize (ts : List Str) : List Item :=
  itemizeFrom .top ts

/-- The nodes of a sequence of items: what the token loop of `lexAskToInline` appends
to `out`, and the parser state it leaves, item by item. -/
def lexItems (OPTIMIZE_INLINE : Bool) (lexAskToInline : LexCall) (willInline : Bool) :
    List Item → Parser → List CharmFunction → Outcome (List CharmFunction × Parser)
  | [], p, out => .ok (out, p)
  | .plain t :: is, p, out =>
    (plainEmit OPTIMIZE_INLINE willInline p t).bind fun nodes =>
      lexItems OPTIMIZE_INLINE lexAskToInline willInline is p (out ++ nodes)
  | .assign :: is, p, out =>
    lexItems OPTIMIZE_INLINE lexAskToInline willInline is p (out ++ [.defaultConstructed])
  | .str ss :: is, p, out =>
    (escapeAll ss).bind fun es =>
      lexItems OPTIMIZE_INLINE lexAskToInline willInline is p
        (out ++ [.stringFunction (joinSpaces es)])
  | .openStr ss :: _, _, _ =>
    (escapeAll ss).bind fun _ => .die .expectedEndingQuote
  | .lst body :: is, p, out =>
    (lexAskToInline p (spaced body) false).bind fun (literalFunctions, p) =>
      lexItems OPTIMIZE_INLINE lexAskToInline willInline is p
        (out ++ [.listFunction literalFunctions])
  | .openLst :: _, _, _ => .die .expectedCloseBracket

/-- The mode in which the scan of a token sequence ends. -/
def scanEnd : ScanMode → List Str → ScanMode
  | m, [] => m
  | .top, t :: ts =>
    if t = [] then scanEnd .top ts
    else if t = "[".toList then scanEnd (.inLst 1 []) ts
    else if t = "\"".toList then scanEnd (.inStr []) ts
    else scanEnd .top ts
  | .inStr acc, t :: ts =>
    if t = "\"".toList then scanEnd .top ts
    else scanEnd (.inStr (acc ++ [t])) ts
  | .inLst listDepth acc, t :: ts =>
    if t = "[".toList then scanEnd (.inLst (listDepth + 1) (acc ++ [t])) ts
    else if t = "]".toList then
      if listDepth - 1 ≤ 0 then scanEnd .top ts
      else scanEnd (.inLst (listDepth - 1) (acc ++ [t])) ts
    else scanEnd (.inLst listDepth (acc ++ [t])) ts

/-- The items that the scan of a token sequence completes. -/
def closedItems : ScanMode → List Str → List Item
  | _, [] => []
  | .top, t :: ts =>
    if t = [] then closedItems .top ts
    else if t = "[".toList then closedItems (.inLst 1 []) ts
    else if t = "\"".toList then closedItems (.inStr []) ts
    else if t = ":=".toList then .assign :: closedItems .top ts
    else .plain t :: closedItems .top ts
  | .inStr acc, t :: ts =>
    if t = "\"".toList then .str acc :: closedItems .top ts
    else closedItems (.inStr (acc ++ [t])) ts
  | .inLst listDepth acc, t :: ts =>
    if t = "[".toList then closedItems (.inLst (listDepth + 1) (acc ++ [t])) ts
    else if t = "]".toList then
      if listDepth - 1 ≤ 0 then .lst acc :: closedItems .top ts
      else closedItems (.inLst (listDepth - 1) (acc ++ [t])) ts
    else closedItems (.inLst listDepth (acc ++ [t])) ts

/-- The item left open in a mode. -/
def openItem : ScanMode → List Item
  | .top => []
  | .inStr acc => [.openStr acc]
  | .inLst _ _ => [.openLst]

/-- The popped types of one alternative, read off the tokens after `::`: the types
before the first `->` token, and the tokens after it. -/
def popsTokens : List CharmTypes → List Str → Outcome (List CharmTypes × List Str)
  | pops, [] => .ok (pops, [])
  | pops, t :: ts =>
    if t = [] then popsTokens pops ts
    else if t = "->".toList then .ok (pops, ts)
    else if t = "|".toList then .die .typeAlternativeBeforeCompletion
    else (tokenToType t).bind fun ty => popsTokens (pops ++ [ty]) ts

/-- The pushed types of one alternative, read off the tokens after `->`: the types
before the first `|` token or the end of the line, and whether a `|` token was met. -/
def pushesTokens : List CharmTypes → List Str → Outcome (Bool × List CharmTypes)
  | pushes, [] => .ok (false, pushes)
  | pushes, t :: ts =>
    if t = [] then pushesTokens pushes ts
    else if t = "|".toList then .ok (true, pushes)
    else (tokenToType t).bind fun ty => pushesTokens (pushes ++ [ty]) ts

/-- One pass of `parseTypeSignature` from the label `ParseUnit:` over the tokens after
`::`: whether the pass ends at a `|` token, and the unit it builds. -/
def unitTokens (ts : List Str) : Outcome (Bool × CharmTypeSignatureUnit) :=
  (popsTokens [] ts).bind fun r =>
    (pushesTokens [] r.2).bind fun s => .ok (s.1, ⟨r.1, s.2⟩)

/-- The parser state after `parseDefinition` has analysed a definition of `functionName`
with the parsed body `literalFunctions`, from the state left by lexing the body. -/
def definedState (p : Parser) (functionName : Str) (literalFunctions : List CharmFunction) :
    Parser :=
  { definitionInfoCache :=
      mapInsert functionName (analyzeDefinition p.fA functionName literalFunctions).1
        p.definitionInfoCache,
    fA := (analyzeDefinition p.fA functionName literalFunctions).2 }

/-- A session: the inputs are given to `lex` one after the other on the same parser. -/
def session (OPTIMIZE_INLINE : Bool) (fuel : Nat) : Parser → List Str → Outcome Parser
  | p, [] => .ok p
  | p, charmInput :: inputs =>
    (lex OPTIMIZE_INLINE fuel p charmInput).bind fun r => session OPTIMIZE_INLINE fuel r.2 inputs

/-- The condition under which a call site of `name` is not auto-inlined: a type signature
is registered for `name`, and the cache holds no info for `name` that says inlineable. -/
def SignatureGuards (name : Str) (p : Parser) : Prop :=
  (mapFind name p.fA.typeSignatures).isSome = true ∧
    ∀ defInfo, mapFind name p.definitionInfoCache = some defInfo → defInfo.inlineable = false

/-- The tokens of a text: it is cut at every space. -/
def splitSpaces : Str → List Str
  | [] => [[]]
  | c :: cs =>
    if c = ' ' then [] :: splitSpaces cs
    else
      match splitSpaces cs with
      | [] => [[c]]
      | t :: ts => (c :: t) :: ts

/-- Balance of the `[` and `]` tokens of a token sequence, scanned left to right from a
given depth: the depth never goes negative and ends at zero. -/
def balancedFrom : Int → List Str → Bool
  | listDepth, [] => listDepth = 0
  | listDepth, t :: ts =>
    if t = "[".toList then balancedFrom (listDepth + 1) ts
    else if t = "]".toList then decide (0 ≤ listDepth - 1) && balancedFrom (listDepth - 1) ts
    else balancedFrom listDepth ts

/-- The tokens read so far in a mode. -/
def ScanMode.acc : ScanMode → List Str
  | .top => []
  | .inStr acc => acc
  | .inLst _ acc => acc

/-- A token of a line that holds no definition and no signature, at any depth. -/
def PlainToken (t : Str) : Prop :=
  (' ' ∉ t ∧ '\n' ∉ t) ∧ t ≠ ":=".toList ∧ t ≠ "::".toList

/-- Whether the bracket depth, started at `listDepth` and moved by +1 on each `[` token and
by −1 on each `]` token, never reaches 0 over a token sequence. -/
def neverCloses : Int → List Str → Bool
  | _, [] => true
  | listDepth, t :: ts =>
    if t = "[".toList then neverCloses (listDepth + 1) ts
    else if t = "]".toList then decide (listDepth - 1 ≠ 0) && neverCloses (listDepth - 1) ts
    else neverCloses listDepth ts

/-- The escape table of the specification, applied by a scan from left to right: the pairs
`\n`, `\"`, `\t`, `\0` and `\\` become LF, `"`, TAB, NUL (the character of code 0) and one
backslash; the scan goes on after the character it has written.  A backslash before any
other character is kept, and so is the last character of the token. -/
def escapeTable : Str → Str
  | [] => []
  | [c] => [c]
  | c :: d :: cs =>
    if c = '\\' then
      if d = 'n' then '\n' :: escapeTable cs
      else if d = '"' then '"' :: escapeTable cs
      else if d = 't' then '\t' :: escapeTable cs
      else if d = '0' then Char.ofNat 0 :: escapeTable cs
      else if d = '\\' then '\\' :: escapeTable cs
      else c :: escapeTable (d :: cs)
    else c :: escapeTable (d :: cs)

/-- Whether the scan of the escape table meets the pair `\0`. -/
def meetsNulPair : Str → Bool
  | [] => false
  | [_] => false
  | c :: d :: cs =>
    if c = '\\' then
      if d = 'n' then meetsNulPair cs
      else if d = '"' then meetsNulPair cs
      else if d = 't' then meetsNulPair cs
      else if d = '0' then true
      else if d = '\\' then meetsNulPair cs
      else meetsNulPair (d :: cs)
    else meetsNulPair (d :: cs)

/-- The state of the scan of a line after a token sequence, read off the tokens: the list
depth (+1 on each `[` token, −1 on each `]` token) and the string flag (toggled by each
`"` token), from a given state. -/
def scanState : List Str → Int × Bool → Int × Bool
  | [], s => s
  | t :: ts, s =>
    scanState ts
      (if t = "[".toList then (s.1 + 1, s.2)
       else if t = "]".toList then (s.1 - 1, s.2)
       else if t = "\"".toList then (s.1, !s.2)
       else s)

/-- Each name token of a token sequence occurs as a name node in a node list, at some list
depth.  A name token is a token that is not empty, not a bracket and not a number (the
tokens `"`, `:=` and `::` are excluded where this is used). -/
def NamesQuoted (ts : List Str) (nodes : List CharmFunction) : Prop :=
  ∀ n ∈ ts, n ≠ [] → n ≠ "[".toList → n ≠ "]".toList → isStringNumber n = false →
    bodyReferencesName n nodes = true

/-- A token of the interior of a quotation: a name, a number or a bracket; not `"`, `:=`
or `::`. -/
def QuotedToken (t : Str) : Prop :=
  PlainToken t ∧ t ≠ "\"".toList

/-- The non-empty tokens of a token sequence: the tokens of the text in which every run of
spaces is replaced by a single space, and spaces at the start and at the end are dropped. -/
def squeeze (ts : List Str) : List Str :=
  ts.filter fun t => decide (t ≠ [])

/-- The scan mode with the empty tokens removed from the tokens read so far. -/
def ScanMode.squeeze : ScanMode → ScanMode
  | .top => .top
  | .inStr acc => .inStr acc
  | .inLst listDepth acc => .inLst listDepth (Charm.squeeze acc)

/-- A name of a definition or of a signature, as one token: no space and no LF in it, not
a bracket and not a quote, and no separator inside it. -/
def NameToken (name : Str) : Prop :=
  (' ' ∉ name ∧ '\n' ∉ name) ∧
    (name ≠ "[".toList ∧ name ≠ "]".toList ∧ name ≠ "\"".toList) ∧
    ¬ ":=".toList <:+: name ∧ ¬ "::".toList <:+: name

mutual
/-- The definitions held by a node, in the order in which they were parsed: those of a
list body; for a definition node, those of its body, then the definition itself, as the
pair of its name and its body. -/
def definitionsOf : CharmFunction → List (Str × List CharmFunction)
  | .listFunction literalFunctions => definitionsIn literalFunctions
  | .functionDefinition functionName literalFunctions _ =>
    definitionsIn literalFunctions ++ [(functionName, literalFunctions)]
  | _ => []
/-- The definitions held by the nodes of a node list (see `definitionsOf`). -/
def definitionsIn : List CharmFunction → List (Str × List CharmFunction)
  | [] => []
  | f :: fs => definitionsOf f ++ definitionsIn fs
end

/-- What the scan of `escapeString` makes of the part of a token that it has not scanned
yet.  Each of the pairs `\n`, `\"`, `\t`, `\\` becomes one character and the scan goes on
after it.  The pair `\0` is deleted, and the scan goes on one character further, so the
character after the pair is kept unscanned; when the pair ends the token, the cursor is
moved past the end of the token.  A backslash before any other character is kept, and so
is the last character of the token. -/
def escapeScan : Str → Outcome Str
  | [] => .ok []
  | [c] => .ok [c]
  | [c, d] =>
    if c = '\\' then
      if d = 'n' then .ok ['\n']
      else if d = '"' then .ok ['"']
      else if d = 't' then .ok ['\t']
      else if d = '0' then .fault .readPastEnd
      else if d = '\\' then .ok ['\\']
      else .ok [c, d]
    else .ok [c, d]
  | c :: d :: x :: cs =>
    if c = '\\' then
      if d = 'n' then (escapeScan (x :: cs)).map fun r => '\n' :: r
      else if d = '"' then (escapeScan (x :: cs)).map fun r => '"' :: r
      else if d = 't' then (escapeScan (x :: cs)).map fun r => '\t' :: r
      else if d = '0' then (escapeScan cs).map fun r => x :: r
      else if d = '\\' then (escapeScan (x :: cs)).map fun r => '\\' :: r
      else (escapeScan (d :: x :: cs)).map fun r => c :: r
    else (escapeScan (d :: x :: cs)).map fun r => c :: r

/-- The digits `0` to `7`. -/
def octalChars : Str := "01234567".toList

/-- The digits of an integer literal: one or more decimal digits, which are all octal
digits when the first one is `0`. -/
def integerDigits : Str → Bool
  | [] => false
  | c :: rest =>
    if c = '0' then rest.all fun d => decide (d ∈ octalChars)
    else (c :: rest).all fun d => decide (d ∈ digitChars)

/-- A number literal as GMP reads the numeric tokens, in the words of its manual.  An
integer (a token without `.`) is an optional `-` followed by one or more digits, which are
all octal digits when the first one is `0` (a leading `0` selects base 8).  A float (a token
with `.`) is an optional `-` followed by decimal digits and exactly one decimal point, with
at least one digit. -/
def numberLiteral (t : Str) : Bool :=
  if '.' ∈ t then
    (unsignedPart t).all (fun c => decide (c ∈ digitChars) || decide (c = '.')) &&
      decide ((unsignedPart t).count '.' = 1) &&
      (unsignedPart t).any (fun c => decide (c ∈ digitChars))
  else integerDigits (unsignedPart t)

/-- What lexing a quotation (a sequence of names, numbers and nested lists) gives, as an
outcome that holds the nodes: when it holds nodes, every name token occurs in them as a
name node; it holds nodes when every numeric token is a number literal that GMP reads;
and when some numeric token is not, it is the exception of the GMP constructor. -/
def Quotes (ts : List Str) (res : Outcome (List CharmFunction)) : Prop :=
  (∀ nodes, res = .ok nodes → NamesQuoted ts nodes) ∧
    ((∀ t ∈ ts, isStringNumber t = true → numberLiteral t = true) → ∃ nodes, res = .ok nodes) ∧
    ((∃ t ∈ ts, isStringNumber t = true ∧ numberLiteral t = false) →
      res = .fault .invalidArgument)

/-- Whether every numeric token of a token sequence is a number literal that GMP reads. -/
def validNumbers (ts : List Str) : Bool :=
  ts.all fun t => !numericToken t || numberLiteral t

/-- The white-space characters of the "C" locale: space, TAB, LF, VT, FF and CR. -/
def whitespaceChars : Str := [' ', '\t', '\n', Char.ofNat 11, Char.ofNat 12, '\r']

/-- The type tokens of a signature and the types they stand for, in the words of the
specification. -/
def typeTable : List (Str × CharmTypes) :=
  [("any".toList, .TYPESIG_ANY), ("list".toList, .TYPESIG_LIST),
    ("list/string".toList, .TYPESIG_LISTSTRING), ("string".toList, .TYPESIG_STRING),
    ("int".toList, .TYPESIG_INT), ("float".toList, .TYPESIG_FLOAT)]

/-- The tokens of a line from which the empty tokens outside string literals are removed,
so that every run of spaces outside a string literal becomes a single space.  The scan is
that of the token loop: at top level an empty token is dropped; from a `"` token to the next
one, or to the end when there is none, every token is kept, the empty ones too; the
interior of a list literal, from a `[` token to the `]` token that closes it, or to the end
when none closes it, is rewritten by `sq`. -/
def squeezeFrom (sq : List Str → List Str) : ScanMode → List Str → List Str
  | .top, [] => []
  | .top, t :: ts =>
    if t = [] then squeezeFrom sq .top ts
    else if t = "[".toList then squeezeFrom sq (.inLst 1 []) ts
    else if t = "\"".toList then t :: squeezeFrom sq (.inStr []) ts
    else t :: squeezeFrom sq .top ts
  | .inStr _, [] => []
  | .inStr acc, t :: ts =>
    if t = "\"".toList then t :: squeezeFrom sq .top ts
    else t :: squeezeFrom sq (.inStr acc) ts
  | .inLst _ acc, [] => "[".toList :: sq acc
  | .inLst listDepth acc, t :: ts =>
    if t = "[".toList then squeezeFrom sq (.inLst (listDepth + 1) (acc ++ [t])) ts
    else if t = "]".toList then
      if listDepth - 1 ≤ 0 then "[".toList :: sq acc ++ t :: squeezeFrom sq .top ts
      else squeezeFrom sq (.inLst (listDepth - 1) (acc ++ [t])) ts
    else squeezeFrom sq (.inLst listDepth (acc ++ [t])) ts

/-- The tokens of a line from which the empty tokens outside string literals are removed,
in the line itself and in the interiors of its list literals down to `n` levels (level 0
is the line as it is, level 1 the line without the interiors of its lists). -/
def squeezeOutside : Nat → List Str → List Str
  | 0, ts => ts
  | n + 1, ts => squeezeFrom (squeezeOutside n) .top ts

instance : DecidablePred PlainToken := fun t => by unfold PlainToken; infer_instance

instance : DecidablePred QuotedToken := fun t => by unfold QuotedToken; infer_instance

instance : DecidablePred NameToken := fun t => by unfold NameToken; infer_instance

/-- Lines joined by LF characters. -/
def joinLines : List Str → Str
  | [] => []
  | [l] => l
  | l :: l' :: ls => l ++ '\n' :: joinLines (l' :: ls)

/-- The test of the line classifier on a token sequence: whether a token equal to `sep`
stands at a place where the bracket depth (+1 on each `[` token, −1 on each `]` token) is
0 and the string flag (toggled by each `"` token) is off, from a given state. -/
def topSeparator (sep : Str) : Int × Bool → List Str → Bool
  | _, [] => false
  | s, t :: ts =>
    (decide (t = sep) && decide (s = (0, false))) || topSeparator sep (scanState [t] s) ts

/-- The tokens before the first token equal to `sep`. -/
def beforeSeparator (sep : Str) : List Str → List Str
  | [] => []
  | t :: ts => if t = sep then [] else t :: beforeSeparator sep ts

/-- The tokens after the first token equal to `sep`. -/
def afterSeparator (sep : Str) : List Str → List Str
  | [] => []
  | t :: ts => if t = sep then ts else afterSeparator sep ts

/-- Whether the non-empty tokens of a token sequence are one token, and that token a name
(`NameToken`). -/
def oneName (pre : List Str) : Bool :=
  match squeeze pre with
  | [name] => decide (NameToken name)
  | _ => false

/-- A test on the interior tokens of an item that is a closed list literal. -/
def Item.interior (R : List Str → Bool) : Item → Bool
  | .lst body => R body
  | _ => true

/-- Whether every definition and every signature of a line has a name of one token.  A
definition line (a `:=` token stands at depth 0 outside quotes): the tokens before the
first `:=` token are one name, and the tokens after it, the body, are such a line in turn.
Else a signature line (a `::` token stands at depth 0 outside quotes): the tokens before
the first `::` token are one name.  Else an expression line: the interior of each of its
closed list literals is such a line in turn.  The number `k` bounds the nesting of bodies
and list literals that is looked at: a line nested deeper is not accepted, and a line
accepted with `k` is accepted with any larger number. -/
def singleNames : Nat → List Str → Bool
  | 0, _ => false
  | k + 1, ts =>
    if topSeparator ":=".toList (0, false) ts then
      oneName (beforeSeparator ":=".toList ts) &&
        singleNames k (afterSeparator ":=".toList ts)
    else if topSeparator "::".toList (0, false) ts then
      oneName (beforeSeparator "::".toList ts)
    else (itemize ts).all (Item.interior fun body => singleNames k body)

/-! # Theorems -/

/-! ## Strings, tokens and pieces -/

theorem joinSpaces_eq_intercalate (ts : List Str) : joinSpaces ts = [' '].intercalate ts := by
  induction ts with
  | nil => rfl
  | cons t ts ih =>
    cases ts with
    | nil => simp [joinSpaces, List.intercalate]
    | cons t' ts =>
      simp only [joinSpaces, ih]
      simp [List.intercalate, List.intersperse]

theorem find_first_of_append {ch : Char} {t : Str} (h : ch ∉ t) (r : Str) :
    find_first_of ch (t ++ ch :: r) = some t.length := by
  induction t with
  | nil => simp [find_first_of]
  | cons c cs ih =>
    have hc : c ≠ ch := fun e => h (by simp [e])
    have hcs : ch ∉ cs := fun e => h (by simp [e])
    simp [find_first_of, hc, ih hcs]

theorem find_first_of_none {ch : Char} {t : Str} (h : ch ∉ t) :
    find_first_of ch t = none := by
  induction t with
  | nil => simp [find_first_of]
  | cons c cs ih =>
    have hc : c ≠ ch := fun e => h (by simp [e])
    have hcs : ch ∉ cs := fun e => h (by simp [e])
    simp [find_first_of, hc, ih hcs]

theorem advanceParse_nil (token : Str) : advanceParse token [] = (false, token, []) := by
  simp [advanceParse]

theorem advanceParse_append {t : Str} (h : ' ' ∉ t) (token r : Str) :
    advanceParse token (t ++ ' ' :: r) = (true, t, r) := by
  simp [advanceParse, find_first_of_append h]

theorem advanceParse_last {t : Str} (h : ' ' ∉ t) (ht : t ≠ []) (token : Str) :
    advanceParse token t = (true, t, []) := by
  simp [advanceParse, find_first_of_none h, ht]

theorem getlineAll_append {d : Char} {t : Str} (h : d ∉ t) (r : Str) :
    getlineAll d (t ++ d :: r) = t :: getlineAll d r := by
  induction t with
  | nil => simp [getlineAll]
  | cons c cs ih =>
    have hc : c ≠ d := fun e => h (by simp [e])
    have hcs : d ∉ cs := fun e => h (by simp [e])
    simp [getlineAll, hc, ih hcs]

theorem getlineAll_single {d : Char} {t : Str} (h : d ∉ t) (ht : t ≠ []) :
    getlineAll d t = [t] := by
  induction t with
  | nil => exact absurd rfl ht
  | cons c cs ih =>
    have hc : c ≠ d := fun e => h (by simp [e])
    have hcs : d ∉ cs := fun e => h (by simp [e])
    cases cs with
    | nil => simp [getlineAll, hc]
    | cons c' cs' =>
      have := ih hcs (by simp)
      rw [getlineAll, if_neg hc, this]

theorem isCharDigit_iff (c : Char) : isCharDigit c = true ↔ c ∈ numberChars := by
  simp [isCharDigit, numberChars]

theorem mem_digitChars_iff (c : Char) :
    c ∈ digitChars ↔ c ∈ numberChars ∧ c ≠ '.' ∧ c ≠ '-' := by
  simp only [digitChars, numberChars]
  constructor
  · intro h
    simp at h
    rcases h with h | h | h | h | h | h | h | h | h | h <;> subst h <;> decide
  · rintro ⟨h, h1, h2⟩
    simp at h
    rcases h with h | h | h | h | h | h | h | h | h | h | h | h <;> simp_all

theorem isStringNumberLoop_eq (s : Str) (hasDigit hasPunctuation : Bool) :
    isStringNumberLoop s hasDigit hasPunctuation = true ↔
      (∀ c ∈ s, c ∈ numberChars) ∧ (hasDigit = true ∨ ∃ c ∈ s, c ∈ digitChars) := by
  induction s generalizing hasDigit hasPunctuation with
  | nil => cases hasDigit <;> cases hasPunctuation <;> simp [isStringNumberLoop]
  | cons c cs ih =>
    rw [isStringNumberLoop]
    by_cases hc : c ∈ numberChars
    · have h1 : isCharDigit c = true := (isCharDigit_iff c).2 hc
      by_cases hp : c = '.' ∨ c = '-'
      · have hnd : c ∉ digitChars := by
          rw [mem_digitChars_iff]; rcases hp with h | h <;> simp [h]
        have : (decide (c = '.') || decide (c = '-')) = true := by
          rcases hp with h | h <;> simp [h]
        simp only [h1, this, Bool.not_true, Bool.false_eq_true, if_false, if_true, ih]
        simp [hc, hnd]
      · have hd : c ∈ digitChars := by
          rw [mem_digitChars_iff]; push_neg at hp; exact ⟨hc, hp.1, hp.2⟩
        have : (decide (c = '.') || decide (c = '-')) = false := by
          push_neg at hp; simp [hp.1, hp.2]
        simp only [h1, this, Bool.not_true, Bool.false_eq_true, if_false, ih]
        simp [hc, hd]
    · have h1 : isCharDigit c = false := by
        rw [← Bool.not_eq_true, isCharDigit_iff]; exact hc
      simp [h1, hc]

theorem isStringNumber_iff (s : Str) :
    isStringNumber s = true ↔ (∀ c ∈ s, c ∈ numberChars) ∧ ∃ c ∈ s, c ∈ digitChars := by
  simp [isStringNumber, isStringNumberLoop_eq]

theorem recognizeFunction_number_iff (t : Str) :
    recognizeFunction t = .NUMBER_FUNCTION ↔
      (∀ c ∈ t, c ∈ numberChars) ∧ ∃ c ∈ t, c ∈ digitChars := by
  unfold recognizeFunction
  by_cases h1 : t = "[".toList
  · subst h1; simp [numberChars]
  by_cases h2 : t = "\"".toList
  · subst h2; simp [numberChars]
  by_cases h3 : t = ":=".toList
  · subst h3; simp [numberChars]
  rw [if_neg h1, if_neg h2, if_neg h3]
  by_cases h4 : isStringNumber t = true
  · simp only [h4, if_true, true_iff]; exact (isStringNumber_iff t).1 h4
  · simp only [h4, if_false]
    constructor
    · intro h; cases h
    · intro h; exact absurd ((isStringNumber_iff t).2 h) h4

/-- C2: `recognizeFunction` classifies a token as a number exactly when all its characters
are among `-`, `.`, `0`..`9` and at least one of them is a digit; so `-`, `.`, `-.` and the
empty token are not numbers, and `-5`, `1.2.3` and `1-2` are. -/
theorem recognizeFunction_number_spec :
    (∀ t : Str, recognizeFunction t = .NUMBER_FUNCTION ↔
      (∀ c ∈ t, c ∈ numberChars) ∧ ∃ c ∈ t, c ∈ digitChars) ∧
    recognizeFunction "-".toList ≠ .NUMBER_FUNCTION ∧
    recognizeFunction ".".toList ≠ .NUMBER_FUNCTION ∧
    recognizeFunction "-.".toList ≠ .NUMBER_FUNCTION ∧
    recognizeFunction [] ≠ .NUMBER_FUNCTION ∧
    recognizeFunction "-5".toList = .NUMBER_FUNCTION ∧
    recognizeFunction "1.2.3".toList = .NUMBER_FUNCTION ∧
    recognizeFunction "1-2".toList = .NUMBER_FUNCTION :=
  ⟨recognizeFunction_number_iff, by decide, by decide, by decide, by decide, by decide,
    by decide, by decide⟩

theorem numericToken_iff (t : Str) : numericToken t = true ↔ isStringNumber t = true := by
  rw [isStringNumber_iff]; simp [numericToken]

theorem recognizeFunction_plain {t : Str} (h1 : t ≠ "[".toList) (h2 : t ≠ "\"".toList)
    (h3 : t ≠ ":=".toList) :
    recognizeFunction t = if isStringNumber t then .NUMBER_FUNCTION else .DEFINED_FUNCTION := by
  rw [recognizeFunction, if_neg h1, if_neg h2, if_neg h3]

theorem delegateParsing_plain (OPT : Bool) (rec : LexCall) (p : Parser)
    (out : List CharmFunction) {t : Str} (rest : Str) (wi : Bool)
    (h1 : t ≠ "[".toList) (h2 : t ≠ "\"".toList) (h3 : t ≠ ":=".toList) :
    delegateParsing OPT rec p out t rest wi =
      (plainEmit OPT wi p t).bind fun nodes => .ok (out ++ nodes, t, rest, p) := by
  unfold delegateParsing plainEmit nameEmit
  rw [recognizeFunction_plain h1 h2 h3]
  by_cases hn : isStringNumber t = true
  · simp only [hn, if_true]
    cases parseNumberFunction t <;> rfl
  · simp only [hn, Bool.false_eq_true, if_false]
    by_cases ho : (OPT && wi) = true
    · simp only [ho, if_true, parseDefinedFunction, FunctionAnalyzer.doInline]
      cases hf : mapFind t p.definitionInfoCache with
      | none => rfl
      | some info =>
        by_cases hi : info.inlineable = true
        · simp only [hi, if_true]
          cases hb : mapFind t p.fA.inlineDefinitions <;> rfl
        · simp [hi, Outcome.bind]
    · simp [ho, parseDefinedFunction, Outcome.bind]

theorem plainEmit_number {t : Str} (h : isStringNumber t = true) (OPT wi : Bool) (p : Parser) :
    plainEmit OPT wi p t = (parseNumberFunction t).bind fun f => .ok [f] := by
  rw [plainEmit, if_pos h]

theorem plainEmit_name {t : Str} (h : isStringNumber t = false) (OPT wi : Bool) (p : Parser) :
    plainEmit OPT wi p t = .ok (nameEmit OPT wi p t) := by
  rw [plainEmit, h]; rfl

/-! ## Number literals and GMP -/

theorem numberChars_facts :
    ∀ c ∈ numberChars,
      c ≠ Char.ofNat 0 ∧ isspace c = false ∧
      (c = '@' || c = 'e' || c = 'E') = false ∧
      c ≠ 'x' ∧ c ≠ 'X' ∧ c ≠ 'b' ∧ c ≠ 'B' ∧
      gmpIsDigit 10 c = decide (c ∈ digitChars) ∧
      gmpIsDigit 8 c = decide (c ∈ octalChars) ∧
      (c ∈ digitChars ↔ c ≠ '-' ∧ c ≠ '.') := by
  decide

theorem c_str_numeric {t : Str} (h : ∀ c ∈ t, c ∈ numberChars) : c_str t = t := by
  unfold c_str
  rw [List.takeWhile_eq_self_iff]
  intro c hc
  simpa using (numberChars_facts c (h c hc)).1

theorem dropWhile_isspace_numeric {t : Str} (h : ∀ c ∈ t, c ∈ numberChars) :
    t.dropWhile isspace = t := by
  cases t with
  | nil => rfl
  | cons c cs => rw [List.dropWhile_cons, if_neg]; simp [(numberChars_facts c (h c (by simp))).2.1]

theorem unsignedPart_numeric {t : Str} (h : ∀ c ∈ t, c ∈ numberChars) :
    ∀ c ∈ unsignedPart t, c ∈ numberChars := by
  unfold unsignedPart
  split
  · intro c hc; exact h c (List.mem_cons_of_mem _ hc)
  · exact h

theorem all_dropWhile {α : Type} (p q : α → Bool) (hpq : ∀ a, p a = true → q a = true)
    (l : List α) : (l.dropWhile p).all q = l.all q := by
  induction l with
  | nil => rfl
  | cons a l ih =>
    rw [List.dropWhile_cons]
    by_cases hp : p a = true
    · rw [if_pos hp, ih, List.all_cons, hpq a hp, Bool.true_and]
    · rw [if_neg hp]

theorem all_congr_numeric {l : Str} (q q' : Char → Bool) (hl : ∀ c ∈ l, c ∈ numberChars)
    (h : ∀ c ∈ numberChars, q c = q' c) : l.all q = l.all q' := by
  induction l with
  | nil => rfl
  | cons a l ih =>
    rw [List.all_cons, List.all_cons, h a (hl a (by simp)),
      ih (fun c hc => hl c (List.mem_cons_of_mem _ hc))]

theorem mpzBase_numeric {rest : Str} (h : ∀ c ∈ rest, c ∈ numberChars) :
    mpzBase rest = (8, rest) := by
  unfold mpzBase
  split
  · exact absurd rfl (numberChars_facts _ (h _ (by simp))).2.2.2.1
  · exact absurd rfl (numberChars_facts _ (h _ (by simp))).2.2.2.2.1
  · exact absurd rfl (numberChars_facts _ (h _ (by simp))).2.2.2.2.2.1
  · exact absurd rfl (numberChars_facts _ (h _ (by simp))).2.2.2.2.2.2.1
  · rfl

theorem mpzDigits_numeric {u : Str} (hu : ∀ c ∈ u, c ∈ numberChars) :
    mpzDigits u = integerDigits u := by
  cases u with
  | nil => rfl
  | cons c rest =>
    have hc := numberChars_facts c (hu c (by simp))
    have hrest : ∀ d ∈ rest, d ∈ numberChars := fun d hd => hu d (List.mem_cons_of_mem _ hd)
    rw [mpzDigits, integerDigits, hc.2.2.2.2.2.2.2.1]
    simp only []
    by_cases h0 : c = '0'
    · subst h0
      rw [if_neg (by decide), if_pos rfl, if_pos rfl, mpzBase_numeric hrest]
      simp only []
      rw [all_dropWhile _ _ (fun a ha => by
        simp only [Bool.or_eq_true, decide_eq_true_eq] at ha
        rcases ha with ha | ha
        · subst ha; decide
        · simp [ha])]
      exact all_congr_numeric _ _ hrest (fun d hd => by
        have := numberChars_facts d hd
        rw [this.2.1, this.2.2.2.2.2.2.2.2.1]; rfl)
    · rw [if_neg h0, if_neg h0]
      by_cases hd : c ∈ digitChars
      · rw [if_neg (by simp [hd])]
        simp only []
        rw [List.dropWhile_cons, if_neg (by simp [h0, hc.2.1])]
        exact all_congr_numeric _ _ hu (fun d hd => by
          have := numberChars_facts d hd
          rw [this.2.1, this.2.2.2.2.2.2.2.1]; rfl)
      · rw [if_pos (by simp [hd])]
        simp [hd]

theorem mpfMantissa_numeric {u : Str} (hu : ∀ c ∈ u, c ∈ numberChars) :
    mpfMantissa u = u ∧ mpfExponent u = none := by
  cases u with
  | nil => exact ⟨rfl, rfl⟩
  | cons c cs =>
    have hcs : ∀ d ∈ cs, (d = '@' || d = 'e' || d = 'E') = false :=
      fun d hd => (numberChars_facts d (hu d (List.mem_cons_of_mem _ hd))).2.2.1
    constructor
    · rw [mpfMantissa]
      have : (cs.reverse.dropWhile fun c => !(c = '@' || c = 'e' || c = 'E')) = [] := by
        rw [List.dropWhile_eq_nil_iff]
        intro d hd
        rw [hcs d (List.mem_reverse.1 hd)]; rfl
      rw [this]
    · rw [mpfExponent, if_neg]
      simp only [List.any_eq_true, not_exists, not_and]
      intro d hd
      rw [hcs d hd]; simp

theorem mpfMantissaLoop_numeric : ∀ (u : Str), (∀ c ∈ u, c ∈ numberChars) →
    ∀ dotSeen : Bool, mpfMantissaLoop u dotSeen =
      (u.all (fun c => decide (c ∈ digitChars) || decide (c = '.')) &&
        decide (u.count '.' + (if dotSeen then 1 else 0) ≤ 1))
  | [], _, dotSeen => by cases dotSeen <;> rfl
  | c :: cs, hu, dotSeen => by
    have hc := numberChars_facts c (hu c (by simp))
    have ih := mpfMantissaLoop_numeric cs (fun d hd => hu d (List.mem_cons_of_mem _ hd))
    rw [mpfMantissaLoop, hc.2.1, if_neg (by simp), hc.2.2.2.2.2.2.2.1, List.all_cons]
    by_cases hp : c = '.'
    · subst hp
      rw [if_pos rfl, ih true, List.count_cons_self]
      cases dotSeen
      · simp
      · simp
    · rw [if_neg hp, ih dotSeen, List.count_cons_of_ne (fun e => hp e.symm)]
      simp [hp, Bool.and_assoc]

theorem mpfLeading_numeric : ∀ (u : Str), (∀ c ∈ u, c ∈ numberChars) →
    u.all (fun c => decide (c ∈ digitChars) || decide (c = '.')) = true →
    u.count '.' = 1 →
    mpfLeading u = u.any fun c => decide (c ∈ digitChars)
  | [], _, _, _ => rfl
  | [c], hu, _, _ => by
    rw [mpfLeading, (numberChars_facts c (hu c (by simp))).2.2.2.2.2.2.2.1]
    simp
  | c :: d :: r, hu, hall, hcount => by
    have hc := numberChars_facts c (hu c (by simp))
    have hd := numberChars_facts d (hu d (by simp))
    rw [mpfLeading, hc.2.2.2.2.2.2.2.1, hd.2.2.2.2.2.2.2.1, List.any_cons, List.any_cons]
    by_cases h1 : c ∈ digitChars
    · simp [h1]
    · simp only [List.all_cons, Bool.and_eq_true, Bool.or_eq_true, decide_eq_true_eq] at hall
      have hcp : c = '.' := hall.1.resolve_left h1
      subst hcp
      rw [List.count_cons_self] at hcount
      have hzero : (d :: r).count '.' = 0 := by omega
      have hdp : d ≠ '.' := by
        intro e
        subst e
        rw [List.count_cons_self] at hzero
        omega
      have hdd : d ∈ digitChars := hall.2.1.resolve_right hdp
      simp [hdd]

theorem mem_unsignedPart {t : Str} {c : Char} (hc : c ≠ '-') (h : c ∈ t) :
    c ∈ unsignedPart t := by
  unfold unsignedPart
  split
  · rcases List.mem_cons.1 h with h | h
    · exact absurd h hc
    · exact h
  · exact h

theorem mpf_set_str_numeric {t : Str} (h : ∀ c ∈ t, c ∈ numberChars) (hp : '.' ∈ t) :
    mpf_set_str t =
      ((unsignedPart t).all (fun c => decide (c ∈ digitChars) || decide (c = '.')) &&
        decide ((unsignedPart t).count '.' = 1) &&
        (unsignedPart t).any (fun c => decide (c ∈ digitChars))) := by
  unfold mpf_set_str
  rw [dropWhile_isspace_numeric h]
  have hu := unsignedPart_numeric h
  have hpu : '.' ∈ unsignedPart t := mem_unsignedPart (by decide) hp
  generalize unsignedPart t = u at hu hpu
  simp only []
  rw [(mpfMantissa_numeric hu).1, (mpfMantissa_numeric hu).2, mpfMantissaLoop_numeric u hu]
  have hpos : 0 < u.count '.' := List.count_pos_iff.2 hpu
  by_cases hall : u.all (fun c => decide (c ∈ digitChars) || decide (c = '.')) = true
  · by_cases hcount : u.count '.' = 1
    · rw [mpfLeading_numeric u hu hall hcount, hall, hcount]
      simp [mpfExponentOk]
    · have : ¬ (u.count '.' ≤ 1) := by omega
      simp [hall, hcount, this]
  · simp [hall]

theorem numericToken_plainNode {t : Str} (h : isStringNumber t = true) :
    plainNode t =
      if '.' ∈ t then .numberFunction (.floatValue t) else .numberFunction (.integerValue t) := by
  rw [plainNode, (numericToken_iff t).2 h]
  rfl

/-- On a numeric token, `parseNumberFunction` returns the number node when the token is a
number literal that GMP reads, and leaves by the exception of the GMP constructor when it
is not. -/
theorem parseNumberFunction_numeric (t : Str) (h : isStringNumber t = true) :
    parseNumberFunction t =
      if numberLiteral t then .ok (plainNode t) else .fault .invalidArgument := by
  have hnum : ∀ c ∈ t, c ∈ numberChars := ((isStringNumber_iff t).1 h).1
  rw [numericToken_plainNode h, parseNumberFunction, numberLiteral]
  by_cases hp : '.' ∈ t
  · rw [if_pos hp, if_pos hp, if_pos hp, mpf_class, c_str_numeric hnum,
      mpf_set_str_numeric hnum hp]
    split_ifs <;> rfl
  · rw [if_neg hp, if_neg hp, if_neg hp, mpz_class, c_str_numeric hnum, mpz_set_str,
      dropWhile_isspace_numeric hnum, mpzDigits_numeric (unsignedPart_numeric hnum)]
    split_ifs <;> rfl

theorem plainEmit_emptyCache (OPT wi : Bool) (p : Parser) (t : Str)
    (hp : p.definitionInfoCache = []) :
    plainEmit OPT wi p t =
      if !numericToken t || numberLiteral t then .ok [plainNode t]
      else .fault .invalidArgument := by
  by_cases hn : isStringNumber t = true
  · have hnt := (numericToken_iff t).2 hn
    rw [plainEmit_number hn, parseNumberFunction_numeric t hn, hnt]
    by_cases hl : numberLiteral t = true
    · simp [hl, Outcome.bind]
    · simp [hl, Outcome.bind]
  · have hn' : isStringNumber t = false := by simpa using hn
    have : numericToken t = false := by
      rw [← Bool.not_eq_true, numericToken_iff]; exact hn
    rw [plainEmit_name hn']
    simp [nameEmit, plainNode, this, hp, mapFind]

theorem classifyLoop_false (isSeparator : Str → Bool) (fs : List Str)
    (h : ∀ f ∈ fs, isSeparator f = false) (stringDepth : Bool) (listDepth : Int) :
    classifyLoop isSeparator fs stringDepth listDepth = false := by
  induction fs generalizing stringDepth listDepth with
  | nil => rfl
  | cons f fs ih =>
    rw [classifyLoop]
    simp only [h f (by simp), Bool.and_false, Bool.false_eq_true, if_false]
    exact ih (fun g hg => h g (by simp [hg])) _ _

theorem getlineAll_spaceFree {d : Char} {t : Str} (h : d ∉ t) :
    getlineAll d t = if t = [] then [] else [t] := by
  by_cases ht : t = []
  · subst ht; rfl
  · rw [if_neg ht]; exact getlineAll_single h ht

theorem mem_getlineAll_joinSpaces {ts : List Str} (h : ∀ t ∈ ts, ' ' ∉ t) :
    ∀ f ∈ getlineAll ' ' (joinSpaces ts), f ∈ ts := by
  induction ts with
  | nil => simp [joinSpaces, getlineAll]
  | cons t ts ih =>
    cases ts with
    | nil =>
      intro f hf
      rw [joinSpaces, getlineAll_spaceFree (h t (by simp))] at hf
      by_cases ht : t = []
      · simp [ht] at hf
      · simp [ht] at hf; simp [hf]
    | cons t' ts =>
      intro f hf
      rw [joinSpaces, getlineAll_append (h t (by simp))] at hf
      rcases List.mem_cons.1 hf with hf | hf
      · simp [hf]
      · exact List.mem_cons_of_mem _ (ih (fun u hu => h u (by simp [hu])) f hf)

theorem not_mem_joinSpaces {c : Char} (hc : c ≠ ' ') {ts : List Str} (h : ∀ t ∈ ts, c ∉ t) :
    c ∉ joinSpaces ts := by
  induction ts with
  | nil => simp [joinSpaces]
  | cons t ts ih =>
    cases ts with
    | nil => simpa [joinSpaces] using h t (by simp)
    | cons t' ts =>
      rw [joinSpaces]
      simp only [List.mem_append, List.mem_cons, not_or]
      exact ⟨h t (by simp), hc, ih (fun u hu => h u (by simp [hu]))⟩

theorem joinSpaces_single (t : Str) : joinSpaces [t] = t := rfl

theorem joinSpaces_cons_cons (t t' : Str) (ts : List Str) :
    joinSpaces (t :: t' :: ts) = t ++ ' ' :: joinSpaces (t' :: ts) := rfl

theorem length_joinSpaces_cons (t t' : Str) (ts : List Str) :
    (joinSpaces (t :: t' :: ts)).length = t.length + 1 + (joinSpaces (t' :: ts)).length := by
  simp [joinSpaces_cons_cons]; omega

/-- The token loop on a line of names and numbers, with an empty cache: each non-empty
token appends its node, unless GMP rejects a numeric token. -/
theorem tokenLoop_plain (OPT : Bool) (rec : LexCall) (wi : Bool) (p : Parser)
    (ts : List Str) (hp : p.definitionInfoCache = [])
    (h : ∀ t ∈ ts, ' ' ∉ t ∧ t ≠ "[".toList ∧ t ≠ "\"".toList ∧ t ≠ ":=".toList) :
    ∀ (n : Nat) (out : List CharmFunction) (token : Str),
      (joinSpaces ts).length < n →
      tokenLoop OPT rec wi n p out token (joinSpaces ts) =
        if validNumbers ts then
          .ok (out ++ (ts.filter (fun t => decide (t ≠ []))).map plainNode, p)
        else .fault .invalidArgument := by
  induction ts with
  | nil =>
    intro n out token hn
    cases n with
    | zero => omega
    | succ n => simp [tokenLoop, joinSpaces, advanceParse_nil, validNumbers]
  | cons t ts ih =>
    intro n out token hn
    obtain ⟨hs, h1, h2, h3⟩ := h t (by simp)
    have hv : validNumbers (t :: ts) = ((!numericToken t || numberLiteral t) && validNumbers ts) :=
      rfl
    cases n with
    | zero => omega
    | succ n =>
      cases ts with
      | nil =>
        rw [joinSpaces_single] at hn ⊢
        by_cases ht : t = []
        · subst ht
          simp [tokenLoop, advanceParse_nil, validNumbers, numericToken]
        · have hl : 0 < t.length := List.length_pos.2 ht
          rw [tokenLoop]
          simp only [advanceParse_last hs ht, if_neg ht]
          rw [delegateParsing_plain OPT rec p out [] wi h1 h2 h3,
            plainEmit_emptyCache OPT wi p t hp, hv]
          by_cases hl : (!numericToken t || numberLiteral t) = true
          · rw [if_pos hl, hl]
            simp only [Outcome.bind]
            cases n with
            | zero => omega
            | succ n => simp [tokenLoop, advanceParse_nil, ht, validNumbers]
          · rw [if_neg hl]
            simp only [Bool.not_eq_true] at hl
            rw [hl]
            rfl
      | cons t' ts =>
        have ih' := ih (fun u hu => h u (by simp [hu]))
        rw [length_joinSpaces_cons] at hn
        rw [joinSpaces_cons_cons, tokenLoop]
        simp only [advanceParse_append hs]
        by_cases ht : t = []
        · subst ht
          simp only [if_true]
          rw [ih' n out [] (by omega), hv]
          simp [numericToken]
        · rw [if_neg ht, delegateParsing_plain OPT rec p out _ wi h1 h2 h3,
            plainEmit_emptyCache OPT wi p t hp, hv]
          by_cases hl : (!numericToken t || numberLiteral t) = true
          · rw [if_pos hl, hl]
            simp only [Outcome.bind]
            rw [ih' n _ t (by omega)]
            simp [ht, List.filter_cons]
          · rw [if_neg hl]
            simp only [Bool.not_eq_true] at hl
            rw [hl]
            rfl

theorem getlineAll_line {line : Str} (h : '\n' ∉ line) :
    getlineAll '\n' line = if line = [] then [] else [line] :=
  getlineAll_spaceFree h

theorem isLineFunctionDefinition_joinSpaces_false {ts : List Str}
    (h : ∀ t ∈ ts, ' ' ∉ t ∧ t ≠ ":=".toList) :
    isLineFunctionDefinition (joinSpaces ts) = false := by
  unfold isLineFunctionDefinition
  apply classifyLoop_false
  intro f hf
  have hm := mem_getlineAll_joinSpaces (fun t ht => (h t ht).1) f hf
  have h3 : f ≠ ":=".toList := (h f hm).2
  by_cases h1 : f = "[".toList
  · subst h1; decide
  by_cases h2 : f = "\"".toList
  · subst h2; decide
  rw [recognizeFunction_plain h1 h2 h3]
  by_cases hn : isStringNumber f = true <;> simp [hn]

theorem isLineTypeSignature_joinSpaces_false {ts : List Str}
    (h : ∀ t ∈ ts, ' ' ∉ t ∧ t ≠ "::".toList) :
    isLineTypeSignature (joinSpaces ts) = false := by
  unfold isLineTypeSignature
  apply classifyLoop_false
  intro f hf
  have hm := mem_getlineAll_joinSpaces (fun t ht => (h t ht).1) f hf
  simpa using (h f hm).2

/-- A single line of space-separated tokens, none of which is `[`, `"`, `:=` or `::`,
lexed with an empty definition-info cache: when every numeric token is a number literal
that GMP reads, `lex` gives exactly one node per non-empty token, in token order, and
leaves the parser state unchanged; otherwise it leaves by the exception of the GMP
constructor. -/
theorem lex_plainTokens (OPTIMIZE_INLINE : Bool) (fuel : Nat) (p : Parser) (ts : List Str)
    (hp : p.definitionInfoCache = [])
    (h : ∀ t ∈ ts, (' ' ∉ t ∧ '\n' ∉ t) ∧ t ≠ "[".toList ∧ t ≠ "\"".toList ∧
      t ≠ ":=".toList ∧ t ≠ "::".toList) :
    lex OPTIMIZE_INLINE (fuel + 1) p (joinSpaces ts) =
      if validNumbers ts then .ok ((ts.filter (fun t => decide (t ≠ []))).map plainNode, p)
      else .fault .invalidArgument := by
  have hplain : ∀ t ∈ ts, ' ' ∉ t ∧ t ≠ "[".toList ∧ t ≠ "\"".toList ∧ t ≠ ":=".toList :=
    fun t ht => ⟨(h t ht).1.1, (h t ht).2.1, (h t ht).2.2.1, (h t ht).2.2.2.1⟩
  have hloop := tokenLoop_plain OPTIMIZE_INLINE (lexAskToInline OPTIMIZE_INLINE fuel) true p ts
    hp hplain ((joinSpaces ts).length + 1) [] [] (Nat.lt_succ_self _)
  rw [List.nil_append] at hloop
  have hnl : '\n' ∉ joinSpaces ts :=
    not_mem_joinSpaces (by decide) (fun t ht => (h t ht).1.2)
  unfold lex
  rw [lexAskToInline, getlineAll_line hnl]
  by_cases hl : joinSpaces ts = []
  · rw [if_pos hl, lineLoop]
    rw [hl] at hloop
    simp only [tokenLoop, advanceParse_nil, List.length_nil] at hloop
    exact hloop
  · rw [if_neg hl, lineLoop,
      isLineFunctionDefinition_joinSpaces_false (fun t ht => ⟨(h t ht).1.1, (h t ht).2.2.2.1⟩),
      isLineTypeSignature_joinSpaces_false (fun t ht => ⟨(h t ht).1.1, (h t ht).2.2.2.2⟩)]
    simp only [Bool.false_eq_true, if_false, hloop]
    by_cases hv : validNumbers ts = true
    · simp only [hv, if_true, Outcome.bind, lineLoop]
    · simp only [hv, Bool.false_eq_true, if_false, Outcome.bind]

/-- C1 (amended): a single line of space-separated tokens, none of which is `[`, `"`, `:=`
or `::`, lexed with an empty definition-info cache.  When every numeric token is a number
literal that GMP reads (an integer: an optional `-`, then digits, all octal when the first
is `0`; a float: an optional `-`, then digits and exactly one `.`), `lex` gives exactly one
node per non-empty token, in token order: a number (a float when the token contains `.`,
an integer otherwise) for a numeric token and a name for any other token, and the parser
state is unchanged.  When some numeric token is not such a literal, `lex` returns no node
list: the GMP constructor throws. -/
theorem lex_plain_line (OPTIMIZE_INLINE : Bool) (fuel : Nat) (p : Parser) (ts : List Str)
    (hp : p.definitionInfoCache = [])
    (h : ∀ t ∈ ts, (' ' ∉ t ∧ '\n' ∉ t) ∧ t ≠ "[".toList ∧ t ≠ "\"".toList ∧
      t ≠ ":=".toList ∧ t ≠ "::".toList) :
    ((∀ t ∈ ts, numericToken t = true → numberLiteral t = true) →
      lex OPTIMIZE_INLINE (fuel + 1) p (joinSpaces ts) =
        .ok ((ts.filter (fun t => decide (t ≠ []))).map plainNode, p)) ∧
    ((∃ t ∈ ts, numericToken t = true ∧ numberLiteral t = false) →
      lex OPTIMIZE_INLINE (fuel + 1) p (joinSpaces ts) = .fault .invalidArgument) := by
  rw [lex_plainTokens OPTIMIZE_INLINE fuel p ts hp h]
  constructor
  · intro hnum
    rw [if_pos]
    simp only [validNumbers, List.all_eq_true, Bool.or_eq_true, Bool.not_eq_true']
    intro t ht
    by_cases hn : numericToken t = true
    · exact Or.inr (hnum t ht hn)
    · exact Or.inl (by simpa using hn)
  · rintro ⟨t, ht, hn, hl⟩
    rw [if_neg]
    simp only [validNumbers, List.all_eq_true, Bool.or_eq_true, Bool.not_eq_true', not_forall]
    exact ⟨t, ht, by simp [hn, hl]⟩

/-- Witness for C1: the line `2 3 +` gives the integers 2 and 3 and the name `+`; the line
`-5 1.5 007 dup` gives the integer `-5`, the float `1.5`, the integer `007` and the name
`dup`. -/
theorem lex_plain_line_witness :
    lex true 1 Parser.new "2 3 +".toList =
      .ok ([.numberFunction (.integerValue "2".toList),
            .numberFunction (.integerValue "3".toList),
            .definedFunction "+".toList], Parser.new) ∧
    lex true 1 Parser.new "-5 1.5 007 dup".toList =
      .ok ([.numberFunction (.integerValue "-5".toList),
            .numberFunction (.floatValue "1.5".toList),
            .numberFunction (.integerValue "007".toList),
            .definedFunction "dup".toList], Parser.new) :=
  ⟨(lex_plain_line true 0 Parser.new ["2".toList, "3".toList, "+".toList] rfl
      (by decide)).1 (by decide),
    (lex_plain_line true 0 Parser.new ["-5".toList, "1.5".toList, "007".toList, "dup".toList]
      rfl (by decide)).1 (by decide)⟩

/-- Counterexample to C1 as stated: the tokens `09`, `1-2` and `1.2.3` are numeric (their
characters are among `-`, `.`, `0`..`9` and they hold a digit), none is `[`, `"`, `:=` or
`::`, and on each of these lines, lexed with an empty cache, `lex` returns no node: GMP
reads `09` as octal and rejects the digit 9, rejects the `-` inside `1-2` and the second
point of `1.2.3`, and the constructor throws `std::invalid_argument`. -/
theorem lex_plain_line_counterexample :
    (numericToken "09".toList = true ∧
      lex true 1 Parser.new "09".toList = .fault .invalidArgument) ∧
    (numericToken "1-2".toList = true ∧
      lex true 1 Parser.new "1-2".toList = .fault .invalidArgument) ∧
    (numericToken "1.2.3".toList = true ∧
      lex true 1 Parser.new "1.2.3".toList = .fault .invalidArgument) ∧
    lex true 1 Parser.new "2 09 +".toList = .fault .invalidArgument := by
  refine ⟨⟨by decide, rfl⟩, ⟨by decide, rfl⟩, ⟨by decide, rfl⟩, rfl⟩

/-! ## Token steps -/

theorem advanceParse_joinSpaces {t : Str} {ts : List Str} (ht : ' ' ∉ t)
    (h : t ≠ [] ∨ ts ≠ []) (token : Str) :
    advanceParse token (joinSpaces (t :: ts)) = (true, t, joinSpaces ts) := by
  cases ts with
  | nil =>
    rcases h with h | h
    · rw [joinSpaces_single, advanceParse_last ht h]; rfl
    · exact absurd rfl h
  | cons t' ts => rw [joinSpaces_cons_cons, advanceParse_append ht]

theorem getlineAll_joinSpaces {t : Str} {ts : List Str} (ht : ' ' ∉ t)
    (h : t ≠ [] ∨ ts ≠ []) :
    getlineAll ' ' (joinSpaces (t :: ts)) = t :: getlineAll ' ' (joinSpaces ts) := by
  cases ts with
  | nil =>
    rcases h with h | h
    · rw [joinSpaces_single, getlineAll_single ht h]; rfl
    · exact absurd rfl h
  | cons t' ts => rw [joinSpaces_cons_cons, getlineAll_append ht]

theorem length_joinSpaces_lt {t : Str} {ts : List Str} (h : t ≠ [] ∨ ts ≠ []) :
    (joinSpaces ts).length < (joinSpaces (t :: ts)).length := by
  cases ts with
  | nil =>
    rcases h with h | h
    · rw [joinSpaces_single]; exact List.length_pos.2 h
    · exact absurd rfl h
  | cons t' ts => rw [length_joinSpaces_cons]; omega

theorem exhausted_of_not_step {t : Str} {ts : List Str} (h : ¬ (t ≠ [] ∨ ts ≠ [])) :
    t = [] ∧ ts = [] := by
  push_neg at h; exact h

theorem Outcome.bind_assoc {α β γ : Type} (x : Outcome α) (f : α → Outcome β)
    (g : β → Outcome γ) : (x.bind f).bind g = x.bind fun a => (f a).bind g := by
  cases x <;> rfl

theorem Outcome.bind_ok {α β : Type} (a : α) (f : α → Outcome β) :
    (Outcome.ok a).bind f = f a := rfl

theorem escapeString_nil : escapeString [] = .ok [] := by decide

theorem escapeAll_append_single (acc : List Str) (t : Str) :
    escapeAll (acc ++ [t]) =
      (escapeAll acc).bind fun eacc => (escapeString t).bind fun e => .ok (eacc ++ [e]) := by
  induction acc with
  | nil =>
    show escapeAll [t] = _
    simp only [escapeAll, Outcome.bind_ok]
    cases escapeString t <;> rfl
  | cons a acc ih =>
    show escapeAll (a :: (acc ++ [t])) = _
    rw [escapeAll, ih, escapeAll]
    cases escapeString a with
    | ok e =>
      simp only [Outcome.bind_ok]
      cases escapeAll acc with
      | ok es => simp only [Outcome.bind_ok]; cases escapeString t <;> rfl
      | _ => rfl
    | _ => rfl

theorem spaced_append_single (acc : List Str) (t : Str) :
    spaced (acc ++ [t]) = spaced acc ++ t ++ " ".toList := by
  simp [spaced, List.flatMap_append]

theorem spaced_dropLast (es : List Str) :
    (if (spaced es).length > 0 then (spaced es).dropLast else spaced es) = joinSpaces es := by
  induction es with
  | nil => rfl
  | cons e es ih =>
    cases es with
    | nil => simp [spaced, joinSpaces]
    | cons e' es =>
      have h1 : spaced (e :: e' :: es) = e ++ ' ' :: spaced (e' :: es) := by
        simp [spaced, List.flatMap_cons]
      have h2 : spaced (e' :: es) ≠ [] := by simp [spaced, List.flatMap_cons]
      have h3 : (spaced (e' :: es)).length > 0 := List.length_pos.2 h2
      rw [if_pos h3] at ih
      rw [h1, joinSpaces_cons_cons, ← ih, if_pos (by simp)]
      rw [List.dropLast_append_of_ne_nil _ (by simp), List.dropLast_cons_of_ne_nil h2]

theorem Outcome.bind_congr_fail {α β : Type} (x : Outcome α) (h : ∀ a, x ≠ .ok a)
    (f g : α → Outcome β) : x.bind f = x.bind g := by
  cases x with
  | ok a => exact absurd rfl (h a)
  | _ => rfl

theorem lexItems_inStr_fail (OPT : Bool) (rec : LexCall) (wi : Bool) (p : Parser)
    (out : List CharmFunction) (ts : List Str) :
    ∀ acc : List Str, (∀ e, escapeAll acc ≠ .ok e) →
      lexItems OPT rec wi (itemizeFrom (.inStr acc) ts) p out =
        (escapeAll acc).bind fun _ => .outOfFuel := by
  induction ts with
  | nil =>
    intro acc h
    rw [itemizeFrom, lexItems]
    exact Outcome.bind_congr_fail _ h _ _
  | cons t ts ih =>
    intro acc h
    rw [itemizeFrom]
    by_cases ht : t = "\"".toList
    · rw [if_pos ht, lexItems]
      exact Outcome.bind_congr_fail _ h _ _
    · rw [if_neg ht]
      have h' : ∀ e, escapeAll (acc ++ [t]) ≠ .ok e := by
        intro e he
        rw [escapeAll_append_single] at he
        cases hx : escapeAll acc with
        | ok a => exact h a hx
        | die _ => rw [hx] at he; cases he
        | fault _ => rw [hx] at he; cases he
        | outOfFuel => rw [hx] at he; cases he
      rw [ih _ h', escapeAll_append_single, Outcome.bind_assoc]
      exact Outcome.bind_congr_fail _ h _ _

theorem tokenLoop_step (OPT : Bool) (rec : LexCall) (wi : Bool) (n : Nat) (p : Parser)
    (out : List CharmFunction) {tok rest t rest' : Str}
    (h : advanceParse tok rest = (true, t, rest')) (ht : t ≠ []) :
    tokenLoop OPT rec wi (n + 1) p out tok rest =
      (delegateParsing OPT rec p out t rest' wi).bind fun r =>
        tokenLoop OPT rec wi n r.2.2.2 r.1 r.2.1 r.2.2.1 := by
  rw [tokenLoop, h]
  simp only [if_neg ht]

theorem tokenLoop_skip (OPT : Bool) (rec : LexCall) (wi : Bool) (n : Nat) (p : Parser)
    (out : List CharmFunction) {tok rest rest' : Str}
    (h : advanceParse tok rest = (true, [], rest')) :
    tokenLoop OPT rec wi (n + 1) p out tok rest = tokenLoop OPT rec wi n p out [] rest' := by
  rw [tokenLoop, h]
  simp only [if_true]

theorem tokenLoop_done (OPT : Bool) (rec : LexCall) (wi : Bool) (n : Nat) (p : Parser)
    (out : List CharmFunction) (tok : Str) :
    tokenLoop OPT rec wi (n + 1) p out tok [] = .ok (out, p) := by
  rw [tokenLoop, advanceParse_nil]

theorem delegateParsing_string (OPT : Bool) (rec : LexCall) (p : Parser)
    (out : List CharmFunction) (rest : Str) (wi : Bool) :
    delegateParsing OPT rec p out "\"".toList rest wi =
      (parseStringFunction "\"".toList rest).bind fun r =>
        .ok (out ++ [r.1], r.2.1, r.2.2, p) := by
  rw [delegateParsing]
  have : recognizeFunction "\"".toList = .STRING_FUNCTION := by decide
  simp only [this]

theorem delegateParsing_list (OPT : Bool) (rec : LexCall) (p : Parser)
    (out : List CharmFunction) (rest : Str) (wi : Bool) :
    delegateParsing OPT rec p out "[".toList rest wi =
      (parseListFunction rec p "[".toList rest).bind fun r =>
        .ok (out ++ [r.1], r.2.1, r.2.2.1, r.2.2.2) := by
  rw [delegateParsing]
  have : recognizeFunction "[".toList = .LIST_FUNCTION := by decide
  simp only [this]

theorem delegateParsing_assign (OPT : Bool) (rec : LexCall) (p : Parser)
    (out : List CharmFunction) (rest : Str) (wi : Bool) :
    delegateParsing OPT rec p out ":=".toList rest wi =
      .ok (out ++ [.defaultConstructed], ":=".toList, rest, p) := by
  rw [delegateParsing]
  have : recognizeFunction ":=".toList = .FUNCTION_DEFINITION := by decide
  simp only [this]

/-- The loops of the expression parser, run on the text of a token sequence, compute
the nodes of its items: from top level (`tokenLoop`), from inside a string literal
(`parseStringLoop`, then the rest of the token loop) and from inside a list literal
(`parseListLoop`, then the nested call and the rest of the token loop). -/
theorem loops_eq_lexItems (OPT : Bool) (rec : LexCall) (wi : Bool) (ts : List Str)
    (hts : ∀ t ∈ ts, ' ' ∉ t) :
    (∀ (n : Nat) (p : Parser) (out : List CharmFunction) (tok : Str),
      (joinSpaces ts).length < n →
      tokenLoop OPT rec wi n p out tok (joinSpaces ts) =
        lexItems OPT rec wi (itemizeFrom .top ts) p out) ∧
    (∀ (n m : Nat) (p : Parser) (out : List CharmFunction) (tok : Str) (acc eacc : List Str),
      (joinSpaces ts).length < n → (joinSpaces ts).length < m → escapeAll acc = .ok eacc →
      ((parseStringLoop m (spaced eacc) tok (joinSpaces ts)).bind fun r =>
        if !r.1 then .die .expectedEndingQuote
        else tokenLoop OPT rec wi n p
          (out ++ [.stringFunction (if r.2.1.length > 0 then r.2.1.dropLast else r.2.1)])
          r.2.2.1 r.2.2.2) =
        lexItems OPT rec wi (itemizeFrom (.inStr acc) ts) p out) ∧
    (∀ (n : Nat) (p : Parser) (out : List CharmFunction) (tok : Str) (d : Int)
      (acc : List Str),
      (joinSpaces ts).length < n → 1 ≤ d →
      (match parseListLoop (getlineAll ' ' (joinSpaces ts)) d (spaced acc) tok
          (joinSpaces ts) with
        | (d', outS, tok', rest') =>
          if d' > 0 then .die .expectedCloseBracket
          else (rec p outS false).bind fun r =>
            tokenLoop OPT rec wi n r.2 (out ++ [.listFunction r.1]) tok' rest') =
        lexItems OPT rec wi (itemizeFrom (.inLst d acc) ts) p out) := by
  induction ts with
  | nil =>
    refine ⟨?_, ?_, ?_⟩
    · intro n p out tok hn
      cases n with
      | zero => exact absurd hn (Nat.not_lt_zero _)
      | succ n => rw [show joinSpaces [] = [] from rfl, tokenLoop_done]; rfl
    · intro n m p out tok acc eacc _ hm hacc
      cases m with
      | zero => exact absurd hm (Nat.not_lt_zero _)
      | succ m =>
        rw [show joinSpaces [] = [] from rfl, parseStringLoop, advanceParse_nil, itemizeFrom,
          lexItems, hacc]
        rfl
    · intro n p out tok d acc _ hd
      rw [show joinSpaces [] = [] from rfl, show getlineAll ' ' [] = [] from rfl, parseListLoop,
        itemizeFrom, lexItems]
      simp only [gt_iff_lt]
      rw [if_pos (by omega)]
  | cons t ts ih =>
    have hts' : ∀ u ∈ ts, ' ' ∉ u := fun u hu => hts u (by simp [hu])
    have ht : ' ' ∉ t := hts t (by simp)
    obtain ⟨ihTop, ihStr, ihLst⟩ := ih hts'
    by_cases hstep : t ≠ [] ∨ ts ≠ []
    · have hlen := length_joinSpaces_lt hstep
      refine ⟨?_, ?_, ?_⟩
      · -- top level
        intro n p out tok hn
        cases n with
        | zero => exact absurd hn (Nat.not_lt_zero _)
        | succ n =>
          have hn' : (joinSpaces ts).length < n := by omega
          by_cases he : t = []
          · subst he
            rw [tokenLoop_skip OPT rec wi n p out (advanceParse_joinSpaces ht hstep tok),
              ihTop n p out [] hn', itemizeFrom, if_pos rfl]
          · rw [tokenLoop_step OPT rec wi n p out (advanceParse_joinSpaces ht hstep tok) he,
              itemizeFrom, if_neg he]
            by_cases h1 : t = "[".toList
            · subst h1
              rw [if_pos rfl, delegateParsing_list, parseListFunction, ← ihLst n p out
                "[".toList 1 [] hn' (le_refl _)]
              rw [show spaced [] = [] from rfl]
              generalize parseListLoop (getlineAll ' ' (joinSpaces ts)) 1 [] "[".toList
                (joinSpaces ts) = r
              obtain ⟨d', outS, tok', rest'⟩ := r
              simp only
              by_cases hd : d' > 0
              · simp only [if_pos hd]; rfl
              · simp only [if_neg hd]
                cases rec p outS false <;> rfl
            · rw [if_neg h1]
              by_cases h2 : t = "\"".toList
              · subst h2
                rw [if_pos rfl, delegateParsing_string, parseStringFunction,
                  ← ihStr n ((joinSpaces ts).length + 1) p out "\"".toList [] [] hn'
                    (Nat.lt_succ_self _) rfl]
                rw [show spaced [] = [] from rfl]
                generalize parseStringLoop ((joinSpaces ts).length + 1) [] "\"".toList
                  (joinSpaces ts) = r
                cases r with
                | ok a =>
                  obtain ⟨q, outS, tok', rest'⟩ := a
                  simp only [Outcome.bind_ok]
                  cases q
                  · rfl
                  · by_cases hl : outS.length > 0
                    · simp only [Bool.not_true, Bool.false_eq_true, if_false, if_pos hl]; rfl
                    · simp only [Bool.not_true, Bool.false_eq_true, if_false, if_neg hl]; rfl
                | _ => rfl
              · rw [if_neg h2]
                by_cases h3 : t = ":=".toList
                · subst h3
                  rw [if_pos rfl, delegateParsing_assign, Outcome.bind_ok, lexItems]
                  exact ihTop n p _ _ hn'
                · rw [if_neg h3, delegateParsing_plain OPT rec p out _ wi h1 h2 h3, lexItems]
                  cases plainEmit OPT wi p t with
                  | ok nodes =>
                    rw [Outcome.bind_ok, Outcome.bind_ok, Outcome.bind_ok]
                    exact ihTop n p _ _ hn'
                  | _ => rfl
      · -- inside a string literal
        intro n m p out tok acc eacc hn hm hacc
        cases m with
        | zero => exact absurd hm (Nat.not_lt_zero _)
        | succ m =>
          have hn' : (joinSpaces ts).length < n := by omega
          have hm' : (joinSpaces ts).length < m := by omega
          rw [parseStringLoop, advanceParse_joinSpaces ht hstep tok, itemizeFrom]
          by_cases h2 : t = "\"".toList
          · simp only [if_pos h2, Outcome.bind_ok, Bool.not_true, Bool.false_eq_true, if_false]
            rw [spaced_dropLast, lexItems, hacc, Outcome.bind_ok]
            exact ihTop n p _ _ hn'
          · simp only [if_neg h2]
            cases he : escapeString t with
            | ok e =>
              have hacc' : escapeAll (acc ++ [t]) = .ok (eacc ++ [e]) := by
                rw [escapeAll_append_single, hacc, Outcome.bind_ok, he, Outcome.bind_ok]
              rw [Outcome.bind_ok, ← spaced_append_single]
              exact ihStr n m p out t (acc ++ [t]) (eacc ++ [e]) hn' hm' hacc'
            | die x =>
              have hacc' : escapeAll (acc ++ [t]) = .die x := by
                rw [escapeAll_append_single, hacc, Outcome.bind_ok, he]; rfl
              rw [lexItems_inStr_fail OPT rec wi p out ts _ (by rw [hacc']; intro e h; cases h),
                hacc']
              rfl
            | fault x =>
              have hacc' : escapeAll (acc ++ [t]) = .fault x := by
                rw [escapeAll_append_single, hacc, Outcome.bind_ok, he]; rfl
              rw [lexItems_inStr_fail OPT rec wi p out ts _ (by rw [hacc']; intro e h; cases h),
                hacc']
              rfl
            | outOfFuel =>
              have hacc' : escapeAll (acc ++ [t]) = .outOfFuel := by
                rw [escapeAll_append_single, hacc, Outcome.bind_ok, he]; rfl
              rw [lexItems_inStr_fail OPT rec wi p out ts _ (by rw [hacc']; intro e h; cases h),
                hacc']
              rfl
      · -- inside a list literal
        intro n p out tok d acc hn hd
        have hn' : (joinSpaces ts).length < n := by omega
        rw [getlineAll_joinSpaces ht hstep, parseListLoop, advanceParse_joinSpaces ht hstep tok,
          itemizeFrom]
        simp only
        by_cases h1 : t = "[".toList
        · subst h1
          have : recognizeFunction "[".toList = .LIST_FUNCTION := by decide
          rw [if_pos this, if_pos rfl, ← spaced_append_single]
          exact ihLst n p out _ (d + 1) _ hn' (by omega)
        · have hr : recognizeFunction t ≠ .LIST_FUNCTION := by
            unfold recognizeFunction
            rw [if_neg h1]
            split_ifs <;> simp
          rw [if_neg hr, if_neg h1]
          by_cases h2 : t = "]".toList
          · rw [if_pos h2, if_pos h2]
            by_cases hd1 : d - 1 ≤ 0
            · rw [if_pos hd1, if_pos hd1, lexItems]
              simp only [gt_iff_lt]
              rw [if_neg (by omega)]
              cases rec p (spaced acc) false with
              | ok a => simp only [Outcome.bind_ok]; exact ihTop n a.2 _ _ hn'
              | _ => rfl
            · rw [if_neg hd1, if_neg hd1, ← spaced_append_single]
              exact ihLst n p out _ (d - 1) _ hn' (by omega)
          · rw [if_neg h2, if_neg h2, ← spaced_append_single]
            exact ihLst n p out _ d _ hn' hd
    · obtain ⟨he, hts0⟩ := exhausted_of_not_step hstep
      subst he; subst hts0
      refine ⟨?_, ?_, ?_⟩
      · intro n p out tok hn
        cases n with
        | zero => exact absurd hn (Nat.not_lt_zero _)
        | succ n => rw [show joinSpaces [[]] = [] from rfl, tokenLoop_done]; rfl
      · intro n m p out tok acc eacc _ hm hacc
        cases m with
        | zero => exact absurd hm (Nat.not_lt_zero _)
        | succ m =>
          rw [show joinSpaces [[]] = [] from rfl, parseStringLoop, advanceParse_nil, itemizeFrom,
            if_neg (by decide), itemizeFrom, lexItems, escapeAll_append_single, hacc,
            Outcome.bind_ok, escapeString_nil]
          rfl
      · intro n p out tok d acc _ hd
        rw [show joinSpaces [[]] = [] from rfl, show getlineAll ' ' [] = [] from rfl,
          parseListLoop, itemizeFrom, if_neg (by decide), if_neg (by decide), itemizeFrom,
          lexItems]
        simp only [gt_iff_lt]
        rw [if_pos (by omega)]

theorem itemizeFrom_append (b : List Str) (a : List Str) :
    ∀ m : ScanMode, itemizeFrom m (a ++ b) = closedItems m a ++ itemizeFrom (scanEnd m a) b := by
  induction a with
  | nil => intro m; cases m <;> rfl
  | cons t a ih =>
    intro m
    cases m with
    | top =>
      simp only [List.cons_append, itemizeFrom, closedItems, scanEnd]
      split_ifs <;> simp [ih]
    | inStr acc =>
      simp only [List.cons_append, itemizeFrom, closedItems, scanEnd]
      split_ifs <;> simp [ih]
    | inLst d acc =>
      simp only [List.cons_append, itemizeFrom, closedItems, scanEnd]
      split_ifs <;> simp [ih]

theorem itemizeFrom_eq_closed (m : ScanMode) (a : List Str) :
    itemizeFrom m a = closedItems m a ++ openItem (scanEnd m a) := by
  have := itemizeFrom_append [] a m
  rw [List.append_nil] at this
  rw [this]
  cases scanEnd m a <;> rfl

theorem lexItems_append (OPT : Bool) (rec : LexCall) (wi : Bool) (b : List Item)
    (a : List Item) :
    ∀ (p : Parser) (out : List CharmFunction),
      lexItems OPT rec wi (a ++ b) p out =
        (lexItems OPT rec wi a p out).bind fun r => lexItems OPT rec wi b r.2 r.1 := by
  induction a with
  | nil => intro p out; rfl
  | cons i a ih =>
    intro p out
    cases i with
    | plain t =>
      rw [List.cons_append, lexItems, lexItems]
      cases plainEmit OPT wi p t with
      | ok nodes => rw [Outcome.bind_ok, Outcome.bind_ok, ih]
      | _ => rfl
    | assign => rw [List.cons_append, lexItems, lexItems, ih]
    | str ss =>
      rw [List.cons_append, lexItems, lexItems]
      cases escapeAll ss with
      | ok es => rw [Outcome.bind_ok, Outcome.bind_ok, ih]
      | _ => rfl
    | openStr ss =>
      rw [List.cons_append, lexItems, lexItems]
      cases escapeAll ss <;> rfl
    | lst body =>
      rw [List.cons_append, lexItems, lexItems]
      cases rec p (spaced body) false with
      | ok r => obtain ⟨lf, p'⟩ := r; rw [Outcome.bind_ok, Outcome.bind_ok]; exact ih _ _
      | _ => rfl
    | openLst => rfl

theorem lexItems_openItem_ne_ok (OPT : Bool) (rec : LexCall) (wi : Bool) (m : ScanMode)
    (p : Parser) (out : List CharmFunction) (r : List CharmFunction × Parser)
    (h : lexItems OPT rec wi (openItem m) p out = .ok r) : m = .top := by
  cases m with
  | top => rfl
  | inStr acc =>
    simp only [openItem, lexItems] at h
    cases hx : escapeAll acc <;> rw [hx] at h <;> cases h
  | inLst d acc => simp only [openItem, lexItems] at h; cases h

/-- When the items of a token sequence lex to a result, the scan ends at top level. -/
theorem scanEnd_top_of_ok (OPT : Bool) (rec : LexCall) (wi : Bool) (ts : List Str)
    (p : Parser) (out : List CharmFunction) (r : List CharmFunction × Parser)
    (h : lexItems OPT rec wi (itemize ts) p out = .ok r) :
    scanEnd .top ts = .top ∧ lexItems OPT rec wi (closedItems .top ts) p out = .ok r := by
  rw [itemize, itemizeFrom_eq_closed, lexItems_append] at h
  cases hx : lexItems OPT rec wi (closedItems .top ts) p out with
  | ok a =>
    rw [hx, Outcome.bind_ok] at h
    have := lexItems_openItem_ne_ok OPT rec wi _ _ _ _ h
    refine ⟨this, ?_⟩
    rw [this] at h
    simp only [openItem, lexItems] at h
    rw [← h]
  | die _ => rw [hx] at h; cases h
  | fault _ => rw [hx] at h; cases h
  | outOfFuel => rw [hx] at h; cases h

theorem itemizeFrom_inStr_open (ss : List Str) (h : ∀ t ∈ ss, t ≠ "\"".toList) :
    ∀ acc, itemizeFrom (.inStr acc) ss = [.openStr (acc ++ ss)] := by
  induction ss with
  | nil => intro acc; simp [itemizeFrom]
  | cons t ss ih =>
    intro acc
    rw [itemizeFrom, if_neg (h t (by simp)), ih (fun u hu => h u (by simp [hu]))]
    simp

theorem itemizeFrom_inStr_close (ss rest : List Str) (h : ∀ t ∈ ss, t ≠ "\"".toList) :
    ∀ acc, itemizeFrom (.inStr acc) (ss ++ "\"".toList :: rest) =
      .str (acc ++ ss) :: itemizeFrom .top rest := by
  induction ss with
  | nil => intro acc; simp [itemizeFrom]
  | cons t ss ih =>
    intro acc
    rw [List.cons_append, itemizeFrom, if_neg (h t (by simp)),
      ih (fun u hu => h u (by simp [hu]))]
    simp

/-- Lexing one line: the text of a token sequence is classified, then parsed as a
definition, as a type signature, or token by token. -/
theorem lexAskToInline_line (OPT : Bool) (fuel : Nat) (p : Parser) (ts : List Str)
    (wi : Bool) (hts : ∀ t ∈ ts, ' ' ∉ t ∧ '\n' ∉ t) :
    lexAskToInline OPT (fuel + 1) p (joinSpaces ts) wi =
      if joinSpaces ts = [] then .ok ([], p)
      else if isLineFunctionDefinition (joinSpaces ts) then
        (parseDefinition (lexAskToInline OPT fuel) p (joinSpaces ts)).bind fun r =>
          .ok ([r.1], r.2)
      else if isLineTypeSignature (joinSpaces ts) then
        (parseTypeSignature (fuel + 1) (joinSpaces ts)).bind fun typeSignature =>
          .ok ([], { p with fA := p.fA.addTypeSignature typeSignature })
      else lexItems OPT (lexAskToInline OPT fuel) wi (itemize ts) p [] := by
  have hnl : '\n' ∉ joinSpaces ts := not_mem_joinSpaces (by decide) (fun t ht => (hts t ht).2)
  rw [lexAskToInline, getlineAll_line hnl]
  by_cases hl : joinSpaces ts = []
  · rw [if_pos hl, if_pos hl, lineLoop]
  · rw [if_neg hl, if_neg hl, lineLoop]
    by_cases hd : isLineFunctionDefinition (joinSpaces ts) = true
    · rw [if_pos hd, if_pos hd]
      cases parseDefinition (lexAskToInline OPT fuel) p (joinSpaces ts) <;> rfl
    · rw [if_neg hd, if_neg hd]
      by_cases hs : isLineTypeSignature (joinSpaces ts) = true
      · rw [if_pos hs, if_pos hs]
        cases parseTypeSignature (fuel + 1) (joinSpaces ts) <;> rfl
      · rw [if_neg hs, if_neg hs,
          (loops_eq_lexItems OPT (lexAskToInline OPT fuel) wi ts (fun t ht => (hts t ht).1)).1
            _ p [] [] (Nat.lt_succ_self _)]
        rw [itemize]
        cases lexItems OPT (lexAskToInline OPT fuel) wi (itemizeFrom .top ts) p [] <;> rfl

theorem getlineAll_joinSpaces_append {a b : List Str} (ha : ∀ t ∈ a, ' ' ∉ t) (hb : b ≠ []) :
    getlineAll ' ' (joinSpaces (a ++ b)) = a ++ getlineAll ' ' (joinSpaces b) := by
  induction a with
  | nil => rfl
  | cons t a ih =>
    rw [List.cons_append, getlineAll_joinSpaces (ha t (by simp)) (Or.inr (by simp [hb])),
      ih (fun u hu => ha u (by simp [hu]))]
    rfl

theorem getlineAll_joinSpaces_prefix {a : List Str} (ha : ∀ t ∈ a, ' ' ∉ t) :
    ∃ c, getlineAll ' ' (joinSpaces a) ++ c = a := by
  induction a with
  | nil => exact ⟨[], rfl⟩
  | cons t a ih =>
    by_cases hstep : t ≠ [] ∨ a ≠ []
    · obtain ⟨c, hc⟩ := ih (fun u hu => ha u (by simp [hu]))
      refine ⟨c, ?_⟩
      rw [getlineAll_joinSpaces (ha t (by simp)) hstep, List.cons_append, hc]
    · obtain ⟨h1, h2⟩ := exhausted_of_not_step hstep
      subst h1; subst h2
      exact ⟨[[]], rfl⟩

theorem classifyLoop_prefix (isSeparator : Str → Bool) (a b : List Str) :
    ∀ (stringDepth : Bool) (listDepth : Int),
      classifyLoop isSeparator (a ++ b) stringDepth listDepth = false →
      classifyLoop isSeparator a stringDepth listDepth = false := by
  induction a with
  | nil => intro _ _ _; rfl
  | cons f a ih =>
    intro sd d h
    rw [List.cons_append, classifyLoop] at h
    rw [classifyLoop]
    split_ifs at h ⊢ with hc
    all_goals exact ih _ _ h

/-- A line that is not classified by a separator stays so when tokens are removed from
its end. -/
theorem classify_prefix (isSeparator : Str → Bool) {pre more : List Str}
    (hpre : ∀ t ∈ pre, ' ' ∉ t) (hmore : more ≠ [])
    (h : classifyLoop isSeparator (getlineAll ' ' (joinSpaces (pre ++ more))) false 0 = false) :
    classifyLoop isSeparator (getlineAll ' ' (joinSpaces pre)) false 0 = false := by
  rw [getlineAll_joinSpaces_append hpre hmore] at h
  obtain ⟨c, hc⟩ := getlineAll_joinSpaces_prefix hpre
  rw [← hc, List.append_assoc] at h
  exact classifyLoop_prefix _ _ _ _ _ h

theorem itemize_of_joinSpaces_nil {ts : List Str} (h : joinSpaces ts = []) : itemize ts = [] := by
  cases ts with
  | nil => rfl
  | cons t ts =>
    cases ts with
    | nil => rw [joinSpaces_single] at h; subst h; rfl
    | cons t' ts => rw [joinSpaces_cons_cons] at h; simp at h

/-- When the tokens before a point lex on their own as an expression line, lexing the
whole expression line lexes their items first and goes on at top level. -/
theorem lex_line_append (OPT : Bool) (fuel : Nat) (p : Parser) (wi : Bool)
    (pre more : List Str) (out1 : List CharmFunction) (p1 : Parser)
    (htok : ∀ t ∈ pre ++ more, ' ' ∉ t ∧ '\n' ∉ t) (hmore : more ≠ [])
    (hdef : isLineFunctionDefinition (joinSpaces (pre ++ more)) = false)
    (hsig : isLineTypeSignature (joinSpaces (pre ++ more)) = false)
    (hne : joinSpaces (pre ++ more) ≠ [])
    (hpre : lexAskToInline OPT (fuel + 1) p (joinSpaces pre) wi = .ok (out1, p1)) :
    lexAskToInline OPT (fuel + 1) p (joinSpaces (pre ++ more)) wi =
      lexItems OPT (lexAskToInline OPT fuel) wi (itemize more) p1 out1 := by
  have hpt : ∀ t ∈ pre, ' ' ∉ t ∧ '\n' ∉ t := fun t ht => htok t (by simp [ht])
  have hitems : lexItems OPT (lexAskToInline OPT fuel) wi (itemize pre) p [] = .ok (out1, p1) := by
    rw [lexAskToInline_line OPT fuel p pre wi hpt] at hpre
    by_cases hl : joinSpaces pre = []
    · rw [if_pos hl] at hpre
      rw [itemize_of_joinSpaces_nil hl]
      exact hpre
    · have hd : isLineFunctionDefinition (joinSpaces pre) = false :=
        classify_prefix _ (fun t ht => (hpt t ht).1) hmore hdef
      have hs : isLineTypeSignature (joinSpaces pre) = false :=
        classify_prefix _ (fun t ht => (hpt t ht).1) hmore hsig
      rw [if_neg hl, hd, hs] at hpre
      exact hpre
  obtain ⟨hend, hclosed⟩ := scanEnd_top_of_ok OPT _ wi pre p [] _ hitems
  rw [lexAskToInline_line OPT fuel p _ wi htok, if_neg hne, hdef, hsig]
  simp only [Bool.false_eq_true, if_false]
  rw [itemize, itemizeFrom_append, lexItems_append, hclosed, Outcome.bind_ok, hend]
  rfl

theorem escapeAll_ok_of_forall {ts : List Str} (h : ∀ t ∈ ts, ∃ e, escapeString t = .ok e) :
    ∃ es, escapeAll ts = .ok es := by
  induction ts with
  | nil => exact ⟨[], rfl⟩
  | cons t ts ih =>
    obtain ⟨e, he⟩ := h t (by simp)
    obtain ⟨es, hes⟩ := ih (fun u hu => h u (by simp [hu]))
    exact ⟨e :: es, by rw [escapeAll, he, Outcome.bind_ok, hes, Outcome.bind_ok]⟩

theorem joinSpaces_ne_nil_of_mem {ts : List Str} {t : Str} (ht : t ∈ ts) (hne : t ≠ []) :
    joinSpaces ts ≠ [] := by
  cases ts with
  | nil => simp at ht
  | cons u ts =>
    cases ts with
    | nil => simp at ht; subst ht; rw [joinSpaces_single]; exact hne
    | cons u' ts => rw [joinSpaces_cons_cons]; simp

/-- In an expression line, a free-standing `"` token that stands at top
level (the tokens before it lex on their own) and is followed by no free-standing `"`
token makes `lex` fail with the error "expected an ending quote", provided
`escapeString` returns on each of the tokens after it. -/
theorem lex_openString (OPTIMIZE_INLINE : Bool) (fuel : Nat) (p : Parser)
    (pre post : List Str) (out1 : List CharmFunction) (p1 : Parser)
    (htok : ∀ t ∈ pre ++ post, ' ' ∉ t ∧ '\n' ∉ t)
    (hquote : ∀ t ∈ post, t ≠ "\"".toList)
    (hesc : ∀ t ∈ post, ∃ e, escapeString t = .ok e)
    (hdef : isLineFunctionDefinition (joinSpaces (pre ++ "\"".toList :: post)) = false)
    (hsig : isLineTypeSignature (joinSpaces (pre ++ "\"".toList :: post)) = false)
    (hpre : lex OPTIMIZE_INLINE (fuel + 1) p (joinSpaces pre) = .ok (out1, p1)) :
    lex OPTIMIZE_INLINE (fuel + 1) p (joinSpaces (pre ++ "\"".toList :: post)) =
      .die .expectedEndingQuote := by
  have htok' : ∀ t ∈ pre ++ "\"".toList :: post, ' ' ∉ t ∧ '\n' ∉ t := by
    intro t ht
    rcases List.mem_append.1 ht with h | h
    · exact htok t (by simp [h])
    · rcases List.mem_cons.1 h with h | h
      · subst h; decide
      · exact htok t (by simp [h])
  have hne : joinSpaces (pre ++ "\"".toList :: post) ≠ [] :=
    joinSpaces_ne_nil_of_mem (t := "\"".toList) (by simp) (by decide)
  unfold lex at hpre ⊢
  rw [lex_line_append OPTIMIZE_INLINE fuel p true pre _ out1 p1 htok' (by simp) hdef hsig hne
    hpre]
  rw [itemize, itemizeFrom, if_neg (by decide), if_neg (by decide), if_pos rfl,
    itemizeFrom_inStr_open post hquote, lexItems]
  obtain ⟨es, hes⟩ := escapeAll_ok_of_forall hesc
  rw [List.nil_append, hes]
  rfl

theorem classifyLoop_inString (isSeparator : Str → Bool) (hsep : isSeparator "\"".toList = false)
    (ss : List Str) (h : ∀ t ∈ ss, t ≠ "\"".toList) :
    ∀ listDepth : Int,
      classifyLoop isSeparator (ss ++ ["\"".toList]) true listDepth = false := by
  induction ss with
  | nil =>
    intro d
    have h1 : recognizeFunction "\"".toList ≠ .LIST_FUNCTION := by decide
    have h2 : "\"".toList ≠ "]".toList := by decide
    rw [List.nil_append, classifyLoop]
    simp only [if_neg h1, if_neg h2, hsep, Bool.and_false, Bool.false_eq_true, if_false]
    rfl
  | cons t ss ih =>
    intro d
    have hstr : recognizeFunction t ≠ .STRING_FUNCTION := by
      have ht := h t (by simp)
      unfold recognizeFunction
      split_ifs <;> simp_all
    rw [List.cons_append, classifyLoop]
    by_cases hl : recognizeFunction t = .LIST_FUNCTION
    · simp only [if_pos hl, Bool.not_true, Bool.and_false, Bool.false_and, Bool.false_eq_true,
        if_false]
      exact ih (fun u hu => h u (by simp [hu])) _
    · by_cases hb : t = "]".toList
      · simp only [if_neg hl, if_pos hb, Bool.not_true, Bool.and_false, Bool.false_and,
          Bool.false_eq_true, if_false]
        exact ih (fun u hu => h u (by simp [hu])) _
      · simp only [if_neg hl, if_neg hb, if_neg hstr, Bool.not_true, Bool.and_false,
          Bool.false_and, Bool.false_eq_true, if_false]
        exact ih (fun u hu => h u (by simp [hu])) _

theorem classifyLoop_quoted (isSeparator : Str → Bool) (hsep : isSeparator "\"".toList = false)
    (ss : List Str) (h : ∀ t ∈ ss, t ≠ "\"".toList) :
    classifyLoop isSeparator ("\"".toList :: ss ++ ["\"".toList]) false 0 = false := by
  have h1 : recognizeFunction "\"".toList ≠ .LIST_FUNCTION := by decide
  have h2 : "\"".toList ≠ "]".toList := by decide
  have h3 : recognizeFunction "\"".toList = .STRING_FUNCTION := by decide
  rw [List.cons_append, classifyLoop]
  simp only [if_neg h1, if_neg h2, if_pos h3, Bool.not_false, Bool.not_true, Bool.and_false,
    Bool.false_and, Bool.false_eq_true, if_false]
  exact classifyLoop_inString isSeparator hsep ss h 0

theorem getlineAll_joinSpaces_full {a : List Str} {u : Str} (ha : ∀ t ∈ a, ' ' ∉ t)
    (hu : ' ' ∉ u) (hne : u ≠ []) :
    getlineAll ' ' (joinSpaces (a ++ [u])) = a ++ [u] := by
  rw [getlineAll_joinSpaces_append ha (by simp), joinSpaces_single, getlineAll_single hu hne]

theorem escapeAll_of_forall₂ {ts es : List Str}
    (h : List.Forall₂ (fun t e => escapeString t = .ok e) ts es) : escapeAll ts = .ok es := by
  induction h with
  | nil => rfl
  | cons h1 _ ih => rw [escapeAll, h1, Outcome.bind_ok, ih, Outcome.bind_ok]

/-- The line of a string literal: an opening quote, interior tokens, a closing quote. -/
theorem lex_quoted (OPT : Bool) (fuel : Nat) (p : Parser) (ts : List Str)
    (htok : ∀ t ∈ ts, (' ' ∉ t ∧ '\n' ∉ t) ∧ t ≠ "\"".toList) :
    lex OPT (fuel + 1) p (joinSpaces ("\"".toList :: ts ++ ["\"".toList])) =
      (escapeAll ts).bind fun es => .ok ([.stringFunction (joinSpaces es)], p) := by
  have hall : ∀ t ∈ "\"".toList :: ts ++ ["\"".toList], ' ' ∉ t ∧ '\n' ∉ t := by
    intro t ht
    rcases List.mem_cons.1 ht with h | h
    · subst h; decide
    · rcases List.mem_append.1 h with h | h
      · exact (htok t h).1
      · rw [List.mem_singleton.1 h]; decide
  have hne : joinSpaces ("\"".toList :: ts ++ ["\"".toList]) ≠ [] :=
    joinSpaces_ne_nil_of_mem (t := "\"".toList) (by simp) (by decide)
  have hpieces : getlineAll ' ' (joinSpaces ("\"".toList :: ts ++ ["\"".toList])) =
      "\"".toList :: ts ++ ["\"".toList] := by
    have := getlineAll_joinSpaces_full (a := "\"".toList :: ts) (u := "\"".toList)
      (by
        intro t ht
        rcases List.mem_cons.1 ht with h | h
        · subst h; decide
        · exact (htok t h).1.1)
      (by decide) (by decide)
    simpa using this
  have hd : isLineFunctionDefinition (joinSpaces ("\"".toList :: ts ++ ["\"".toList])) = false := by
    rw [isLineFunctionDefinition, hpieces]
    exact classifyLoop_quoted _ (by decide) ts (fun t ht => (htok t ht).2)
  have hs : isLineTypeSignature (joinSpaces ("\"".toList :: ts ++ ["\"".toList])) = false := by
    rw [isLineTypeSignature, hpieces]
    exact classifyLoop_quoted _ (by decide) ts (fun t ht => (htok t ht).2)
  unfold lex
  rw [lexAskToInline_line OPT fuel p _ true hall, if_neg hne, hd, hs]
  simp only [Bool.false_eq_true, if_false]
  rw [itemize, List.cons_append, itemizeFrom, if_neg (by decide), if_neg (by decide), if_pos rfl,
    itemizeFrom_inStr_close ts [] (fun t ht => (htok t ht).2), lexItems, List.nil_append]
  cases escapeAll ts <;> rfl

/-- A string literal whose interior tokens `escapeString` maps to `es` lexes to one string
node, the `es` joined by single spaces; the parser state is unchanged. -/
theorem lex_stringTokens (OPT : Bool) (fuel : Nat) (p : Parser) (ts es : List Str)
    (htok : ∀ t ∈ ts, (' ' ∉ t ∧ '\n' ∉ t) ∧ t ≠ "\"".toList)
    (hesc : List.Forall₂ (fun t e => escapeString t = .ok e) ts es) :
    lex OPT (fuel + 1) p (joinSpaces ("\"".toList :: ts ++ ["\"".toList])) =
      .ok ([.stringFunction (joinSpaces es)], p) := by
  rw [lex_quoted OPT fuel p ts htok, escapeAll_of_forall₂ hesc]
  rfl

/-- C3: the line `" \0 "` has the stated form, yet `lex` returns no string node:
`escapeString` replaces the pair `\0` by the empty C string and then moves its iterator
past the end of the token.  On every other line of the form the claim holds: an opening
quote, interior tokens none of which is `"`, and a closing quote, all separated by single
spaces, lex to exactly one string node whose value is `escapeString` of the interior
tokens joined by single spaces, when `escapeString` returns on each of them (witness:
`" hello world "` gives the string `hello world`). -/
theorem lex_string_literal :
    lex true 1 Parser.new "\" \\0 \"".toList = .fault .readPastEnd ∧
    (∀ (OPTIMIZE_INLINE : Bool) (fuel : Nat) (p : Parser) (ts es : List Str),
      (∀ t ∈ ts, (' ' ∉ t ∧ '\n' ∉ t) ∧ t ≠ "\"".toList) →
      List.Forall₂ (fun t e => escapeString t = .ok e) ts es →
      lex OPTIMIZE_INLINE (fuel + 1) p (joinSpaces ("\"".toList :: ts ++ ["\"".toList])) =
        .ok ([.stringFunction (joinSpaces es)], p)) ∧
    lex true 1 Parser.new "\" hello world \"".toList =
      .ok ([.stringFunction "hello world".toList], Parser.new) :=
  ⟨rfl, fun OPTIMIZE_INLINE fuel p ts es htok hesc =>
    lex_stringTokens OPTIMIZE_INLINE fuel p ts es htok hesc, rfl⟩

/-- C10 (amended): in the input `"abc` the quote abuts `abc`, so the token is a name and
`lex` returns one name node for it; it is the input `" abc`, whose quote is a free-standing
token, that fails with the error "expected an ending quote". -/
theorem lex_abutting_quote (OPTIMIZE_INLINE : Bool) (fuel : Nat) :
    lex OPTIMIZE_INLINE (fuel + 1) Parser.new "\"abc".toList =
      .ok ([.definedFunction "\"abc".toList], Parser.new) ∧
    ∀ p : Parser, lex OPTIMIZE_INLINE (fuel + 1) p "\" abc".toList =
      .die .expectedEndingQuote := by
  constructor
  · exact (lex_plainTokens OPTIMIZE_INLINE fuel Parser.new ["\"abc".toList] rfl
      (by decide)).trans rfl
  · intro p
    exact lex_openString OPTIMIZE_INLINE fuel p [] ["abc".toList] [] p (by decide) (by decide)
      (fun t ht => by rw [List.mem_singleton.1 ht]; exact ⟨"abc".toList, by decide⟩)
      (by decide) (by decide) (by cases fuel <;> rfl)

/-- Counterexample to C10 as stated: lexing the input `"abc` does not fail, it returns the
name node of the token `"abc`. -/
theorem lex_abutting_quote_counterexample :
    lex true 1 Parser.new "\"abc".toList =
      .ok ([.definedFunction "\"abc".toList], Parser.new) :=
  rfl

theorem parsePushesLoop_tokens {γ : Type} (K : Bool → List CharmTypes → Outcome γ)
    (ts : List Str) (hts : ∀ t ∈ ts, ' ' ∉ t) :
    ∀ (n : Nat) (pushes : List CharmTypes) (tok : Str), (joinSpaces ts).length < n →
      ((parsePushesLoop n pushes tok (joinSpaces ts)).bind fun r => K r.1 r.2.1) =
        (pushesTokens pushes ts).bind fun s => K s.1 s.2 := by
  induction ts with
  | nil =>
    intro n pushes tok hn
    cases n with
    | zero => exact absurd hn (Nat.not_lt_zero _)
    | succ n => rw [show joinSpaces [] = [] from rfl, parsePushesLoop, advanceParse_nil]; rfl
  | cons t ts ih =>
    intro n pushes tok hn
    have ht : ' ' ∉ t := hts t (by simp)
    have ih' := ih (fun u hu => hts u (by simp [hu]))
    cases n with
    | zero => exact absurd hn (Nat.not_lt_zero _)
    | succ n =>
      by_cases hstep : t ≠ [] ∨ ts ≠ []
      · have hlen := length_joinSpaces_lt hstep
        have hn' : (joinSpaces ts).length < n := by omega
        rw [parsePushesLoop, advanceParse_joinSpaces ht hstep tok, pushesTokens]
        by_cases he : t = []
        · simp only [if_pos he]; exact ih' n pushes _ hn'
        · simp only [if_neg he]
          by_cases hb : t = "|".toList
          · simp only [if_pos hb]; rfl
          · simp only [if_neg hb]
            cases tokenToType t with
            | ok ty => simp only [Outcome.bind_ok]; exact ih' n _ _ hn'
            | _ => rfl
      · obtain ⟨h1, h2⟩ := exhausted_of_not_step hstep
        subst h1; subst h2
        rw [show joinSpaces [[]] = [] from rfl, parsePushesLoop, advanceParse_nil]; rfl

theorem parsePopsLoop_tokens {γ : Type} (K : List CharmTypes → Str → Str → Outcome γ)
    (hK : ∀ pops tok tok' rest, K pops tok rest = K pops tok' rest)
    (ts : List Str) (hts : ∀ t ∈ ts, ' ' ∉ t) :
    ∀ (n : Nat) (pops : List CharmTypes) (tok : Str), (joinSpaces ts).length < n →
      ((parsePopsLoop n pops tok (joinSpaces ts)).bind fun r => K r.1 r.2.1 r.2.2) =
        (popsTokens pops ts).bind fun s => K s.1 [] (joinSpaces s.2) := by
  induction ts with
  | nil =>
    intro n pops tok hn
    cases n with
    | zero => exact absurd hn (Nat.not_lt_zero _)
    | succ n =>
      rw [show joinSpaces [] = [] from rfl, parsePopsLoop, advanceParse_nil]
      exact hK _ _ _ _
  | cons t ts ih =>
    intro n pops tok hn
    have ht : ' ' ∉ t := hts t (by simp)
    have ih' := ih (fun u hu => hts u (by simp [hu]))
    cases n with
    | zero => exact absurd hn (Nat.not_lt_zero _)
    | succ n =>
      by_cases hstep : t ≠ [] ∨ ts ≠ []
      · have hlen := length_joinSpaces_lt hstep
        have hn' : (joinSpaces ts).length < n := by omega
        rw [parsePopsLoop, advanceParse_joinSpaces ht hstep tok, popsTokens]
        by_cases he : t = []
        · simp only [if_pos he]; exact ih' n pops _ hn'
        · simp only [if_neg he]
          by_cases ha : t = "->".toList
          · simp only [if_pos ha]; exact hK _ _ _ _
          · simp only [if_neg ha]
            by_cases hb : t = "|".toList
            · simp only [if_pos hb]; rfl
            · simp only [if_neg hb]
              cases tokenToType t with
              | ok ty => simp only [Outcome.bind_ok]; exact ih' n _ _ hn'
              | _ => rfl
      · obtain ⟨h1, h2⟩ := exhausted_of_not_step hstep
        subst h1; subst h2
        rw [show joinSpaces [[]] = [] from rfl, parsePopsLoop, advanceParse_nil]
        exact hK _ _ _ _

theorem parsePushesLoop_token_irrelevant (n : Nat) (pushes : List CharmTypes)
    (tok tok' rest : Str) :
    ((parsePushesLoop n pushes tok rest).bind fun r => Outcome.ok (r.1, r.2.1)) =
      (parsePushesLoop n pushes tok' rest).bind fun r => Outcome.ok (r.1, r.2.1) := by
  cases n with
  | zero => rfl
  | succ n =>
    rw [parsePushesLoop, parsePushesLoop]
    by_cases hr : rest = []
    · subst hr; rw [advanceParse_nil, advanceParse_nil]; rfl
    · have : advanceParse tok rest = advanceParse tok' rest := by
        simp [advanceParse, hr]
      rw [this]

theorem popsTokens_rest_mem (ts : List Str) :
    ∀ (pops pops' : List CharmTypes) (rest : List Str),
      popsTokens pops ts = .ok (pops', rest) → ∀ t ∈ rest, t ∈ ts := by
  induction ts with
  | nil =>
    intro pops pops' rest h t ht
    rw [popsTokens] at h
    cases h
    exact ht
  | cons u ts ih =>
    intro pops pops' rest h t ht
    rw [popsTokens] at h
    split_ifs at h with h1 h2 h3
    · exact List.mem_cons_of_mem _ (ih _ _ _ h t ht)
    · cases h; exact List.mem_cons_of_mem _ ht
    · cases htt : tokenToType u with
      | ok ty =>
        rw [htt, Outcome.bind_ok] at h
        exact List.mem_cons_of_mem _ (ih _ _ _ h t ht)
      | die _ => rw [htt] at h; cases h
      | fault _ => rw [htt] at h; cases h
      | outOfFuel => rw [htt] at h; cases h

/-- One arrival at the label `ParseUnit:` when the text after `::` is that of a token
sequence: the pass builds a unit, and at a `|` token jumps back to the label. -/
theorem parseUnit_tokens (line : Str) (colonIndex : Option Nat) (ts : List Str)
    (hts : ∀ t ∈ ts, ' ' ∉ t)
    (hrest : substrFrom line (indexPlus colonIndex 2) = .ok (joinSpaces ts))
    (fuel : Nat) (units : List CharmTypeSignatureUnit) :
    parseUnit line colonIndex (fuel + 1) units =
      (unitTokens ts).bind fun r =>
        if r.1 then parseUnit line colonIndex fuel (units ++ [r.2])
        else .ok (units ++ [r.2]) := by
  rw [parseUnit, hrest, Outcome.bind_ok]
  have key := parsePopsLoop_tokens
    (fun pops tok rest =>
      (parsePushesLoop (rest.length + 1) [] tok rest).bind fun r =>
        if r.1 then parseUnit line colonIndex fuel (units ++ [⟨pops, r.2.1⟩])
        else Outcome.ok (units ++ [⟨pops, r.2.1⟩]))
    (by
      intro pops tok tok' rest
      have h := parsePushesLoop_token_irrelevant (rest.length + 1) [] tok tok' rest
      have h2 := congrArg (fun x => Outcome.bind x fun (s : Bool × List CharmTypes) =>
        if s.1 then parseUnit line colonIndex fuel (units ++ [⟨pops, s.2⟩])
        else Outcome.ok (units ++ [⟨pops, s.2⟩])) h
      simp only [Outcome.bind_assoc, Outcome.bind_ok] at h2
      exact h2)
    ts hts ((joinSpaces ts).length + 1) [] [] (Nat.lt_succ_self _)
  refine Eq.trans ?_ (key.trans ?_)
  · cases parsePopsLoop ((joinSpaces ts).length + 1) [] [] (joinSpaces ts) with
    | ok r =>
      obtain ⟨pops, tok, rest⟩ := r
      simp only [Outcome.bind_ok]
    | _ => rfl
  · rw [unitTokens, Outcome.bind_assoc]
    cases hp : popsTokens [] ts with
    | ok s =>
      obtain ⟨pops, rest⟩ := s
      simp only [Outcome.bind_ok]
      have hrest' : ∀ t ∈ rest, ' ' ∉ t :=
        fun t ht => hts t (popsTokens_rest_mem ts [] pops rest hp t ht)
      have := parsePushesLoop_tokens
        (fun alt pushes =>
          if alt then parseUnit line colonIndex fuel (units ++ [⟨pops, pushes⟩])
          else Outcome.ok (units ++ [⟨pops, pushes⟩]))
        rest hrest' ((joinSpaces rest).length + 1) [] [] (Nat.lt_succ_self _)
      rw [this, Outcome.bind_assoc]
      rfl
    | _ => rfl

theorem joinSpaces_cons_of_ne_nil (t : Str) {ts : List Str} (h : ts ≠ []) :
    joinSpaces (t :: ts) = t ++ ' ' :: joinSpaces ts := by
  cases ts with
  | nil => exact absurd rfl h
  | cons t' ts => rfl

theorem find_colons (name rest : Str) (h : ¬ "::".toList <:+: name) :
    find "::".toList (name ++ ' ' :: ':' :: ':' :: rest) = some (name.length + 1) := by
  induction name with
  | nil => simp [find, List.isPrefixOf]
  | cons c cs ih =>
    have hcs : ¬ "::".toList <:+: cs := fun hh => h (hh.trans (List.suffix_cons c cs).isInfix)
    have hpre : List.isPrefixOf "::".toList ((c :: cs) ++ ' ' :: ':' :: ':' :: rest) = false := by
      cases cs with
      | nil => simp [List.isPrefixOf]
      | cons c' cs' =>
        by_contra hc
        apply h
        simp [List.isPrefixOf] at hc
        obtain ⟨h1, h2⟩ := hc
        subst h1; subst h2
        exact (List.prefix_append [':', ':'] cs').isInfix
    rw [List.cons_append] at hpre ⊢
    rw [find, if_neg (by rw [hpre]; simp), ih hcs]
    simp

theorem rtrim_append_space (s : Str) : rtrim (s ++ [' ']) = rtrim s := by
  simp [rtrim, List.dropWhile, isspace]

/-- The six type tokens are accepted by `tokenToType`; any token it accepts is free of
spaces and is neither empty, nor `->`, nor `|`. -/
theorem tokenToType_ok {t : Str} {ty : CharmTypes} (h : tokenToType t = .ok ty) :
    ' ' ∉ t ∧ t ≠ [] ∧ t ≠ "->".toList ∧ t ≠ "|".toList ∧ t ≠ ":=".toList ∧
      t ≠ "[".toList ∧ t ≠ "]".toList ∧ t ≠ "\"".toList ∧ t ≠ "::".toList := by
  unfold tokenToType at h
  split_ifs at h with h1 h2 h3 h4 h5 h6
  all_goals first
    | (subst h1; decide)
    | (subst h2; decide)
    | (subst h3; decide)
    | (subst h4; decide)
    | (subst h5; decide)
    | (subst h6; decide)

theorem popsTokens_types {ps : List Str} {tys : List CharmTypes}
    (h : List.Forall₂ (fun t ty => tokenToType t = .ok ty) ps tys) (qs : List Str) :
    ∀ pops, popsTokens pops (ps ++ "->".toList :: qs) = .ok (pops ++ tys, qs) := by
  induction h with
  | nil => intro pops; rw [List.nil_append, popsTokens]; simp
  | cons h1 _ ih =>
    intro pops
    obtain ⟨_, hne, ha, hb, _⟩ := tokenToType_ok h1
    rw [List.cons_append, popsTokens, if_neg hne, if_neg ha, if_neg hb, h1, Outcome.bind_ok, ih]
    simp

theorem pushesTokens_types {qs : List Str} {tys : List CharmTypes}
    (h : List.Forall₂ (fun t ty => tokenToType t = .ok ty) qs tys) :
    ∀ pushes, pushesTokens pushes qs = .ok (false, pushes ++ tys) := by
  induction h with
  | nil => intro pushes; rw [pushesTokens]; simp
  | cons h1 _ ih =>
    intro pushes
    obtain ⟨_, hne, _, hb, _⟩ := tokenToType_ok h1
    rw [pushesTokens, if_neg hne, if_neg hb, h1, Outcome.bind_ok, ih]
    simp

theorem pushesTokens_alternative {qs : List Str} {tys : List CharmTypes}
    (h : List.Forall₂ (fun t ty => tokenToType t = .ok ty) qs tys) (rest : List Str) :
    ∀ pushes, pushesTokens pushes (qs ++ "|".toList :: rest) = .ok (true, pushes ++ tys) := by
  induction h with
  | nil => intro pushes; rw [List.nil_append, pushesTokens]; simp
  | cons h1 _ ih =>
    intro pushes
    obtain ⟨_, hne, _, hb, _⟩ := tokenToType_ok h1
    rw [List.cons_append, pushesTokens, if_neg hne, if_neg hb, h1, Outcome.bind_ok, ih]
    simp

theorem forall₂_tokenToType_spaceFree {ps : List Str} {tys : List CharmTypes}
    (h : List.Forall₂ (fun t ty => tokenToType t = .ok ty) ps tys) : ∀ t ∈ ps, ' ' ∉ t := by
  induction h with
  | nil => intro t ht; simp at ht
  | cons h1 _ ih =>
    intro t ht
    rcases List.mem_cons.1 ht with h | h
    · subst h; exact (tokenToType_ok h1).1
    · exact ih t h

/-- The text after `::` in a signature line `name :: tokens`. -/
theorem substrFrom_signature (name : Str) (ts : List Str) (h : ¬ "::".toList <:+: name) :
    substrFrom (name ++ ' ' :: joinSpaces ("::".toList :: ts))
        (indexPlus (find "::".toList (name ++ ' ' :: joinSpaces ("::".toList :: ts))) 2) =
      .ok (joinSpaces ([] :: ts)) ∧
    substrTo (name ++ ' ' :: joinSpaces ("::".toList :: ts))
        (find "::".toList (name ++ ' ' :: joinSpaces ("::".toList :: ts))) = name ++ [' '] := by
  cases ts with
  | nil =>
    have hl : name ++ ' ' :: joinSpaces ["::".toList] = name ++ ' ' :: ':' :: ':' :: [] := rfl
    rw [hl, find_colons name [] h]
    constructor
    · simp [indexPlus, substrFrom, joinSpaces]
    · simp only [substrTo]
      have : name.length + 1 = (name ++ [' ']).length := by simp
      rw [this, show name ++ ' ' :: ':' :: ':' :: [] = (name ++ [' ']) ++ [':', ':'] by simp,
        List.take_left]
  | cons t ts =>
    have hl : name ++ ' ' :: joinSpaces ("::".toList :: t :: ts) =
        name ++ ' ' :: ':' :: ':' :: (' ' :: joinSpaces (t :: ts)) := rfl
    rw [hl, find_colons name _ h]
    constructor
    · have : joinSpaces ([] :: t :: ts) = ' ' :: joinSpaces (t :: ts) := rfl
      rw [this]
      simp only [indexPlus, substrFrom]
      rw [if_pos (by simp; omega)]
      congr 1
      have : name.length + 1 + 2 = (name ++ [' ', ':', ':']).length := by simp
      rw [this, show name ++ ' ' :: ':' :: ':' :: ' ' :: joinSpaces (t :: ts) =
        (name ++ [' ', ':', ':']) ++ ' ' :: joinSpaces (t :: ts) by simp, List.drop_left]
    · simp only [substrTo]
      have : name.length + 1 = (name ++ [' ']).length := by simp
      rw [this, show name ++ ' ' :: ':' :: ':' :: ' ' :: joinSpaces (t :: ts) =
        (name ++ [' ']) ++ ':' :: ':' :: ' ' :: joinSpaces (t :: ts) by simp, List.take_left]

/-- On the line `name :: p1 ... pm -> q1 ... qn`, where `name` contains no `::` and the
`p`s and `q`s are tokens that `tokenToType` accepts, `parseTypeSignature` returns the name
as `rtrim` and `ltrim` leave it, and exactly one unit, with the types of the `p`s as pops
and the types of the `q`s as pushes. -/
theorem parseTypeSignature_unit (fuel : Nat) (name : Str) (ps qs : List Str)
    (pops pushes : List CharmTypes)
    (hname : ¬ "::".toList <:+: name)
    (hps : List.Forall₂ (fun t ty => tokenToType t = .ok ty) ps pops)
    (hqs : List.Forall₂ (fun t ty => tokenToType t = .ok ty) qs pushes) :
    parseTypeSignature (fuel + 1)
        (name ++ ' ' :: joinSpaces ("::".toList :: ps ++ "->".toList :: qs)) =
      .ok ⟨ltrim (rtrim name), [⟨pops, pushes⟩]⟩ := by
  obtain ⟨h1, h2⟩ := substrFrom_signature name (ps ++ "->".toList :: qs) hname
  have hts : ∀ t ∈ [] :: (ps ++ "->".toList :: qs), ' ' ∉ t := by
    intro t ht
    rcases List.mem_cons.1 ht with h | h
    · subst h; simp
    · rcases List.mem_append.1 h with h | h
      · exact forall₂_tokenToType_spaceFree hps t h
      · rcases List.mem_cons.1 h with h | h
        · subst h; decide
        · exact forall₂_tokenToType_spaceFree hqs t h
  have hunit : unitTokens ([] :: (ps ++ "->".toList :: qs)) = .ok (false, ⟨pops, pushes⟩) := by
    rw [unitTokens, popsTokens, if_pos rfl, popsTokens_types hps, Outcome.bind_ok,
      pushesTokens_types hqs]
    simp [Outcome.bind]
  rw [parseTypeSignature]
  simp only [List.cons_append] at h1 h2 ⊢
  rw [h2, rtrim_append_space, parseUnit_tokens _ _ _ hts h1, hunit]
  rfl

/-- When the pass over the tokens after `::` ends at a `|` token, `goto ParseUnit` starts
the same pass again: no amount of fuel lets `parseUnit` return. -/
theorem parseUnit_diverges (line : Str) (colonIndex : Option Nat) (ts : List Str)
    (hts : ∀ t ∈ ts, ' ' ∉ t)
    (hrest : substrFrom line (indexPlus colonIndex 2) = .ok (joinSpaces ts))
    (u : CharmTypeSignatureUnit) (hu : unitTokens ts = .ok (true, u)) :
    ∀ (fuel : Nat) (units : List CharmTypeSignatureUnit),
      parseUnit line colonIndex fuel units = .outOfFuel := by
  intro fuel
  induction fuel with
  | zero => intro units; rfl
  | succ fuel ih =>
    intro units
    rw [parseUnit_tokens line colonIndex ts hts hrest, hu, Outcome.bind_ok]
    exact ih _

theorem isLineTypeSignature_of_second {name : Str} {ts : List Str}
    (hname : ' ' ∉ name ∧ name ≠ [] ∧ name ≠ "[".toList ∧ name ≠ "]".toList ∧
      name ≠ "\"".toList ∧ name ≠ "::".toList) :
    isLineTypeSignature (joinSpaces (name :: "::".toList :: ts)) = true := by
  obtain ⟨h0, hne, h1, h2, h3, h4⟩ := hname
  have hp : getlineAll ' ' (joinSpaces (name :: "::".toList :: ts)) =
      name :: "::".toList :: getlineAll ' ' (joinSpaces ts) := by
    rw [getlineAll_joinSpaces h0 (Or.inl hne),
      getlineAll_joinSpaces (by decide) (Or.inl (by decide))]
  have hl : recognizeFunction name ≠ .LIST_FUNCTION := by
    unfold recognizeFunction; rw [if_neg h1]; split_ifs <;> simp
  have hs : recognizeFunction name ≠ .STRING_FUNCTION := by
    unfold recognizeFunction; rw [if_neg h1, if_neg h3]; split_ifs <;> simp
  have hl2 : recognizeFunction "::".toList ≠ .LIST_FUNCTION := by decide
  have hs2 : recognizeFunction "::".toList ≠ .STRING_FUNCTION := by decide
  have hb2 : "::".toList ≠ "]".toList := by decide
  rw [isLineTypeSignature, hp, classifyLoop]
  simp only [if_neg hl, if_neg h2, if_neg hs, decide_eq_true_eq, h4, decide_False, Bool.and_false,
    Bool.false_eq_true, if_false]
  rw [classifyLoop]
  simp only [if_neg hl2, if_neg hb2, if_neg hs2]
  rfl

/-- C7: on the line `f :: a -> b | c -> d`, with `a`, `b`, `c`, `d` valid type tokens, the
parse does not terminate: after the `|` token `parseTypeSignature` jumps back to
`ParseUnit:`, where `typeStringRest` is read again from the start of the text after `::`,
so the same first alternative is parsed over and over, whatever the fuel; `lex` on that
line does not return either. -/
theorem parseTypeSignature_alternative_diverges (a b c d : Str) (ta tb tc td : CharmTypes)
    (ha : tokenToType a = .ok ta) (hb : tokenToType b = .ok tb)
    (hc : tokenToType c = .ok tc) (hd : tokenToType d = .ok td)
    (OPTIMIZE_INLINE : Bool) (p : Parser) (fuel : Nat) :
    parseTypeSignature fuel (joinSpaces ["f".toList, "::".toList, a, "->".toList, b,
        "|".toList, c, "->".toList, d]) = .outOfFuel ∧
    lex OPTIMIZE_INLINE fuel p (joinSpaces ["f".toList, "::".toList, a, "->".toList, b,
        "|".toList, c, "->".toList, d]) = .outOfFuel := by
  obtain ⟨ha0, hane, haa, hab, had, hal, har, haq, hac⟩ := tokenToType_ok ha
  obtain ⟨hb0, hbne, hba, hbb, hbd, hbl, hbr, hbq, hbc⟩ := tokenToType_ok hb
  obtain ⟨hc0, hcne, hca, hcb, hcd, hcl, hcr, hcq, hcc⟩ := tokenToType_ok hc
  obtain ⟨hd0, hdne, hda, hdb, hdd, hdl, hdr, hdq, hdc⟩ := tokenToType_ok hd
  have hts : ∀ t ∈ [a, "->".toList, b, "|".toList, c, "->".toList, d], ' ' ∉ t := by
    intro t ht
    simp only [List.mem_cons, List.mem_singleton, List.not_mem_nil, or_false] at ht
    rcases ht with h | h | h | h | h | h | h <;> subst h <;> first | assumption | decide
  have hts' : ∀ t ∈ [] :: [a, "->".toList, b, "|".toList, c, "->".toList, d], ' ' ∉ t := by
    intro t ht
    rcases List.mem_cons.1 ht with h | h
    · subst h; simp
    · exact hts t h
  have hline : joinSpaces ["f".toList, "::".toList, a, "->".toList, b, "|".toList, c,
      "->".toList, d] = "f".toList ++ ' ' :: joinSpaces ("::".toList ::
        [a, "->".toList, b, "|".toList, c, "->".toList, d]) := rfl
  obtain ⟨h1, _⟩ := substrFrom_signature "f".toList
    [a, "->".toList, b, "|".toList, c, "->".toList, d] (by decide)
  have hunit : unitTokens ([] :: [a, "->".toList, b, "|".toList, c, "->".toList, d]) =
      .ok (true, ⟨[ta], [tb]⟩) := by
    have e1 := @popsTokens_types [a] [ta] (List.Forall₂.cons ha List.Forall₂.nil)
      [b, "|".toList, c, "->".toList, d] []
    have e2 := @pushesTokens_alternative [b] [tb]
      (List.Forall₂.cons hb List.Forall₂.nil) [c, "->".toList, d] []
    simp only [List.cons_append, List.nil_append] at e1 e2
    rw [unitTokens, popsTokens, if_pos rfl, e1, Outcome.bind_ok]
    simp only [e2, Outcome.bind_ok]
  have hparse : ∀ fuel, parseTypeSignature fuel (joinSpaces ["f".toList, "::".toList, a,
      "->".toList, b, "|".toList, c, "->".toList, d]) = .outOfFuel := by
    intro fuel
    rw [parseTypeSignature, hline, parseUnit_diverges _ _ _ hts' h1 _ hunit]
    rfl
  refine ⟨hparse fuel, ?_⟩
  cases fuel with
  | zero => rfl
  | succ fuel =>
    have hall : ∀ t ∈ ["f".toList, "::".toList, a, "->".toList, b, "|".toList, c,
        "->".toList, d], ' ' ∉ t ∧ '\n' ∉ t ∧ t ≠ ":=".toList := by
      intro t ht
      simp only [List.mem_cons, List.mem_singleton, List.not_mem_nil, or_false] at ht
      have hnl : ∀ {x : Str} {tx : CharmTypes}, tokenToType x = .ok tx → '\n' ∉ x := by
        intro x tx hx
        unfold tokenToType at hx
        split_ifs at hx with h1 h2 h3 h4 h5 h6
        all_goals first
          | (subst h1; decide)
          | (subst h2; decide)
          | (subst h3; decide)
          | (subst h4; decide)
          | (subst h5; decide)
          | (subst h6; decide)
      rcases ht with h | h | h | h | h | h | h | h | h
      · subst h; decide
      · subst h; decide
      · subst h; exact ⟨ha0, hnl ha, had⟩
      · subst h; decide
      · subst h; exact ⟨hb0, hnl hb, hbd⟩
      · subst h; decide
      · subst h; exact ⟨hc0, hnl hc, hcd⟩
      · subst h; decide
      · subst h; exact ⟨hd0, hnl hd, hdd⟩
    have hdef : isLineFunctionDefinition (joinSpaces ["f".toList, "::".toList, a, "->".toList,
        b, "|".toList, c, "->".toList, d]) = false :=
      isLineFunctionDefinition_joinSpaces_false (fun t ht => ⟨(hall t ht).1, (hall t ht).2.2⟩)
    have hsig : isLineTypeSignature (joinSpaces ["f".toList, "::".toList, a, "->".toList,
        b, "|".toList, c, "->".toList, d]) = true :=
      isLineTypeSignature_of_second (by decide)
    have hne : joinSpaces ["f".toList, "::".toList, a, "->".toList, b, "|".toList, c,
        "->".toList, d] ≠ [] := joinSpaces_ne_nil_of_mem (t := "f".toList) (by simp) (by decide)
    unfold lex
    rw [lexAskToInline_line OPTIMIZE_INLINE fuel p _ true
      (fun t ht => ⟨(hall t ht).1, (hall t ht).2.1⟩), if_neg hne, hdef, hsig, hparse]
    rfl

/-- Witness for C7: the line `f :: int -> float | string -> list`, with fuel 1000. -/
theorem parseTypeSignature_alternative_diverges_witness :
    parseTypeSignature 1000 "f :: int -> float | string -> list".toList = .outOfFuel ∧
    lex true 1000 Parser.new "f :: int -> float | string -> list".toList = .outOfFuel :=
  parseTypeSignature_alternative_diverges "int".toList "float".toList "string".toList
    "list".toList .TYPESIG_INT .TYPESIG_FLOAT .TYPESIG_STRING .TYPESIG_LIST
    (by decide) (by decide) (by decide) (by decide) true Parser.new 1000

theorem Outcome.bind_eq_ok {α β : Type} {x : Outcome α} {f : α → Outcome β} {b : β}
    (h : x.bind f = .ok b) : ∃ a, x = .ok a ∧ f a = .ok b := by
  cases x with
  | ok a => exact ⟨a, rfl, h⟩
  | die _ => cases h
  | fault _ => cases h
  | outOfFuel => cases h

theorem parseDefinition_ok {rec : LexCall} {p : Parser} {line : Str} {f : CharmFunction}
    {p' : Parser} (h : parseDefinition rec p line = .ok (f, p')) :
    ∃ second body p1, rec p second true = .ok (body, p1) ∧
      f = .functionDefinition (ltrim (rtrim (substrTo line (find ":=".toList line)))) body
        (analyzeDefinition p1.fA (ltrim (rtrim (substrTo line (find ":=".toList line)))) body).1 ∧
      p' = definedState p1 (ltrim (rtrim (substrTo line (find ":=".toList line)))) body := by
  unfold parseDefinition at h
  obtain ⟨second, _, h⟩ := Outcome.bind_eq_ok h
  obtain ⟨r, hr, h⟩ := Outcome.bind_eq_ok h
  obtain ⟨body, p1⟩ := r
  refine ⟨second, body, p1, hr, ?_⟩
  simp only at h
  cases h
  exact ⟨rfl, rfl⟩

section Preservation

variable (I : Parser → Prop)

theorem parseListFunction_preserves {rec : LexCall}
    (hrec : ∀ p input wi out p', I p → rec p input wi = .ok (out, p') → I p')
    {p : Parser} {token rest : Str} {r : CharmFunction × Str × Str × Parser}
    (hp : I p) (h : parseListFunction rec p token rest = .ok r) : I r.2.2.2 := by
  unfold parseListFunction at h
  generalize parseListLoop (getlineAll ' ' rest) 1 [] token rest = l at h
  obtain ⟨d, outS, tok', rest'⟩ := l
  simp only at h
  split_ifs at h
  obtain ⟨a, ha, h⟩ := Outcome.bind_eq_ok h
  obtain ⟨b, p1⟩ := a
  cases h
  exact hrec _ _ _ _ _ hp ha

theorem delegateParsing_preserves (OPT : Bool) {rec : LexCall}
    (hrec : ∀ p input wi out p', I p → rec p input wi = .ok (out, p') → I p')
    {p : Parser} {out : List CharmFunction} {token rest : Str} {wi : Bool}
    {r : List CharmFunction × Str × Str × Parser}
    (hp : I p) (h : delegateParsing OPT rec p out token rest wi = .ok r) : I r.2.2.2 := by
  unfold delegateParsing at h
  split at h
  · split_ifs at h
    · split at h
      · split_ifs at h
        · split at h <;> (cases h; exact hp)
        · cases h; exact hp
      · cases h; exact hp
    · cases h; exact hp
  · obtain ⟨a, _, h⟩ := Outcome.bind_eq_ok h
    cases h; exact hp
  · obtain ⟨a, _, h⟩ := Outcome.bind_eq_ok h
    cases h; exact hp
  · obtain ⟨a, ha, h⟩ := Outcome.bind_eq_ok h
    cases h
    exact parseListFunction_preserves I hrec hp ha
  · cases h; exact hp

theorem tokenLoop_preserves (OPT : Bool) {rec : LexCall} (wi : Bool)
    (hrec : ∀ p input wi out p', I p → rec p input wi = .ok (out, p') → I p') :
    ∀ (n : Nat) (p : Parser) (out : List CharmFunction) (token rest : Str)
      (r : List CharmFunction × Parser),
      I p → tokenLoop OPT rec wi n p out token rest = .ok r → I r.2 := by
  intro n
  induction n with
  | zero => intro p out token rest r _ h; cases h
  | succ n ih =>
    intro p out token rest r hp h
    rw [tokenLoop] at h
    split at h
    · cases h; exact hp
    · split_ifs at h
      · exact ih _ _ _ _ _ hp h
      · obtain ⟨a, ha, h⟩ := Outcome.bind_eq_ok h
        exact ih _ _ _ _ _ (delegateParsing_preserves I OPT hrec hp ha) h

theorem lineLoop_preserves (OPT : Bool) {rec : LexCall} (fuel : Nat) (wi : Bool)
    (hrec : ∀ p input wi out p', I p → rec p input wi = .ok (out, p') → I p')
    (hdef : ∀ p name body, I p → I (definedState p name body))
    (hsig : ∀ (p : Parser) sig, I p → I { p with fA := p.fA.addTypeSignature sig }) :
    ∀ (lines : List Str) (p : Parser) (out : List CharmFunction)
      (r : List CharmFunction × Parser),
      I p → lineLoop OPT rec fuel wi lines p out = .ok r → I r.2 := by
  intro lines
  induction lines with
  | nil => intro p out r hp h; cases h; exact hp
  | cons line lines ih =>
    intro p out r hp h
    rw [lineLoop] at h
    split_ifs at h
    · obtain ⟨a, ha, h⟩ := Outcome.bind_eq_ok h
      obtain ⟨f, p1⟩ := a
      obtain ⟨second, body, p0, hb, _, hp1⟩ := parseDefinition_ok ha
      refine ih _ _ _ ?_ h
      show I p1
      rw [hp1]
      exact hdef _ _ _ (hrec _ _ _ _ _ hp hb)
    · obtain ⟨a, _, h⟩ := Outcome.bind_eq_ok h
      exact ih _ _ _ (hsig _ _ hp) h
    · obtain ⟨a, ha, h⟩ := Outcome.bind_eq_ok h
      exact ih _ _ _ (tokenLoop_preserves I OPT wi hrec _ _ _ _ _ _ hp ha) h

/-- A property of the parser state that definitions and signature registrations keep is
kept by every call of `lexAskToInline` that returns. -/
theorem lexAskToInline_preserves (OPT : Bool)
    (hdef : ∀ p name body, I p → I (definedState p name body))
    (hsig : ∀ (p : Parser) sig, I p → I { p with fA := p.fA.addTypeSignature sig }) :
    ∀ (fuel : Nat) (p : Parser) (input : Str) (wi : Bool) (out : List CharmFunction)
      (p' : Parser), I p → lexAskToInline OPT fuel p input wi = .ok (out, p') → I p' := by
  intro fuel
  induction fuel with
  | zero => intro p input wi out p' _ h; cases h
  | succ fuel ih =>
    intro p input wi out p' hp h
    rw [lexAskToInline] at h
    exact lineLoop_preserves I OPT (fuel + 1) wi ih hdef hsig _ _ _ _ hp h

theorem session_preserves (OPT : Bool) (fuel : Nat)
    (hdef : ∀ p name body, I p → I (definedState p name body))
    (hsig : ∀ (p : Parser) sig, I p → I { p with fA := p.fA.addTypeSignature sig }) :
    ∀ (inputs : List Str) (p p' : Parser), I p → session OPT fuel p inputs = .ok p' → I p' := by
  intro inputs
  induction inputs with
  | nil => intro p p' hp h; cases h; exact hp
  | cons input inputs ih =>
    intro p p' hp h
    rw [session] at h
    obtain ⟨a, ha, h⟩ := Outcome.bind_eq_ok h
    obtain ⟨out, p1⟩ := a
    exact ih _ _ (lexAskToInline_preserves I OPT hdef hsig _ _ _ _ _ _ hp ha) h

end Preservation

theorem mapFind_mapInsert_self {β : Type} (k : Str) (v : β) (m : List (Str × β)) :
    mapFind k (mapInsert k v m) = some v := by
  simp [mapInsert, mapFind]

theorem mapFind_filter_ne {β : Type} {k k' : Str} (h : k' ≠ k) (m : List (Str × β)) :
    mapFind k (m.filter fun e => decide (e.1 ≠ k')) = mapFind k m := by
  induction m with
  | nil => rfl
  | cons e m ih =>
    obtain ⟨a, b⟩ := e
    by_cases ha : a = k'
    · subst ha
      rw [List.filter_cons_of_neg (by simp), ih, mapFind, if_neg h]
    · rw [List.filter_cons_of_pos (by simpa using ha), mapFind, mapFind, ih]

theorem mapFind_mapInsert_ne {β : Type} {k k' : Str} (h : k' ≠ k) (v : β)
    (m : List (Str × β)) : mapFind k (mapInsert k' v m) = mapFind k m := by
  rw [mapInsert, mapFind, if_neg h, mapFind_filter_ne h]

theorem analyzeDefinition_typeSignatures (fA : FunctionAnalyzer) (name : Str)
    (body : List CharmFunction) :
    (analyzeDefinition fA name body).2.typeSignatures = fA.typeSignatures := by
  unfold analyzeDefinition
  simp only
  split_ifs <;> rfl

theorem signatureGuards_definedState (n : Str) (p : Parser) (name : Str)
    (body : List CharmFunction) (h : SignatureGuards n p) :
    SignatureGuards n (definedState p name body) := by
  obtain ⟨h1, h2⟩ := h
  refine ⟨?_, ?_⟩
  · show (mapFind n (analyzeDefinition p.fA name body).2.typeSignatures).isSome = true
    rw [analyzeDefinition_typeSignatures]; exact h1
  · intro info hinfo
    by_cases hn : name = n
    · subst hn
      have : mapFind name (definedState p name body).definitionInfoCache =
          some (analyzeDefinition p.fA name body).1 := mapFind_mapInsert_self _ _ _
      rw [this] at hinfo
      cases hinfo
      show (p.fA.isInlinable name body) = false
      unfold FunctionAnalyzer.isInlinable
      cases hs : mapFind name p.fA.typeSignatures with
      | none => rw [hs] at h1; cases h1
      | some s => simp
    · have : mapFind n (definedState p name body).definitionInfoCache =
          mapFind n p.definitionInfoCache := mapFind_mapInsert_ne hn _ _
      rw [this] at hinfo
      exact h2 info hinfo

theorem signatureGuards_addTypeSignature (n : Str) (p : Parser) (sig : CharmTypeSignature)
    (h : SignatureGuards n p) :
    SignatureGuards n { p with fA := p.fA.addTypeSignature sig } := by
  obtain ⟨h1, h2⟩ := h
  refine ⟨?_, h2⟩
  show (mapFind n (mapInsert sig.functionName sig p.fA.typeSignatures)).isSome = true
  by_cases hn : sig.functionName = n
  · rw [hn, mapFind_mapInsert_self]; rfl
  · rw [mapFind_mapInsert_ne hn]; exact h1

theorem plainEmit_signatureGuards (OPT wi : Bool) {n : Str} {p : Parser}
    (h : SignatureGuards n p) (hn : isStringNumber n = false) :
    plainEmit OPT wi p n = .ok [.definedFunction n] := by
  rw [plainEmit_name hn]
  congr 1
  unfold nameEmit
  split_ifs
  · cases hc : mapFind n p.definitionInfoCache with
    | none => rfl
    | some info => simp only [h.2 info hc, Bool.false_eq_true, if_false]
  · rfl

theorem lexItems_out_extends (OPT : Bool) (rec : LexCall) (wi : Bool) (is : List Item) :
    ∀ (p : Parser) (out : List CharmFunction) (r : List CharmFunction × Parser),
      lexItems OPT rec wi is p out = .ok r → ∃ more, r.1 = out ++ more := by
  induction is with
  | nil => intro p out r h; cases h; exact ⟨[], by simp⟩
  | cons i is ih =>
    intro p out r h
    cases i with
    | plain t =>
      rw [lexItems] at h
      obtain ⟨nodes, _, h⟩ := Outcome.bind_eq_ok h
      obtain ⟨more, hm⟩ := ih _ _ _ h
      exact ⟨_, by rw [hm, List.append_assoc]⟩
    | assign =>
      rw [lexItems] at h
      obtain ⟨more, hm⟩ := ih _ _ _ h
      exact ⟨_, by rw [hm, List.append_assoc]⟩
    | str ss =>
      rw [lexItems] at h
      obtain ⟨es, _, h⟩ := Outcome.bind_eq_ok h
      obtain ⟨more, hm⟩ := ih _ _ _ h
      exact ⟨_, by rw [hm, List.append_assoc]⟩
    | openStr ss =>
      rw [lexItems] at h
      obtain ⟨es, _, h⟩ := Outcome.bind_eq_ok h
      cases h
    | lst body =>
      rw [lexItems] at h
      obtain ⟨a, _, h⟩ := Outcome.bind_eq_ok h
      obtain ⟨more, hm⟩ := ih _ _ _ h
      exact ⟨_, by rw [hm, List.append_assoc]⟩
    | openLst => rw [lexItems] at h; cases h

theorem session_signatureGuards (OPT : Bool) (fuel : Nat) (n : Str) (inputs : List Str)
    (p p' : Parser) (h : SignatureGuards n p) (hs : session OPT fuel p inputs = .ok p') :
    SignatureGuards n p' :=
  session_preserves (SignatureGuards n) OPT fuel
    (fun p name body hp => signatureGuards_definedState n p name body hp)
    (fun p sig hp => signatureGuards_addTypeSignature n p sig hp) inputs p p' h hs

/-- A guarded name at a call site: once the tokens before it have been lexed, the name
node itself is appended and lexing goes on with the tokens after it. -/
theorem lex_guarded_name (OPT : Bool) (fuel : Nat) (n : Str) (p : Parser)
    (pre post : List Str) (out1 : List CharmFunction) (p1 : Parser)
    (hname : isStringNumber n = false ∧ n ≠ [] ∧ n ≠ "[".toList ∧ n ≠ "\"".toList ∧
      n ≠ ":=".toList)
    (hguard : SignatureGuards n p)
    (htok : ∀ t ∈ pre ++ n :: post, ' ' ∉ t ∧ '\n' ∉ t)
    (hdef : isLineFunctionDefinition (joinSpaces (pre ++ n :: post)) = false)
    (hsig : isLineTypeSignature (joinSpaces (pre ++ n :: post)) = false)
    (hpre : lex OPT (fuel + 1) p (joinSpaces pre) = .ok (out1, p1)) :
    lex OPT (fuel + 1) p (joinSpaces (pre ++ n :: post)) =
      lexItems OPT (lexAskToInline OPT fuel) true (itemize post) p1
        (out1 ++ [.definedFunction n]) := by
  obtain ⟨hnum, hne, h1, h2, h3⟩ := hname
  have hline : joinSpaces (pre ++ n :: post) ≠ [] :=
    joinSpaces_ne_nil_of_mem (t := n) (by simp) hne
  have hg1 : SignatureGuards n p1 :=
    lexAskToInline_preserves (SignatureGuards n) OPT
      (fun p name body hp => signatureGuards_definedState n p name body hp)
      (fun p sig hp => signatureGuards_addTypeSignature n p sig hp) _ _ _ _ _ _ hguard hpre
  unfold lex at hpre ⊢
  rw [lex_line_append OPT fuel p true pre (n :: post) out1 p1 htok (by simp) hdef hsig hline hpre,
    itemize, itemizeFrom, if_neg hne, if_neg h1, if_neg h2, if_neg h3, lexItems,
    plainEmit_signatureGuards OPT true hg1 hnum, Outcome.bind_ok]
  rfl

/-- Once a type signature is registered for a name while the cache holds no info that
says the name is inlineable, the name is not auto-inlined at a call site, at every later
point of the session: the guard still holds after any further inputs, an expression line
that ends with the name at top level lexes to the nodes of the tokens before it followed
by the name node, and whenever an expression line with the name at top level lexes, its
nodes are those of the tokens before the name, then the name node, then further nodes. -/
theorem signatureGuards_call_site (OPTIMIZE_INLINE : Bool) (fuel fuel' : Nat) (n : Str)
    (p p' : Parser) (inputs : List Str) (pre post : List Str) (out1 : List CharmFunction)
    (p1 : Parser)
    (hname : isStringNumber n = false ∧ n ≠ [] ∧ n ≠ "[".toList ∧ n ≠ "\"".toList ∧
      n ≠ ":=".toList)
    (hsigned : (mapFind n p.fA.typeSignatures).isSome = true)
    (hcache : ∀ defInfo, mapFind n p.definitionInfoCache = some defInfo →
      defInfo.inlineable = false)
    (hsession : session OPTIMIZE_INLINE fuel p inputs = .ok p')
    (htok : ∀ t ∈ pre ++ n :: post, ' ' ∉ t ∧ '\n' ∉ t)
    (hdef : isLineFunctionDefinition (joinSpaces (pre ++ n :: post)) = false)
    (hsig : isLineTypeSignature (joinSpaces (pre ++ n :: post)) = false)
    (hpre : lex OPTIMIZE_INLINE (fuel' + 1) p' (joinSpaces pre) = .ok (out1, p1)) :
    ((mapFind n p'.fA.typeSignatures).isSome = true ∧
      ∀ defInfo, mapFind n p'.definitionInfoCache = some defInfo →
        defInfo.inlineable = false) ∧
    lex OPTIMIZE_INLINE (fuel' + 1) p' (joinSpaces (pre ++ [n])) =
      .ok (out1 ++ [.definedFunction n], p1) ∧
    ∀ out p'', lex OPTIMIZE_INLINE (fuel' + 1) p' (joinSpaces (pre ++ n :: post)) =
        .ok (out, p'') → ∃ more, out = out1 ++ .definedFunction n :: more := by
  have hg : SignatureGuards n p' :=
    session_signatureGuards OPTIMIZE_INLINE fuel n inputs p p' ⟨hsigned, hcache⟩ hsession
  refine ⟨hg, ?_, ?_⟩
  · have htok' : ∀ t ∈ pre ++ [n], ' ' ∉ t ∧ '\n' ∉ t := by
      intro t ht
      apply htok
      rcases List.mem_append.1 ht with h | h
      · simp [h]
      · simp [List.mem_singleton.1 h]
    have hpt : ∀ t ∈ pre ++ [n], ' ' ∉ t := fun t ht => (htok' t ht).1
    have hd' : isLineFunctionDefinition (joinSpaces (pre ++ [n])) = false := by
      by_cases hpost : post = []
      · rw [hpost] at hdef; exact hdef
      · have := hdef
        rw [show pre ++ n :: post = (pre ++ [n]) ++ post by simp] at this
        exact classify_prefix _ hpt hpost this
    have hs' : isLineTypeSignature (joinSpaces (pre ++ [n])) = false := by
      by_cases hpost : post = []
      · rw [hpost] at hsig; exact hsig
      · have := hsig
        rw [show pre ++ n :: post = (pre ++ [n]) ++ post by simp] at this
        exact classify_prefix _ hpt hpost this
    rw [lex_guarded_name OPTIMIZE_INLINE fuel' n p' pre [] out1 p1 hname hg htok' hd' hs' hpre]
    rfl
  · intro out p'' h
    rw [lex_guarded_name OPTIMIZE_INLINE fuel' n p' pre post out1 p1 hname hg htok hdef hsig
      hpre] at h
    obtain ⟨more, hm⟩ := lexItems_out_extends _ _ _ _ _ _ _ h
    exact ⟨more, by rw [show out = (out, p'').1 from rfl, hm, List.append_assoc]; rfl⟩

/-- C6: a name with a registered type signature is auto-inlined at a call site when its
definition was parsed before the signature line.  After `id := ` and then
`id :: any -> any`, the name `id` has a registered type signature, its cached
`inlineable` flag is still true, and the line `id` lexes to no node at all (the empty body
of the definition) instead of the name node of `id`.  In the other order the claim holds:
once a type signature is registered for a name while the cache holds no info that says
the name is inlineable, the name is never auto-inlined at a call site, at every later
point of the session (the guard still holds after any further inputs; an expression line
that ends with the name at top level lexes to the nodes of the tokens before it followed
by the name node; and whenever an expression line with the name at top level lexes, its
nodes are those of the tokens before the name, then the name node, then further nodes).
Witness: after `id :: any -> any` and then `id := `, the line `id` lexes to the name node
of `id`. -/
theorem signature_guards_call_site :
    (∃ p' : Parser,
      session true 2 Parser.new ["id := ".toList, "id :: any -> any".toList] = .ok p' ∧
      (mapFind "id".toList p'.fA.typeSignatures).isSome = true ∧
      mapFind "id".toList p'.definitionInfoCache = some ⟨true, false⟩ ∧
      lex true 1 p' "id".toList = .ok ([], p')) ∧
    (∀ (OPTIMIZE_INLINE : Bool) (fuel fuel' : Nat) (n : Str) (p p' : Parser)
      (inputs : List Str) (pre post : List Str) (out1 : List CharmFunction) (p1 : Parser),
      (isStringNumber n = false ∧ n ≠ [] ∧ n ≠ "[".toList ∧ n ≠ "\"".toList ∧
        n ≠ ":=".toList) →
      (mapFind n p.fA.typeSignatures).isSome = true →
      (∀ defInfo, mapFind n p.definitionInfoCache = some defInfo →
        defInfo.inlineable = false) →
      session OPTIMIZE_INLINE fuel p inputs = .ok p' →
      (∀ t ∈ pre ++ n :: post, ' ' ∉ t ∧ '\n' ∉ t) →
      isLineFunctionDefinition (joinSpaces (pre ++ n :: post)) = false →
      isLineTypeSignature (joinSpaces (pre ++ n :: post)) = false →
      lex OPTIMIZE_INLINE (fuel' + 1) p' (joinSpaces pre) = .ok (out1, p1) →
      ((mapFind n p'.fA.typeSignatures).isSome = true ∧
        ∀ defInfo, mapFind n p'.definitionInfoCache = some defInfo →
          defInfo.inlineable = false) ∧
      lex OPTIMIZE_INLINE (fuel' + 1) p' (joinSpaces (pre ++ [n])) =
        .ok (out1 ++ [.definedFunction n], p1) ∧
      ∀ out p'', lex OPTIMIZE_INLINE (fuel' + 1) p' (joinSpaces (pre ++ n :: post)) =
          .ok (out, p'') → ∃ more, out = out1 ++ .definedFunction n :: more) ∧
    (∃ p p' : Parser,
      lex true 2 Parser.new "id :: any -> any".toList = .ok ([], p) ∧
      session true 2 p ["id := ".toList] = .ok p' ∧
      mapFind "id".toList p'.definitionInfoCache = some ⟨false, false⟩ ∧
      lex true 1 p' "id".toList = .ok ([.definedFunction "id".toList], p')) :=
  ⟨⟨_, rfl, rfl, rfl, rfl⟩,
    fun OPTIMIZE_INLINE fuel fuel' n p p' inputs pre post out1 p1 hname hsigned hcache hsession
        htok hdef hsig hpre =>
      signatureGuards_call_site OPTIMIZE_INLINE fuel fuel' n p p' inputs pre post out1 p1 hname
        hsigned hcache hsession htok hdef hsig hpre,
    ⟨⟨[], ⟨[], [("id".toList, ⟨"id".toList, [⟨[.TYPESIG_ANY], [.TYPESIG_ANY]⟩]⟩)]⟩⟩,
      ⟨[("id".toList, ⟨false, false⟩)],
        ⟨[("id".toList, [])],
          [("id".toList, ⟨"id".toList, [⟨[.TYPESIG_ANY], [.TYPESIG_ANY]⟩]⟩)]⟩⟩,
      rfl, rfl, rfl, rfl⟩⟩

theorem splitSpaces_ne_nil (s : Str) : splitSpaces s ≠ [] := by
  cases s with
  | nil => simp [splitSpaces]
  | cons c cs =>
    rw [splitSpaces]
    split_ifs
    · simp
    · cases splitSpaces cs <;> simp

theorem joinSpaces_splitSpaces (s : Str) : joinSpaces (splitSpaces s) = s := by
  induction s with
  | nil => rfl
  | cons c cs ih =>
    rw [splitSpaces]
    by_cases hc : c = ' '
    · rw [if_pos hc, joinSpaces_cons_of_ne_nil _ (splitSpaces_ne_nil cs), ih, hc]; rfl
    · rw [if_neg hc]
      cases hs : splitSpaces cs with
      | nil => exact absurd hs (splitSpaces_ne_nil cs)
      | cons t ts =>
        rw [hs] at ih
        cases ts with
        | nil => rw [joinSpaces_single] at ih ⊢; rw [ih]
        | cons t' ts => rw [joinSpaces_cons_cons] at ih ⊢; rw [← ih]; rfl

theorem mem_splitSpaces (s : Str) : ∀ t ∈ splitSpaces s, ∀ c ∈ t, c ≠ ' ' ∧ c ∈ s := by
  induction s with
  | nil => intro t ht c hc; simp [splitSpaces] at ht; subst ht; simp at hc
  | cons a cs ih =>
    intro t ht c hc
    rw [splitSpaces] at ht
    by_cases ha : a = ' '
    · rw [if_pos ha] at ht
      rcases List.mem_cons.1 ht with h | h
      · subst h; simp at hc
      · obtain ⟨h1, h2⟩ := ih t h c hc
        exact ⟨h1, List.mem_cons_of_mem _ h2⟩
    · rw [if_neg ha] at ht
      cases hs : splitSpaces cs with
      | nil => exact absurd hs (splitSpaces_ne_nil cs)
      | cons u us =>
        rw [hs] at ht ih
        rcases List.mem_cons.1 ht with h | h
        · subst h
          rcases List.mem_cons.1 hc with h' | h'
          · subst h'; exact ⟨ha, by simp⟩
          · obtain ⟨h1, h2⟩ := ih u (by simp) c h'
            exact ⟨h1, List.mem_cons_of_mem _ h2⟩
        · obtain ⟨h1, h2⟩ := ih t (List.mem_cons_of_mem _ h) c hc
          exact ⟨h1, List.mem_cons_of_mem _ h2⟩

theorem splitSpaces_tokens {s : Str} (h : '\n' ∉ s) :
    ∀ t ∈ splitSpaces s, ' ' ∉ t ∧ '\n' ∉ t := by
  intro t ht
  constructor
  · intro hc; exact (mem_splitSpaces s t ht _ hc).1 rfl
  · intro hc; exact h (mem_splitSpaces s t ht _ hc).2

theorem joinSpaces_append_empty {ts : List Str} (h : ts ≠ []) :
    joinSpaces (ts ++ [[]]) = joinSpaces ts ++ [' '] := by
  induction ts with
  | nil => exact absurd rfl h
  | cons t ts ih =>
    cases ts with
    | nil => simp [joinSpaces]
    | cons t' ts =>
      rw [List.cons_append, joinSpaces_cons_of_ne_nil _ (by simp), ih (by simp),
        joinSpaces_cons_cons]
      simp

/-- A text followed by one space is the text of its tokens followed by an empty token. -/
theorem append_space_eq (s : Str) :
    s ++ [' '] = joinSpaces (splitSpaces s ++ [[]]) := by
  rw [joinSpaces_append_empty (splitSpaces_ne_nil s), joinSpaces_splitSpaces]

theorem getlineAll_joinSpaces_cases {ts : List Str} (h : ∀ t ∈ ts, ' ' ∉ t) :
    getlineAll ' ' (joinSpaces ts) = ts ∨ getlineAll ' ' (joinSpaces ts) ++ [[]] = ts := by
  induction ts with
  | nil => left; rfl
  | cons t ts ih =>
    by_cases hstep : t ≠ [] ∨ ts ≠ []
    · rw [getlineAll_joinSpaces (h t (by simp)) hstep]
      rcases ih (fun u hu => h u (by simp [hu])) with h1 | h1
      · left; rw [h1]
      · right; rw [List.cons_append, h1]
    · obtain ⟨h1, h2⟩ := exhausted_of_not_step hstep
      subst h1; subst h2
      right; rfl

theorem classifyLoop_append_empty (isSeparator : Str → Bool) (hsep : isSeparator [] = false)
    (a : List Str) :
    ∀ (stringDepth : Bool) (listDepth : Int),
      classifyLoop isSeparator (a ++ [[]]) stringDepth listDepth =
        classifyLoop isSeparator a stringDepth listDepth := by
  induction a with
  | nil =>
    intro sd d
    have h1 : recognizeFunction [] ≠ .LIST_FUNCTION := by decide
    have h2 : ([] : Str) ≠ "]".toList := by decide
    have h3 : recognizeFunction [] ≠ .STRING_FUNCTION := by decide
    show classifyLoop isSeparator [[]] sd d = classifyLoop isSeparator [] sd d
    rw [classifyLoop, classifyLoop]
    simp only [if_neg h1, if_neg h2, if_neg h3, hsep, Bool.and_false, Bool.false_eq_true,
      if_false]
    rfl
  | cons f a ih =>
    intro sd d
    rw [List.cons_append, classifyLoop, classifyLoop, ih]

/-- The classification of a line does not change when a space is appended to it. -/
theorem classify_append_empty (isSeparator : Str → Bool) (hsep : isSeparator [] = false)
    {ts : List Str} (h : ∀ t ∈ ts, ' ' ∉ t) :
    classifyLoop isSeparator (getlineAll ' ' (joinSpaces (ts ++ [[]]))) false 0 =
      classifyLoop isSeparator (getlineAll ' ' (joinSpaces ts)) false 0 := by
  rw [getlineAll_joinSpaces_append h (by simp)]
  have : getlineAll ' ' (joinSpaces [[]]) = [] := rfl
  rw [this, List.append_nil]
  rcases getlineAll_joinSpaces_cases h with h1 | h1
  · rw [h1]
  · calc classifyLoop isSeparator ts false 0
        = classifyLoop isSeparator (getlineAll ' ' (joinSpaces ts) ++ [[]]) false 0 := by rw [h1]
      _ = classifyLoop isSeparator (getlineAll ' ' (joinSpaces ts)) false 0 :=
          classifyLoop_append_empty _ hsep _ _ _

theorem isPrefixOf_append_of_isPrefixOf {pat s : Str} (x : Str)
    (h : pat.isPrefixOf s = true) : pat.isPrefixOf (s ++ x) = true := by
  rw [List.isPrefixOf_iff_prefix] at h ⊢
  exact h.trans (List.prefix_append s x)

theorem find_some_bound {pat : Str} :
    ∀ {s : Str} {i : Nat}, find pat s = some i → i + pat.length ≤ s.length := by
  intro s
  induction s with
  | nil =>
    intro i h
    rw [find] at h
    split_ifs at h with hp
    cases h; subst hp; simp
  | cons c cs ih =>
    intro i h
    rw [find] at h
    split_ifs at h with hp
    · cases h
      have := (List.isPrefixOf_iff_prefix.1 hp).length_le
      omega
    · cases hf : find pat cs with
      | none => rw [hf] at h; cases h
      | some j =>
        rw [hf] at h
        cases h
        have := ih hf
        simp only [List.length_cons]
        omega

theorem find_append_of_some {pat : Str} (x : Str) :
    ∀ {s : Str} {i : Nat}, find pat s = some i → find pat (s ++ x) = some i := by
  intro s
  induction s with
  | nil =>
    intro i h
    rw [find] at h
    split_ifs at h with hp
    cases h; subst hp
    cases x with
    | nil => rfl
    | cons a x => rw [List.nil_append, find, if_pos (by simp [List.isPrefixOf])]
  | cons c cs ih =>
    intro i h
    rw [find] at h
    rw [List.cons_append, find]
    split_ifs at h with hp
    · cases h
      have := isPrefixOf_append_of_isPrefixOf x hp
      rw [List.cons_append] at this
      rw [if_pos this]
    · cases hf : find pat cs with
      | none => rw [hf] at h; cases h
      | some j =>
        rw [hf] at h
        have hb := find_some_bound hf
        have hp' : ¬ pat.isPrefixOf (c :: (cs ++ x)) = true := by
          intro hq
          apply hp
          rw [List.isPrefixOf_iff_prefix] at hq ⊢
          have hq' : pat <+: (c :: cs) ++ x := hq
          exact List.prefix_of_prefix_length_le hq' (List.prefix_append _ _)
            (by simp only [List.length_cons]; omega)
        rw [if_neg hp', ih hf]
        exact h

theorem find_isSome_of_infix {pat : Str} :
    ∀ {s : Str}, pat <:+: s → ∃ i, find pat s = some i := by
  intro s
  induction s with
  | nil =>
    intro h
    have : pat = [] := List.eq_nil_of_infix_nil h
    subst this
    exact ⟨0, rfl⟩
  | cons c cs ih =>
    intro h
    rw [find]
    by_cases hp : pat.isPrefixOf (c :: cs) = true
    · exact ⟨0, by rw [if_pos hp]⟩
    · rw [if_neg hp]
      rcases List.infix_cons_iff.1 h with h' | h'
      · exact absurd (List.isPrefixOf_iff_prefix.2 h') hp
      · obtain ⟨i, hi⟩ := ih h'
        exact ⟨i + 1, by rw [hi]; rfl⟩

theorem mem_infix_joinSpaces {ts : List Str} {t : Str} (h : t ∈ ts) : t <:+: joinSpaces ts := by
  induction ts with
  | nil => simp at h
  | cons u ts ih =>
    cases ts with
    | nil =>
      rw [List.mem_singleton.1 h, joinSpaces_single]
    | cons u' ts =>
      rw [joinSpaces_cons_cons]
      rcases List.mem_cons.1 h with h | h
      · subst h; exact (List.prefix_append _ _).isInfix
      · exact (ih h).trans ((List.suffix_cons _ _).trans (List.suffix_append _ _)).isInfix

theorem classifyLoop_true (isSeparator : Str → Bool) (fs : List Str) :
    ∀ (stringDepth : Bool) (listDepth : Int),
      classifyLoop isSeparator fs stringDepth listDepth = true → ∃ f ∈ fs, isSeparator f = true := by
  induction fs with
  | nil => intro sd d h; cases h
  | cons f fs ih =>
    intro sd d h
    by_cases hs : isSeparator f = true
    · exact ⟨f, by simp, hs⟩
    · rw [classifyLoop] at h
      simp only [hs, Bool.and_false, Bool.false_eq_true, if_false] at h
      obtain ⟨g, hg, hg'⟩ := ih _ _ h
      exact ⟨g, List.mem_cons_of_mem _ hg, hg'⟩

/-- A line classified by a separator token contains the separator. -/
theorem find_of_classified (isSeparator : Str → Bool) (pat : Str)
    (hsep : ∀ f, isSeparator f = true → f = pat) {ts : List Str} (hts : ∀ t ∈ ts, ' ' ∉ t)
    (h : classifyLoop isSeparator (getlineAll ' ' (joinSpaces ts)) false 0 = true) :
    ∃ i, find pat (joinSpaces ts) = some i := by
  obtain ⟨f, hf, hf'⟩ := classifyLoop_true _ _ _ _ h
  have := hsep f hf'
  subst this
  exact find_isSome_of_infix (mem_infix_joinSpaces (mem_getlineAll_joinSpaces hts f hf))

theorem recognizeFunction_definition {f : Str}
    (h : recognizeFunction f = .FUNCTION_DEFINITION) : f = ":=".toList := by
  unfold recognizeFunction at h
  split_ifs at h with h1 h2 h3
  exact h3

theorem pushesTokens_append_empty (us : List Str) :
    ∀ pushes, pushesTokens pushes (us ++ [[]]) = pushesTokens pushes us := by
  induction us with
  | nil => intro pushes; rfl
  | cons u us ih =>
    intro pushes
    rw [List.cons_append, pushesTokens, pushesTokens]
    split_ifs
    · exact ih _
    · rfl
    · cases tokenToType u with
      | ok ty => simp only [Outcome.bind_ok]; exact ih _
      | _ => rfl

theorem popsTokens_append_empty {γ : Type} (K : List CharmTypes → Bool × List CharmTypes → Outcome γ)
    (us : List Str) :
    ∀ pops, ((popsTokens pops (us ++ [[]])).bind fun r =>
        (pushesTokens [] r.2).bind fun s => K r.1 s) =
      (popsTokens pops us).bind fun r => (pushesTokens [] r.2).bind fun s => K r.1 s := by
  induction us with
  | nil => intro pops; rfl
  | cons u us ih =>
    intro pops
    rw [List.cons_append, popsTokens, popsTokens]
    split_ifs
    · exact ih _
    · simp only [Outcome.bind_ok, pushesTokens_append_empty]
    · rfl
    · cases tokenToType u with
      | ok ty => simp only [Outcome.bind_ok]; exact ih _
      | _ => rfl

theorem unitTokens_append_empty (us : List Str) : unitTokens (us ++ [[]]) = unitTokens us := by
  rw [unitTokens, unitTokens]
  exact popsTokens_append_empty
    (fun pops s => Outcome.ok (s.1, CharmTypeSignatureUnit.mk pops s.2)) us []

theorem not_mem_drop {c : Char} {s : Str} (h : c ∉ s) (n : Nat) : c ∉ s.drop n :=
  fun hc => h (List.mem_of_mem_drop hc)

theorem parseTypeSignature_trailingSpace (fuel : Nat) (s : Str) (i : Nat)
    (hfind : find "::".toList s = some i) :
    parseTypeSignature fuel (s ++ [' ']) = parseTypeSignature fuel s := by
  have hb := find_some_bound hfind
  have hlen : ("::".toList).length = 2 := rfl
  rw [hlen] at hb
  have hfind' := find_append_of_some [' '] hfind
  rw [parseTypeSignature, parseTypeSignature, hfind, hfind']
  have htake : substrTo (s ++ [' ']) (some i) = substrTo s (some i) := by
    simp only [substrTo]
    rw [List.take_append_of_le_length (by omega)]
  rw [htake]
  have hr1 : substrFrom s (indexPlus (some i) 2) = .ok (joinSpaces (splitSpaces (s.drop (i + 2)))) := by
    rw [joinSpaces_splitSpaces]
    simp only [indexPlus, substrFrom]
    rw [if_pos hb]
  have hr2 : substrFrom (s ++ [' ']) (indexPlus (some i) 2) =
      .ok (joinSpaces (splitSpaces (s.drop (i + 2)) ++ [[]])) := by
    rw [← append_space_eq]
    simp only [indexPlus, substrFrom]
    rw [if_pos (by simp; omega), List.drop_append_of_le_length hb]
  have hts : ∀ t ∈ splitSpaces (s.drop (i + 2)), ' ' ∉ t :=
    fun t ht hc => (mem_splitSpaces _ t ht _ hc).1 rfl
  have hts' : ∀ t ∈ splitSpaces (s.drop (i + 2)) ++ [[]], ' ' ∉ t := by
    intro t ht
    rcases List.mem_append.1 ht with h | h
    · exact hts t h
    · rw [List.mem_singleton.1 h]; simp
  have key : ∀ (fuel : Nat) (units : List CharmTypeSignatureUnit),
      parseUnit (s ++ [' ']) (some i) fuel units = parseUnit s (some i) fuel units := by
    intro fuel
    induction fuel with
    | zero => intro units; rfl
    | succ fuel ih =>
      intro units
      rw [parseUnit_tokens _ _ _ hts' hr2, parseUnit_tokens _ _ _ hts hr1,
        unitTokens_append_empty]
      cases unitTokens (splitSpaces (s.drop (i + 2))) with
      | ok r =>
        simp only [Outcome.bind_ok]
        split_ifs
        · exact ih _
        · rfl
      | _ => rfl
  rw [key]

theorem parseDefinition_trailingSpace (rec : LexCall) (p : Parser) (s : Str) (i : Nat)
    (hrec : ∀ p x wi, '\n' ∉ x → rec p (x ++ [' ']) wi = rec p x wi)
    (hnl : '\n' ∉ s) (hfind : find ":=".toList s = some i) :
    parseDefinition rec p (s ++ [' ']) = parseDefinition rec p s := by
  have hb := find_some_bound hfind
  have hlen : (":=".toList).length = 2 := rfl
  rw [hlen] at hb
  have hfind' := find_append_of_some [' '] hfind
  rw [parseDefinition, parseDefinition, hfind, hfind']
  have htake : substrTo (s ++ [' ']) (some i) = substrTo s (some i) := by
    simp only [substrTo]
    rw [List.take_append_of_le_length (by omega)]
  have hr1 : substrFrom s (indexPlus (some i) 2) = .ok (s.drop (i + 2)) := by
    simp only [indexPlus, substrFrom]
    rw [if_pos hb]
  have hr2 : substrFrom (s ++ [' ']) (indexPlus (some i) 2) = .ok (s.drop (i + 2) ++ [' ']) := by
    simp only [indexPlus, substrFrom]
    rw [if_pos (by simp; omega), List.drop_append_of_le_length hb]
  simp only [htake, hr1, hr2, Outcome.bind_ok, hrec p _ true (not_mem_drop hnl _)]

theorem lexItems_trailing_mode (OPT : Bool) (rec : LexCall) (wi : Bool) (m : ScanMode)
    (p : Parser) (out : List CharmFunction) :
    lexItems OPT rec wi (itemizeFrom m [[]]) p out = lexItems OPT rec wi (openItem m) p out := by
  cases m with
  | top => rfl
  | inStr acc =>
    rw [itemizeFrom, if_neg (by decide), itemizeFrom, openItem, lexItems, lexItems,
      escapeAll_append_single]
    cases escapeAll acc with
    | ok es => rw [Outcome.bind_ok, escapeString_nil]; rfl
    | _ => rfl
  | inLst d acc =>
    rw [itemizeFrom, if_neg (by decide), if_neg (by decide), itemizeFrom, openItem]

theorem lexItems_append_empty (OPT : Bool) (rec : LexCall) (wi : Bool) (ts : List Str)
    (p : Parser) (out : List CharmFunction) :
    lexItems OPT rec wi (itemize (ts ++ [[]])) p out = lexItems OPT rec wi (itemize ts) p out := by
  rw [itemize, itemize, itemizeFrom_append, lexItems_append,
    itemizeFrom_eq_closed .top ts, lexItems_append]
  cases lexItems OPT rec wi (closedItems .top ts) p out with
  | ok r => rw [Outcome.bind_ok, Outcome.bind_ok, lexItems_trailing_mode]
  | _ => rfl

/-- Lexing a line is not changed by a space appended to it. -/
theorem lexAskToInline_trailingSpace (OPT : Bool) :
    ∀ (fuel : Nat) (p : Parser) (s : Str) (wi : Bool), '\n' ∉ s →
      lexAskToInline OPT fuel p (s ++ [' ']) wi = lexAskToInline OPT fuel p s wi := by
  intro fuel
  induction fuel with
  | zero => intro p s wi _; rfl
  | succ fuel ih =>
    intro p s wi hnl
    by_cases hs : s = []
    · subst hs
      rfl
    · have hts := splitSpaces_tokens hnl
      have hts' : ∀ t ∈ splitSpaces s ++ [[]], ' ' ∉ t ∧ '\n' ∉ t := by
        intro t ht
        rcases List.mem_append.1 ht with h | h
        · exact hts t h
        · rw [List.mem_singleton.1 h]; simp
      have hsp : ∀ t ∈ splitSpaces s, ' ' ∉ t := fun t ht => (hts t ht).1
      have e1 : s ++ [' '] = joinSpaces (splitSpaces s ++ [[]]) := append_space_eq s
      have e2 : joinSpaces (splitSpaces s) = s := joinSpaces_splitSpaces s
      have hd : isLineFunctionDefinition (s ++ [' ']) = isLineFunctionDefinition s := by
        rw [isLineFunctionDefinition, isLineFunctionDefinition, e1,
          classify_append_empty _ (by decide) hsp, e2]
      have hsg : isLineTypeSignature (s ++ [' ']) = isLineTypeSignature s := by
        rw [isLineTypeSignature, isLineTypeSignature, e1,
          classify_append_empty _ (by decide) hsp, e2]
      have hne : s ++ [' '] ≠ [] := by simp
      have l1 := lexAskToInline_line OPT fuel p (splitSpaces s ++ [[]]) wi hts'
      have l2 := lexAskToInline_line OPT fuel p (splitSpaces s) wi hts
      rw [← e1] at l1
      rw [e2] at l2
      rw [l1, l2, if_neg hne, if_neg hs, hd, hsg]
      by_cases hdef : isLineFunctionDefinition s = true
      · rw [if_pos hdef, if_pos hdef]
        have hc : classifyLoop (fun f => decide (recognizeFunction f = .FUNCTION_DEFINITION))
            (getlineAll ' ' (joinSpaces (splitSpaces s))) false 0 = true := by
          rw [e2]; exact hdef
        obtain ⟨i, hi⟩ := find_of_classified _ ":=".toList
          (fun f hf => recognizeFunction_definition (by simpa using hf)) hsp hc
        rw [e2] at hi
        rw [parseDefinition_trailingSpace _ p s i ih hnl hi]
      · rw [if_neg hdef, if_neg hdef]
        by_cases hsig : isLineTypeSignature s = true
        · rw [if_pos hsig, if_pos hsig]
          have hc : classifyLoop (fun f => decide (f = "::".toList))
              (getlineAll ' ' (joinSpaces (splitSpaces s))) false 0 = true := by
            rw [e2]; exact hsig
          obtain ⟨i, hi⟩ := find_of_classified _ "::".toList
            (fun f hf => by simpa using hf) hsp hc
          rw [e2] at hi
          rw [parseTypeSignature_trailingSpace _ s i hi]
        · rw [if_neg hsig, if_neg hsig, lexItems_append_empty]

theorem itemizeFrom_inLst_close (rest : List Str) (ts : List Str) :
    ∀ (d : Int) (acc : List Str), balancedFrom d ts = true → 0 ≤ d →
      itemizeFrom (.inLst (d + 1) acc) (ts ++ "]".toList :: rest) =
        .lst (acc ++ ts) :: itemizeFrom .top rest := by
  induction ts with
  | nil =>
    intro d acc hb _
    simp only [balancedFrom, decide_eq_true_eq] at hb
    subst hb
    rw [List.nil_append, itemizeFrom, if_neg (by decide), if_pos rfl, if_pos (by omega),
      List.append_nil]
  | cons t ts ih =>
    intro d acc hb hd
    rw [balancedFrom] at hb
    rw [List.cons_append, itemizeFrom]
    by_cases h1 : t = "[".toList
    · rw [if_pos h1] at hb ⊢
      rw [ih (d + 1) _ hb (by omega)]
      simp
    · rw [if_neg h1] at hb ⊢
      by_cases h2 : t = "]".toList
      · rw [if_pos h2] at hb ⊢
        simp only [Bool.and_eq_true, decide_eq_true_eq] at hb
        rw [if_neg (by omega)]
        have e : d + 1 - 1 = (d - 1) + 1 := by omega
        rw [e, ih (d - 1) _ hb.2 hb.1]
        simp
      · rw [if_neg h2] at hb ⊢
        rw [ih d _ hb hd]
        simp

theorem classifyLoop_inList (isSeparator : Str → Bool) (hsep : isSeparator "]".toList = false)
    (ts : List Str) :
    ∀ (d : Int) (sd : Bool), balancedFrom d ts = true → 0 ≤ d →
      classifyLoop isSeparator (ts ++ ["]".toList]) sd (d + 1) = false := by
  induction ts with
  | nil =>
    intro d sd hb _
    have h1 : recognizeFunction "]".toList ≠ .LIST_FUNCTION := by decide
    rw [List.nil_append, classifyLoop]
    simp only [if_neg h1, if_pos, hsep, Bool.and_false, Bool.false_eq_true, if_false]
    rfl
  | cons t ts ih =>
    intro d sd hb hd
    rw [balancedFrom] at hb
    rw [List.cons_append, classifyLoop]
    by_cases h1 : t = "[".toList
    · have hr : recognizeFunction t = .LIST_FUNCTION := by subst h1; decide
      rw [if_pos h1] at hb
      simp only [if_pos hr]
      have hne : ¬ (d + 1 + 1 = 0) := by omega
      simp only [hne, decide_False, Bool.false_and, Bool.false_eq_true, if_false]
      exact ih (d + 1) _ hb (by omega)
    · have hr : recognizeFunction t ≠ .LIST_FUNCTION := by
        unfold recognizeFunction; rw [if_neg h1]; split_ifs <;> simp
      rw [if_neg h1] at hb
      by_cases h2 : t = "]".toList
      · rw [if_pos h2] at hb
        simp only [Bool.and_eq_true, decide_eq_true_eq] at hb
        simp only [if_neg hr, if_pos h2]
        have hne : ¬ (d + 1 - 1 = 0) := by omega
        simp only [hne, decide_False, Bool.false_and, Bool.false_eq_true, if_false]
        have e : d + 1 - 1 = (d - 1) + 1 := by omega
        rw [e]
        exact ih (d - 1) _ hb.2 hb.1
      · rw [if_neg h2] at hb
        simp only [if_neg hr, if_neg h2]
        have hne : ¬ (d + 1 = 0) := by omega
        simp only [hne, decide_False, Bool.false_and, Bool.false_eq_true, if_false]
        exact ih d _ hb hd

theorem classifyLoop_bracketed (isSeparator : Str → Bool)
    (hsep : isSeparator "]".toList = false) (ts : List Str) (hb : balancedFrom 0 ts = true) :
    classifyLoop isSeparator ("[".toList :: ts ++ ["]".toList]) false 0 = false := by
  have h1 : recognizeFunction "[".toList = .LIST_FUNCTION := by decide
  rw [List.cons_append, classifyLoop]
  simp only [if_pos h1]
  have hne : ¬ ((0 : Int) + 1 = 0) := by omega
  simp only [hne, decide_False, Bool.false_and, Bool.false_eq_true, if_false]
  exact classifyLoop_inList isSeparator hsep ts 0 _ hb (le_refl _)

theorem spaced_eq_joinSpaces {ts : List Str} (h : ts ≠ []) :
    spaced ts = joinSpaces ts ++ [' '] := by
  induction ts with
  | nil => exact absurd rfl h
  | cons t ts ih =>
    cases ts with
    | nil => simp [spaced, joinSpaces]
    | cons t' ts =>
      have : spaced (t :: t' :: ts) = t ++ ' ' :: spaced (t' :: ts) := by
        simp [spaced, List.flatMap_cons]
      rw [this, ih (by simp), joinSpaces_cons_cons]
      simp

/-- The nested call on the interior of a list literal: the text written to `outS` lexes
as the interior tokens joined by single spaces. -/
theorem lexAskToInline_spaced (OPT : Bool) (fuel : Nat) (p : Parser) (ts : List Str)
    (wi : Bool) (hnl : ∀ t ∈ ts, '\n' ∉ t) :
    lexAskToInline OPT fuel p (spaced ts) wi = lexAskToInline OPT fuel p (joinSpaces ts) wi := by
  by_cases h : ts = []
  · subst h; rfl
  · rw [spaced_eq_joinSpaces h]
    exact lexAskToInline_trailingSpace OPT fuel p _ wi (not_mem_joinSpaces (by decide) hnl)

/-- The line of a list literal: an opening bracket, balanced interior tokens, a closing
bracket. -/
theorem lex_bracketed (OPT : Bool) (fuel : Nat) (p : Parser) (ts : List Str) (wi : Bool)
    (htok : ∀ t ∈ ts, ' ' ∉ t ∧ '\n' ∉ t) (hbal : balancedFrom 0 ts = true) :
    lexAskToInline OPT (fuel + 1) p (joinSpaces ("[".toList :: ts ++ ["]".toList])) wi =
      (lexAskToInline OPT fuel p (joinSpaces ts) false).bind fun r =>
        .ok ([.listFunction r.1], r.2) := by
  have hall : ∀ t ∈ "[".toList :: ts ++ ["]".toList], ' ' ∉ t ∧ '\n' ∉ t := by
    intro t ht
    rcases List.mem_cons.1 ht with h | h
    · subst h; decide
    · rcases List.mem_append.1 h with h | h
      · exact htok t h
      · rw [List.mem_singleton.1 h]; decide
  have hne : joinSpaces ("[".toList :: ts ++ ["]".toList]) ≠ [] :=
    joinSpaces_ne_nil_of_mem (t := "[".toList) (by simp) (by decide)
  have hpieces : getlineAll ' ' (joinSpaces ("[".toList :: ts ++ ["]".toList])) =
      "[".toList :: ts ++ ["]".toList] := by
    have := @getlineAll_joinSpaces_full ("[".toList :: ts) "]".toList
      (by
        intro t ht
        rcases List.mem_cons.1 ht with h | h
        · subst h; decide
        · exact (htok t h).1)
      (by decide) (by decide)
    simpa using this
  have hd : isLineFunctionDefinition (joinSpaces ("[".toList :: ts ++ ["]".toList])) = false := by
    rw [isLineFunctionDefinition, hpieces]
    exact classifyLoop_bracketed _ (by decide) ts hbal
  have hs : isLineTypeSignature (joinSpaces ("[".toList :: ts ++ ["]".toList])) = false := by
    rw [isLineTypeSignature, hpieces]
    exact classifyLoop_bracketed _ (by decide) ts hbal
  rw [lexAskToInline_line OPT fuel p _ wi hall, if_neg hne, hd, hs]
  simp only [Bool.false_eq_true, if_false]
  rw [itemize, List.cons_append, itemizeFrom, if_neg (by decide), if_pos rfl,
    show (1 : Int) = 0 + 1 from rfl, itemizeFrom_inLst_close [] ts 0 [] hbal (le_refl _), lexItems,
    List.nil_append, lexAskToInline_spaced OPT fuel p ts false (fun t ht => (htok t ht).2)]
  cases lexAskToInline OPT fuel p (joinSpaces ts) false with
  | ok r => rfl
  | _ => rfl

/-- C4 (amended): for tokens `ts` whose `[` and `]` tokens are balanced, lexing the line
`[ ts ]` returns exactly one list node whose body is the node list obtained by lexing the
interior text (the tokens of `ts` joined by spaces) as fresh input with inlining
disabled, whenever that nested lexing returns; when it fails, lexing the line fails in
the same way.  The nested call has one unit of fuel less than the call on the line. -/
theorem lex_list_literal (OPTIMIZE_INLINE : Bool) (fuel : Nat) (p : Parser) (ts : List Str)
    (htok : ∀ t ∈ ts, ' ' ∉ t ∧ '\n' ∉ t) (hbal : balancedFrom 0 ts = true) :
    lex OPTIMIZE_INLINE (fuel + 1) p (joinSpaces ("[".toList :: ts ++ ["]".toList])) =
      (lexAskToInline OPTIMIZE_INLINE fuel p (joinSpaces ts) false).bind fun r =>
        .ok ([.listFunction r.1], r.2) :=
  lex_bracketed OPTIMIZE_INLINE fuel p ts true htok hbal

/-- Witness for C4: the line `[ 1 2 ]` gives one list node holding the integers 1 and 2. -/
theorem lex_list_literal_witness :
    lex true 2 Parser.new "[ 1 2 ]".toList =
      .ok ([.listFunction [.numberFunction (.integerValue "1".toList),
        .numberFunction (.integerValue "2".toList)]], Parser.new) :=
  (lex_list_literal true 1 Parser.new ["1".toList, "2".toList] (by decide) (by decide)).trans rfl

/-- Counterexample to C4 as stated: in the line `[ " ]` the brackets are balanced, yet `lex`
returns no list node: the nested lexing of the interior `"` fails with "expected an ending
quote", and so does the lexing of the line. -/
theorem lex_list_literal_counterexample :
    lex true 2 Parser.new "[ \" ]".toList = .die .expectedEndingQuote ∧
    balancedFrom 0 ["\"".toList] = true :=
  ⟨rfl, rfl⟩

/-- What a token that is a name or a number gives where nothing is inlined. -/
theorem plainEmit_off {OPT wi : Bool} (h : (OPT && wi) = false) (p : Parser) (t : Str) :
    plainEmit OPT wi p t =
      if isStringNumber t then (parseNumberFunction t).bind fun f => .ok [f]
      else .ok [.definedFunction t] := by
  unfold plainEmit nameEmit
  by_cases hn : isStringNumber t = true
  · simp [hn]
  · simp [hn, h]

theorem length_replace2_le (tok : Str) (c : Nat) (s : Str) (hs : s.length ≤ 2)
    (hc : c + 2 ≤ tok.length) : (replace2 tok c s).length ≤ tok.length := by
  simp only [replace2, List.length_append, List.length_take, List.length_drop]
  omega

/-- The counter of the loop of `escapeString` is never exhausted: the scan ends by
returning the token or by leaving it. -/
theorem escapeStringLoop_ne_outOfFuel :
    ∀ (n : Nat) (tok : Str) (c : Nat), 1 ≤ n → tok.length ≤ c + n →
      escapeStringLoop n tok c ≠ .outOfFuel := by
  intro n
  induction n with
  | zero => intro tok c h; omega
  | succ n ih =>
    intro tok c _ hlen
    rw [escapeStringLoop]
    by_cases h1 : c = tok.length
    · rw [if_pos h1]; intro h; cases h
    · rw [if_neg h1]
      by_cases h2 : c + 1 = tok.length
      · rw [if_pos h2]; intro h; cases h
      · rw [if_neg h2]
        by_cases h3 : tok.length < c
        · rw [if_pos h3]; intro h; cases h
        · rw [if_neg h3]
          have hn : 1 ≤ n := by omega
          have hc : c + 2 ≤ tok.length := by omega
          have hr : ∀ s : Str, s.length ≤ 2 → (replace2 tok c s).length ≤ c + 1 + n :=
            fun s hs => le_trans (length_replace2_le tok c s hs hc) (by omega)
          split_ifs
          · exact ih _ _ hn (hr _ (by simp))
          · exact ih _ _ hn (hr _ (by simp))
          · exact ih _ _ hn (hr _ (by simp))
          · exact ih _ _ hn (hr _ (by simp))
          · exact ih _ _ hn (hr _ (by simp))
          · exact ih _ _ hn (by omega)
          · exact ih _ _ hn (by omega)

theorem escapeString_ne_outOfFuel (tok : Str) : escapeString tok ≠ .outOfFuel :=
  escapeStringLoop_ne_outOfFuel _ tok 0 (by omega) (by omega)

theorem itemizeFrom_inLst_open (post : List Str) :
    ∀ (d : Int) (acc : List Str), 1 ≤ d → neverCloses d post = true →
      itemizeFrom (.inLst d acc) post = [.openLst] := by
  induction post with
  | nil => intro d acc _ _; rfl
  | cons t ts ih =>
    intro d acc hd h
    rw [neverCloses] at h
    rw [itemizeFrom]
    by_cases h1 : t = "[".toList
    · rw [if_pos h1] at h ⊢
      exact ih _ _ (by omega) h
    · rw [if_neg h1] at h ⊢
      by_cases h2 : t = "]".toList
      · rw [if_pos h2] at h ⊢
        simp only [Bool.and_eq_true, decide_eq_true_eq] at h
        rw [if_neg (by omega)]
        exact ih _ _ (by omega) h.2
      · rw [if_neg h2] at h ⊢
        exact ih _ _ hd h

/-- In an expression line, a free-standing `[` token that stands at top level (the tokens
before it lex on their own) and after which the bracket depth never returns to 0 makes
`lex` fail with the error "expected a close bracket". -/
theorem lex_openList (OPTIMIZE_INLINE : Bool) (fuel : Nat) (p : Parser)
    (pre post : List Str) (out1 : List CharmFunction) (p1 : Parser)
    (htok : ∀ t ∈ pre ++ post, ' ' ∉ t ∧ '\n' ∉ t)
    (hopen : neverCloses 1 post = true)
    (hdef : isLineFunctionDefinition (joinSpaces (pre ++ "[".toList :: post)) = false)
    (hsig : isLineTypeSignature (joinSpaces (pre ++ "[".toList :: post)) = false)
    (hpre : lex OPTIMIZE_INLINE (fuel + 1) p (joinSpaces pre) = .ok (out1, p1)) :
    lex OPTIMIZE_INLINE (fuel + 1) p (joinSpaces (pre ++ "[".toList :: post)) =
      .die .expectedCloseBracket := by
  have htok' : ∀ t ∈ pre ++ "[".toList :: post, ' ' ∉ t ∧ '\n' ∉ t := by
    intro t ht
    rcases List.mem_append.1 ht with h | h
    · exact htok t (by simp [h])
    · rcases List.mem_cons.1 h with h | h
      · subst h; decide
      · exact htok t (by simp [h])
  have hne : joinSpaces (pre ++ "[".toList :: post) ≠ [] :=
    joinSpaces_ne_nil_of_mem (t := "[".toList) (by simp) (by decide)
  unfold lex at hpre ⊢
  rw [lex_line_append OPTIMIZE_INLINE fuel p true pre _ out1 p1 htok' (by simp) hdef hsig hne
    hpre]
  rw [itemize, itemizeFrom, if_neg (by decide), if_pos rfl,
    itemizeFrom_inLst_open post 1 [] (le_refl _) hopen, lexItems]

theorem popsTokens_alternative_first (ps rest : List Str)
    (hps : ∀ t ∈ ps, t = [] ∨ ∃ ty, tokenToType t = .ok ty) :
    ∀ pops, popsTokens pops (ps ++ "|".toList :: rest) =
      .die .typeAlternativeBeforeCompletion := by
  induction ps with
  | nil => intro pops; rw [List.nil_append, popsTokens]; simp
  | cons t ps ih =>
    intro pops
    have ih' := ih (fun u hu => hps u (by simp [hu]))
    rw [List.cons_append, popsTokens]
    rcases hps t (by simp) with h | ⟨ty, h⟩
    · rw [if_pos h]; exact ih' _
    · obtain ⟨_, hne, ha, hb, _⟩ := tokenToType_ok h
      rw [if_neg hne, if_neg ha, if_neg hb, h, Outcome.bind_ok]
      exact ih' _

/-- A `|` token that comes before the first `->` token, after valid type tokens only, ends
the parse of a signature with the error "type alternative specified before completion of
type". -/
theorem parseTypeSignature_dies (fuel : Nat) (name : Str) (ps post : List Str)
    (hname : ¬ "::".toList <:+: name)
    (hps : ∀ t ∈ ps, t = [] ∨ ∃ ty, tokenToType t = .ok ty)
    (hpost : ∀ t ∈ post, ' ' ∉ t) :
    parseTypeSignature (fuel + 1)
        (name ++ ' ' :: joinSpaces ("::".toList :: ps ++ "|".toList :: post)) =
      .die .typeAlternativeBeforeCompletion := by
  obtain ⟨h1, h2⟩ := substrFrom_signature name (ps ++ "|".toList :: post) hname
  have hts : ∀ t ∈ [] :: (ps ++ "|".toList :: post), ' ' ∉ t := by
    intro t ht
    rcases List.mem_cons.1 ht with h | h
    · subst h; simp
    · rcases List.mem_append.1 h with h | h
      · rcases hps t h with h' | ⟨ty, h'⟩
        · subst h'; simp
        · exact (tokenToType_ok h').1
      · rcases List.mem_cons.1 h with h | h
        · subst h; decide
        · exact hpost t h
  have hunit : unitTokens ([] :: (ps ++ "|".toList :: post)) =
      .die .typeAlternativeBeforeCompletion := by
    rw [unitTokens, popsTokens, if_pos rfl, popsTokens_alternative_first ps post hps]
    rfl
  rw [parseTypeSignature]
  simp only [List.cons_append] at h1 h2 ⊢
  rw [parseUnit_tokens _ _ _ hts h1, hunit]
  rfl

/-- A signature line on which `parseTypeSignature` fails makes `lex` fail in the same way:
no signature is registered. -/
theorem lex_signature_dies (OPT : Bool) (fuel : Nat) (p : Parser) (line : Str) (e : ParseError)
    (hnl : '\n' ∉ line) (hdef : isLineFunctionDefinition line = false)
    (hsig : isLineTypeSignature line = true)
    (hparse : parseTypeSignature (fuel + 1) line = .die e) :
    lex OPT (fuel + 1) p line = .die e := by
  have hne : line ≠ [] := by
    intro h; subst h; cases hsig
  have l := lexAskToInline_line OPT fuel p (splitSpaces line) true (splitSpaces_tokens hnl)
  rw [joinSpaces_splitSpaces] at l
  unfold lex
  rw [l, if_neg hne, hdef, hsig, hparse]
  rfl

/-- C12: on a signature line `name :: p1 ... pm | ...`, where `name` contains no `::`, the
tokens `p1 ... pm` before the `|` token are valid type tokens (so that no `->` token comes
before the `|`), and any tokens follow the `|`, `parseTypeSignature` fails with the fatal
error "type alternative specified before completion of type"; it returns no signature, and
`lex` on that line fails with the same error, so that none is registered. -/
theorem parseTypeSignature_alternative_before_arrow (fuel : Nat) (name : Str)
    (ps post : List Str)
    (hname : ¬ "::".toList <:+: name)
    (hps : ∀ t ∈ ps, t = [] ∨ ∃ ty, tokenToType t = .ok ty)
    (hpost : ∀ t ∈ post, ' ' ∉ t) :
    parseTypeSignature (fuel + 1)
        (name ++ ' ' :: joinSpaces ("::".toList :: ps ++ "|".toList :: post)) =
      .die .typeAlternativeBeforeCompletion ∧
    ∀ (OPTIMIZE_INLINE : Bool) (p : Parser),
      '\n' ∉ name ++ ' ' :: joinSpaces ("::".toList :: ps ++ "|".toList :: post) →
      isLineFunctionDefinition
        (name ++ ' ' :: joinSpaces ("::".toList :: ps ++ "|".toList :: post)) = false →
      isLineTypeSignature
        (name ++ ' ' :: joinSpaces ("::".toList :: ps ++ "|".toList :: post)) = true →
      lex OPTIMIZE_INLINE (fuel + 1) p
          (name ++ ' ' :: joinSpaces ("::".toList :: ps ++ "|".toList :: post)) =
        .die .typeAlternativeBeforeCompletion :=
  ⟨parseTypeSignature_dies fuel name ps post hname hps hpost,
    fun OPTIMIZE_INLINE p hnl hdef hsig =>
      lex_signature_dies OPTIMIZE_INLINE fuel p _ _ hnl hdef hsig
        (parseTypeSignature_dies fuel name ps post hname hps hpost)⟩

/-- Witness for C12: the line `f :: int | int -> int`. -/
theorem parseTypeSignature_alternative_before_arrow_witness :
    parseTypeSignature 1 "f :: int | int -> int".toList =
      .die .typeAlternativeBeforeCompletion ∧
    lex true 1 Parser.new "f :: int | int -> int".toList =
      .die .typeAlternativeBeforeCompletion :=
  ⟨(parseTypeSignature_alternative_before_arrow 0 "f".toList ["int".toList]
      ["int".toList, "->".toList, "int".toList] (by decide)
      (fun t ht => by rw [List.mem_singleton.1 ht]; exact Or.inr ⟨.TYPESIG_INT, by decide⟩)
      (by decide)).1,
    (parseTypeSignature_alternative_before_arrow 0 "f".toList ["int".toList]
      ["int".toList, "->".toList, "int".toList] (by decide)
      (fun t ht => by rw [List.mem_singleton.1 ht]; exact Or.inr ⟨.TYPESIG_INT, by decide⟩)
      (by decide)).2 true Parser.new (by decide) (by decide) (by decide)⟩

theorem getElem?_append_length (done rem : Str) :
    (done ++ rem)[done.length]? = rem[0]? := by
  rw [List.getElem?_append_right (le_refl _), Nat.sub_self]

theorem getElem?_append_length_succ (done rem : Str) :
    (done ++ rem)[done.length + 1]? = rem[1]? := by
  rw [List.getElem?_append_right (by omega)]
  congr 1
  omega

theorem replace2_append (done : Str) (c d : Char) (cs s : Str) :
    replace2 (done ++ c :: d :: cs) done.length s = (done ++ s) ++ cs := by
  rw [replace2, List.take_left]
  congr 1
  have : done.length + 2 = (done ++ [c, d]).length := by simp
  rw [this, show done ++ c :: d :: cs = (done ++ [c, d]) ++ cs by simp, List.drop_left]

/-- The loop of `escapeString` applies the escape table to the part of the token that it
has not scanned yet, as long as the scan does not meet the pair `\0`. -/
theorem escapeStringLoop_table :
    ∀ (n : Nat) (rem done : Str), meetsNulPair rem = false → rem.length < n →
      escapeStringLoop n (done ++ rem) done.length = .ok (done ++ escapeTable rem) := by
  intro n
  induction n with
  | zero => intro rem done _ h; omega
  | succ n ih =>
    intro rem done hnul hlen
    match rem, hnul, hlen with
    | [], _, _ =>
      rw [escapeStringLoop, if_pos (by simp)]
      simp [escapeTable]
    | [c], _, _ =>
      rw [escapeStringLoop, if_neg (by simp), if_pos (by simp)]
      simp [escapeTable]
    | c :: d :: cs, hnul, hlen =>
      have hl : (done ++ c :: d :: cs).length = done.length + (cs.length + 2) := by simp
      have e0 : (done ++ c :: d :: cs)[done.length]? = some c := by
        rw [getElem?_append_length]; rfl
      have e1 : (done ++ c :: d :: cs)[done.length + 1]? = some d := by
        rw [getElem?_append_length_succ]; simp
      have hcs : cs.length < n := by simp at hlen; omega
      have hdcs : (d :: cs).length < n := by simp at hlen ⊢; omega
      have step : ∀ x : Char, meetsNulPair cs = false →
          escapeStringLoop n (replace2 (done ++ c :: d :: cs) done.length [x]) (done.length + 1) =
            .ok (done ++ x :: escapeTable cs) := by
        intro x hx
        rw [replace2_append]
        have := ih cs (done ++ [x]) hx hcs
        simp only [List.length_append, List.length_singleton, List.append_assoc,
          List.singleton_append] at this ⊢
        exact this
      have skip : meetsNulPair (d :: cs) = false →
          escapeStringLoop n (done ++ c :: d :: cs) (done.length + 1) =
            .ok (done ++ c :: escapeTable (d :: cs)) := by
        intro hx
        have := ih (d :: cs) (done ++ [c]) hx hdcs
        simp only [List.length_append, List.length_singleton, List.append_assoc,
          List.singleton_append] at this
        exact this
      rw [escapeStringLoop, if_neg (by rw [hl]; omega), if_neg (by rw [hl]; omega),
        if_neg (by rw [hl]; omega), e0, e1]
      rw [meetsNulPair] at hnul
      rw [escapeTable]
      by_cases hc : c = '\\'
      · rw [if_pos hc] at hnul
        rw [if_pos (by rw [hc]), if_pos hc]
        by_cases h1 : d = 'n'
        · rw [if_pos h1] at hnul
          rw [if_pos (by rw [h1]), if_pos h1]; exact step _ hnul
        · rw [if_neg h1] at hnul
          rw [if_neg (by simpa using h1), if_neg h1]
          by_cases h2 : d = '"'
          · rw [if_pos h2] at hnul
            rw [if_pos (by rw [h2]), if_pos h2]; exact step _ hnul
          · rw [if_neg h2] at hnul
            rw [if_neg (by simpa using h2), if_neg h2]
            by_cases h3 : d = 't'
            · rw [if_pos h3] at hnul
              rw [if_pos (by rw [h3]), if_pos h3]; exact step _ hnul
            · rw [if_neg h3] at hnul
              rw [if_neg (by simpa using h3), if_neg h3]
              by_cases h4 : d = '0'
              · rw [if_pos h4] at hnul; cases hnul
              · rw [if_neg h4] at hnul
                rw [if_neg (by simpa using h4), if_neg h4]
                by_cases h5 : d = '\\'
                · rw [if_pos h5] at hnul
                  rw [if_pos (by rw [h5]), if_pos h5]; exact step _ hnul
                · rw [if_neg h5] at hnul
                  rw [if_neg (by simpa using h5), if_neg h5]; exact skip hnul
      · rw [if_neg hc] at hnul
        rw [if_neg (by simpa using hc), if_neg hc]
        exact skip hnul

/-- On a token whose scan does not meet the pair `\0`, `escapeString` returns the token
with the escape table applied. -/
theorem escapeString_table (t : Str) (h : meetsNulPair t = false) :
    escapeString t = .ok (escapeTable t) := by
  have := escapeStringLoop_table (t.length + 1) t [] h (Nat.lt_succ_self _)
  simpa [escapeString] using this

theorem escapeTable_noBackslash : ∀ (t : Str), '\\' ∉ t →
    meetsNulPair t = false ∧ escapeTable t = t
  | [], _ => ⟨rfl, rfl⟩
  | [_], _ => ⟨rfl, rfl⟩
  | c :: d :: cs, h => by
    have hc : c ≠ '\\' := fun e => h (by simp [e])
    have ih := escapeTable_noBackslash (d :: cs) (fun e => h (List.mem_cons_of_mem _ e))
    rw [meetsNulPair, escapeTable, if_neg hc, if_neg hc, ih.2]
    exact ⟨ih.1, rfl⟩

/-- A token without a backslash is returned unchanged by `escapeString`. -/
theorem escapeString_noBackslash {t : Str} (h : '\\' ∉ t) : escapeString t = .ok t := by
  obtain ⟨h1, h2⟩ := escapeTable_noBackslash t h
  rw [escapeString_table t h1, h2]

theorem joinSpaces_append_single {ts : List Str} (h : ts ≠ []) (u : Str) :
    joinSpaces (ts ++ [u]) = joinSpaces ts ++ ' ' :: u := by
  induction ts with
  | nil => exact absurd rfl h
  | cons t ts ih =>
    cases ts with
    | nil => simp [joinSpaces]
    | cons t' ts =>
      rw [List.cons_append, joinSpaces_cons_of_ne_nil _ (by simp), ih (by simp),
        joinSpaces_cons_cons]
      simp

/-- The line made of `"`, one space, the text `v`, one space and `"` is the text of the
tokens `"`, the pieces of `v` between its spaces, and `"`. -/
theorem quoted_eq_joinSpaces (v : Str) :
    '"' :: ' ' :: v ++ [' ', '"'] =
      joinSpaces ("\"".toList :: splitSpaces v ++ ["\"".toList]) := by
  show _ = joinSpaces ("\"".toList :: (splitSpaces v ++ ["\"".toList]))
  rw [joinSpaces_cons_of_ne_nil _ (by simp), joinSpaces_append_single (splitSpaces_ne_nil v),
    joinSpaces_splitSpaces]
  rfl

/-- String round trip: a text without backslash, `"` and LF between a free-standing
opening quote and a free-standing closing quote lexes to the string node of that text. -/
theorem lex_quoted_text (OPT : Bool) (fuel : Nat) (p : Parser) (v : Str)
    (hb : '\\' ∉ v) (hq : '"' ∉ v) (hnl : '\n' ∉ v) :
    lex OPT (fuel + 1) p ('"' :: ' ' :: v ++ [' ', '"']) = .ok ([.stringFunction v], p) := by
  have htok : ∀ t ∈ splitSpaces v, (' ' ∉ t ∧ '\n' ∉ t) ∧ t ≠ "\"".toList := by
    intro t ht
    refine ⟨splitSpaces_tokens hnl t ht, ?_⟩
    intro e
    exact hq (mem_splitSpaces v t ht '"' (by rw [e]; decide)).2
  have hesc : List.Forall₂ (fun t e => escapeString t = .ok e) (splitSpaces v) (splitSpaces v) :=
    List.forall₂_same.2 fun t ht =>
      escapeString_noBackslash fun hc => hb (mem_splitSpaces v t ht _ hc).2
  rw [quoted_eq_joinSpaces, lex_stringTokens OPT fuel p _ _ htok hesc, joinSpaces_splitSpaces]

/-- C14: string round trip.  For every text `v` containing no backslash, no `"` and no LF
(so in particular for every `v` with none of backslash, `"`, LF, TAB, NUL), lexing the line
made of `"`, one space, `v`, one space, `"` returns exactly the one string node of value
`v`, and leaves the parser state unchanged; `v` may be empty, may have leading, trailing or
repeated spaces, and may contain `[`, `]`, `:=` or `::`. -/
theorem lex_string_round_trip (OPTIMIZE_INLINE : Bool) (fuel : Nat) (p : Parser) (v : Str)
    (hb : '\\' ∉ v) (hq : '"' ∉ v) (hnl : '\n' ∉ v) :
    lex OPTIMIZE_INLINE (fuel + 1) p ('"' :: ' ' :: v ++ [' ', '"']) =
      .ok ([.stringFunction v], p) :=
  lex_quoted_text OPTIMIZE_INLINE fuel p v hb hq hnl

/-- Witness for C14: the text ` [ :=  :: ] `, with leading, trailing and repeated spaces and
the tokens `[`, `:=`, `::`, `]`; and the empty text. -/
theorem lex_string_round_trip_witness :
    lex true 1 Parser.new "\"  [ :=  :: ]  \"".toList =
      .ok ([.stringFunction " [ :=  :: ] ".toList], Parser.new) ∧
    lex true 1 Parser.new "\"  \"".toList = .ok ([.stringFunction []], Parser.new) :=
  ⟨lex_string_round_trip true 0 Parser.new " [ :=  :: ] ".toList (by decide) (by decide)
      (by decide),
    lex_string_round_trip true 0 Parser.new [] (by decide) (by decide) (by decide)⟩

/-- C15: on the token `x\0y` (backslash, zero between `x` and `y`) `escapeString` returns
`xy`, two characters, where the escape table gives `x`, NUL, `y`: the replacement text of
the case `'0'` is the C string literal `"\0"`, which is empty, so the pair is deleted (the
line `" x\0y "` lexes to the string `xy`).  On every token whose scan does not meet the pair
`\0`, `escapeString` returns the token with the escape table applied: each of the pairs
`\n`, `\t`, `\"`, `\\` met by the scan is replaced by LF, TAB, `"`, one backslash; so the
tokens `a\nb`, `\t`, `\"`, `\\` decode to a-LF-b, TAB, `"` and one backslash. -/
theorem escapeString_escape_table :
    (escapeString "x\\0y".toList = .ok "xy".toList ∧
      escapeTable "x\\0y".toList = ['x', Char.ofNat 0, 'y'] ∧
      lex true 1 Parser.new "\" x\\0y \"".toList =
        .ok ([.stringFunction "xy".toList], Parser.new)) ∧
    (∀ t : Str, meetsNulPair t = false → escapeString t = .ok (escapeTable t)) ∧
    (escapeString "a\\nb".toList = .ok ['a', '\n', 'b'] ∧
      escapeString "\\t".toList = .ok ['\t'] ∧
      escapeString "\\\"".toList = .ok ['"'] ∧
      escapeString "\\\\".toList = .ok ['\\']) :=
  ⟨⟨by decide, by decide, rfl⟩, fun t h => escapeString_table t h,
    ⟨by decide, by decide, by decide, by decide⟩⟩

theorem scanState_append (a b : List Str) :
    ∀ s, scanState (a ++ b) s = scanState b (scanState a s) := by
  induction a with
  | nil => intro s; rfl
  | cons t a ih => intro s; rw [List.cons_append, scanState, scanState, ih]

theorem recognizeFunction_list_iff (f : Str) :
    recognizeFunction f = .LIST_FUNCTION ↔ f = "[".toList := by
  unfold recognizeFunction
  constructor
  · intro h; split_ifs at h with h1; exact h1
  · intro h; rw [if_pos h]

theorem recognizeFunction_string_iff (f : Str) :
    recognizeFunction f = .STRING_FUNCTION ↔ f = "\"".toList := by
  unfold recognizeFunction
  constructor
  · intro h; split_ifs at h with h1 h2; exact h2
  · intro h; subst h; decide

/-- One round of the loop of the line classifier, in terms of `scanState`. -/
theorem classifyLoop_cons (isSeparator : Str → Bool) (f : Str) (fs : List Str)
    (stringDepth : Bool) (listDepth : Int) :
    classifyLoop isSeparator (f :: fs) stringDepth listDepth =
      if (scanState [f] (listDepth, stringDepth)).1 = 0 &&
          !(scanState [f] (listDepth, stringDepth)).2 && isSeparator f then true
      else classifyLoop isSeparator fs (scanState [f] (listDepth, stringDepth)).2
        (scanState [f] (listDepth, stringDepth)).1 := by
  rw [classifyLoop, scanState, scanState]
  by_cases h1 : f = "[".toList
  · have h1' := (recognizeFunction_list_iff f).2 h1
    simp only [if_pos h1', if_pos h1]
  · have h1' : recognizeFunction f ≠ .LIST_FUNCTION := fun h => h1 ((recognizeFunction_list_iff f).1 h)
    by_cases h2 : f = "]".toList
    · simp only [if_neg h1', if_neg h1, if_pos h2]
    · by_cases h3 : f = "\"".toList
      · have h3' := (recognizeFunction_string_iff f).2 h3
        simp only [if_neg h1', if_neg h1, if_neg h2, if_pos h3]
        simp only [if_pos h3']
      · have h3' : recognizeFunction f ≠ .STRING_FUNCTION :=
          fun h => h3 ((recognizeFunction_string_iff f).1 h)
        simp only [if_neg h1', if_neg h1, if_neg h2, if_neg h3', if_neg h3]

/-- The loop of the line classifier answers true exactly when some token accepted by the
separator test is met while the list depth is zero and the string flag is off. -/
theorem classifyLoop_iff (isSeparator : Str → Bool) (ts : List Str) :
    ∀ (stringDepth : Bool) (listDepth : Int),
      classifyLoop isSeparator ts stringDepth listDepth = true ↔
        ∃ pre tok post, ts = pre ++ tok :: post ∧ isSeparator tok = true ∧
          scanState (pre ++ [tok]) (listDepth, stringDepth) = (0, false) := by
  induction ts with
  | nil =>
    intro sd d
    constructor
    · intro h; cases h
    · rintro ⟨pre, tok, post, h, _⟩
      simp at h
  | cons f fs ih =>
    intro sd d
    rw [classifyLoop_cons]
    constructor
    · intro h
      split_ifs at h with hc
      · simp only [Bool.and_eq_true, decide_eq_true_eq, Bool.not_eq_true'] at hc
        exact ⟨[], f, fs, rfl, hc.2, Prod.ext hc.1.1 hc.1.2⟩
      · obtain ⟨pre, tok, post, h1, h2, h3⟩ := (ih _ _).1 h
        refine ⟨f :: pre, tok, post, by rw [h1]; rfl, h2, ?_⟩
        rw [List.cons_append, show f :: (pre ++ [tok]) = [f] ++ (pre ++ [tok]) from rfl,
          scanState_append]
        exact h3
    · rintro ⟨pre, tok, post, h1, h2, h3⟩
      cases pre with
      | nil =>
        simp only [List.nil_append, List.cons.injEq] at h1
        obtain ⟨hf, _⟩ := h1
        subst hf
        rw [List.nil_append] at h3
        rw [if_pos (by simp [h3, h2])]
      | cons g pre =>
        simp only [List.cons_append, List.cons.injEq] at h1
        obtain ⟨hf, hfs⟩ := h1
        subst hf
        split_ifs
        · rfl
        · apply (ih _ _).2
          refine ⟨pre, tok, post, hfs, h2, ?_⟩
          rw [List.cons_append, show f :: (pre ++ [tok]) = [f] ++ (pre ++ [tok]) from rfl,
            scanState_append] at h3
          exact h3

/-- The line classifier reads the tokens of the line: the pieces read by `std::getline`
are the tokens between the spaces, up to an empty token after a final space. -/
theorem classifyLoop_splitSpaces (isSeparator : Str → Bool) (hsep : isSeparator [] = false)
    (s : Str) :
    classifyLoop isSeparator (getlineAll ' ' s) false 0 =
      classifyLoop isSeparator (splitSpaces s) false 0 := by
  have hts : ∀ t ∈ splitSpaces s, ' ' ∉ t := fun t ht hc => (mem_splitSpaces s t ht _ hc).1 rfl
  have h := getlineAll_joinSpaces_cases hts
  rw [joinSpaces_splitSpaces] at h
  rcases h with h | h
  · rw [h]
  · rw [← h, classifyLoop_append_empty _ hsep]

theorem isLineFunctionDefinition_scan (line : Str) :
    isLineFunctionDefinition line = true ↔
      ∃ pre post, splitSpaces line = pre ++ ":=".toList :: post ∧
        scanState pre (0, false) = (0, false) := by
  rw [isLineFunctionDefinition, classifyLoop_splitSpaces _ (by decide), classifyLoop_iff]
  constructor
  · rintro ⟨pre, tok, post, h1, h2, h3⟩
    have : tok = ":=".toList := recognizeFunction_definition (by simpa using h2)
    subst this
    refine ⟨pre, post, h1, ?_⟩
    rw [scanState_append] at h3
    exact h3
  · rintro ⟨pre, post, h1, h3⟩
    refine ⟨pre, ":=".toList, post, h1, by decide, ?_⟩
    rw [scanState_append, h3]
    rfl

/-- C16: for every line, `isLineFunctionDefinition` answers true if and only if the
space-separated tokens of the line hold a token `:=` such that the scan of the tokens
before it, with the list depth starting at 0 (+1 on each `[` token, −1 on each `]` token)
and the string flag starting off (toggled by each `"` token), leaves the list depth at 0
and the string flag off.  So `f := [ 1 ]` is a definition line, while `[ f := 1 ]` and
`" a := b "` are not. -/
theorem isLineFunctionDefinition_iff :
    (∀ line : Str, isLineFunctionDefinition line = true ↔
      ∃ pre post, splitSpaces line = pre ++ ":=".toList :: post ∧
        scanState pre (0, false) = (0, false)) ∧
    isLineFunctionDefinition "f := [ 1 ]".toList = true ∧
    isLineFunctionDefinition "[ f := 1 ]".toList = false ∧
    isLineFunctionDefinition "\" a := b \"".toList = false :=
  ⟨fun line => isLineFunctionDefinition_scan line, by decide, by decide, by decide⟩

theorem splitSpaces_spaceFree {t : Str} (h : ' ' ∉ t) : splitSpaces t = [t] := by
  induction t with
  | nil => rfl
  | cons c cs ih =>
    have hc : c ≠ ' ' := fun e => h (by simp [e])
    rw [splitSpaces, if_neg hc, ih (fun e => h (List.mem_cons_of_mem _ e))]

theorem splitSpaces_append_space {t : Str} (h : ' ' ∉ t) (s : Str) :
    splitSpaces (t ++ ' ' :: s) = t :: splitSpaces s := by
  induction t with
  | nil => rw [List.nil_append, splitSpaces, if_pos rfl]
  | cons c cs ih =>
    have hc : c ≠ ' ' := fun e => h (by simp [e])
    rw [List.cons_append, splitSpaces, if_neg hc, ih (fun e => h (List.mem_cons_of_mem _ e))]

/-- The tokens of the text of a token sequence are the tokens themselves. -/
theorem splitSpaces_joinSpaces {ts : List Str} (hne : ts ≠ []) (h : ∀ t ∈ ts, ' ' ∉ t) :
    splitSpaces (joinSpaces ts) = ts := by
  induction ts with
  | nil => exact absurd rfl hne
  | cons t ts ih =>
    cases ts with
    | nil => rw [joinSpaces_single]; exact splitSpaces_spaceFree (h t (by simp))
    | cons t' ts =>
      rw [joinSpaces_cons_cons, splitSpaces_append_space (h t (by simp)),
        ih (by simp) (fun u hu => h u (List.mem_cons_of_mem _ hu))]

/-- The text of a token sequence around one of its tokens: the tokens before it, each
followed by a space, the token, and the text of an empty token followed by the tokens
after it. -/
theorem joinSpaces_split (pre : List Str) (u : Str) (post : List Str) :
    joinSpaces (pre ++ u :: post) = spaced pre ++ (u ++ joinSpaces ([] :: post)) := by
  induction pre with
  | nil =>
    cases post with
    | nil => simp [spaced, joinSpaces]
    | cons t post => simp [spaced, joinSpaces]
  | cons t pre ih =>
    rw [List.cons_append, joinSpaces_cons_of_ne_nil _ (by simp), ih]
    simp [spaced, List.flatMap_cons]

theorem find_assign (left right : Str) (h : ¬ ":=".toList <:+: left) :
    find ":=".toList (left ++ ':' :: '=' :: right) = some left.length := by
  induction left with
  | nil => simp [find, List.isPrefixOf]
  | cons c cs ih =>
    have hcs : ¬ ":=".toList <:+: cs := fun hh => h (hh.trans (List.suffix_cons c cs).isInfix)
    have hpre : List.isPrefixOf ":=".toList ((c :: cs) ++ ':' :: '=' :: right) = false := by
      cases cs with
      | nil => simp [List.isPrefixOf]
      | cons c' cs' =>
        by_contra hc
        apply h
        simp [List.isPrefixOf] at hc
        obtain ⟨h1, h2⟩ := hc
        subst h1; subst h2
        exact (List.prefix_append [':', '='] cs').isInfix
    rw [List.cons_append] at hpre ⊢
    rw [find, if_neg (by rw [hpre]; simp), ih hcs]
    simp

/-- The split made by `parseDefinition`: at the first occurrence of `:=` in the line.  The
name is the text before it, trimmed; the body is the result of the nested call on the
text after it. -/
theorem parseDefinition_split (rec : LexCall) (p : Parser) (left right : Str)
    (h : ¬ ":=".toList <:+: left) :
    parseDefinition rec p (left ++ ':' :: '=' :: right) =
      (rec p right true).bind fun r =>
        .ok (.functionDefinition (ltrim (rtrim left)) r.1
            (analyzeDefinition r.2.fA (ltrim (rtrim left)) r.1).1,
          definedState r.2 (ltrim (rtrim left)) r.1) := by
  rw [parseDefinition, find_assign left right h]
  have h1 : substrTo (left ++ ':' :: '=' :: right) (some left.length) = left := by
    simp [substrTo]
  have h2 : substrFrom (left ++ ':' :: '=' :: right) (indexPlus (some left.length) 2) =
      .ok right := by
    have e : left ++ ':' :: '=' :: right = (left ++ [':', '=']) ++ right := by simp
    have l : left.length + 2 = (left ++ [':', '=']).length := by simp
    simp only [indexPlus, substrFrom]
    rw [if_pos (by simp), l, e, List.drop_left]
  simp only [h1, h2, Outcome.bind_ok]
  cases rec p right true with
  | ok r => rfl
  | _ => rfl

/-- A text that occurs in `a`, a separator `x`, `b` and does not hold the separator occurs
in `a` or in `b`. -/
theorem infix_of_infix_append_sep {pat a b : Str} {x : Char} (hx : x ∉ pat)
    (h : pat <:+: a ++ x :: b) : pat <:+: a ∨ pat <:+: b := by
  obtain ⟨s, t, hst⟩ := h
  rcases List.append_eq_append_iff.1 hst with ⟨a', h1, _⟩ | ⟨c', h1, h2⟩
  · left; exact ⟨s, a', h1.symm⟩
  · rcases List.cons_eq_append_iff.1 h2 with ⟨hc, _⟩ | ⟨c'', hc, hb⟩
    · subst hc
      left; exact ⟨s, [], by simpa using h1⟩
    · subst hc
      rcases List.append_eq_append_iff.1 h1 with ⟨a', _, h4⟩ | ⟨c3, _, h4⟩
      · exact absurd (by rw [h4]; simp) hx
      · rcases List.cons_eq_append_iff.1 h4 with ⟨_, hp⟩ | ⟨c4, _, hc4⟩
        · exact absurd (by rw [hp]; simp) hx
        · right; exact ⟨c4, t, by rw [hb, hc4]⟩

theorem infix_spaced {pat : Str} (hx : ' ' ∉ pat) (hne : pat ≠ []) :
    ∀ {ts : List Str}, pat <:+: spaced ts → ∃ t ∈ ts, pat <:+: t := by
  intro ts
  induction ts with
  | nil =>
    intro h
    exact absurd (List.eq_nil_of_infix_nil h) hne
  | cons t ts ih =>
    intro h
    have e : spaced (t :: ts) = t ++ ' ' :: spaced ts := by
      simp [spaced, List.flatMap_cons]
    rw [e] at h
    rcases infix_of_infix_append_sep hx h with h | h
    · exact ⟨t, by simp, h⟩
    · obtain ⟨u, hu, hu'⟩ := ih h
      exact ⟨u, List.mem_cons_of_mem _ hu, hu'⟩

theorem rtrim_spaced (pre : List Str) : rtrim (spaced pre) = rtrim (joinSpaces pre) := by
  by_cases h : pre = []
  · subst h; rfl
  · rw [spaced_eq_joinSpaces h, rtrim_append_space]

/-- A definition line whose separator token is the first place where `:=` occurs: the line
is a definition line by that token, and `parseDefinition` splits the line there. -/
theorem parseDefinition_at_separator (rec : LexCall) (p : Parser) (pre post : List Str)
    (htok : ∀ t ∈ pre ++ post, ' ' ∉ t)
    (hsep : scanState pre (0, false) = (0, false))
    (hfirst : ∀ t ∈ pre, ¬ ":=".toList <:+: t) :
    isLineFunctionDefinition (joinSpaces (pre ++ ":=".toList :: post)) = true ∧
    parseDefinition rec p (joinSpaces (pre ++ ":=".toList :: post)) =
      (rec p (joinSpaces ([] :: post)) true).bind fun r =>
        .ok (.functionDefinition (ltrim (rtrim (joinSpaces pre))) r.1
            (analyzeDefinition r.2.fA (ltrim (rtrim (joinSpaces pre))) r.1).1,
          definedState r.2 (ltrim (rtrim (joinSpaces pre))) r.1) := by
  constructor
  · rw [isLineFunctionDefinition_scan]
    refine ⟨pre, post, ?_, hsep⟩
    apply splitSpaces_joinSpaces (by simp)
    intro t ht
    rcases List.mem_append.1 ht with h | h
    · exact htok t (by simp [h])
    · rcases List.mem_cons.1 h with h | h
      · subst h; decide
      · exact htok t (by simp [h])
  · have hleft : ¬ ":=".toList <:+: spaced pre := by
      intro h
      obtain ⟨t, ht, ht'⟩ := infix_spaced (by decide) (by decide) h
      exact hfirst t ht ht'
    rw [joinSpaces_split, ← rtrim_spaced]
    exact parseDefinition_split rec p (spaced pre) (joinSpaces ([] :: post)) hleft

/-- C17: the definition line `=:= := eq` is made a definition line by its second token, the
free-standing `:=`, with the text `=:=` on its left and ` eq` on its right; yet
`parseDefinition` splits it at the first place where the characters `:=` occur, inside
the token `=:=`: the node is named `=`, and its body is what lexing ` := eq` gives, a
nested definition with an empty name.  Likewise `[ x := 1 ] f := 2`, a definition line by
its second `:=` token, is split at the first one, inside the list, and gives a node named
`[ x`.  On every line in which the separator token is the first place where `:=` occurs
the claim holds: the line is a definition line by that token, and the node has as name
the text on its left, trimmed, and as body the node list obtained by lexing the text on
its right (witness: `sq := dup *` gives the name `sq` and the body `dup`, `*`). -/
theorem parseDefinition_splits_at_separator :
    (isLineFunctionDefinition "=:= := eq".toList = true ∧
      splitSpaces "=:= := eq".toList = ["=:=".toList] ++ ":=".toList :: ["eq".toList] ∧
      scanState ["=:=".toList] (0, false) = (0, false) ∧
      parseDefinition (lexAskToInline true 2) Parser.new "=:= := eq".toList =
        .ok (.functionDefinition "=".toList
            [.functionDefinition [] [.definedFunction "eq".toList] ⟨true, false⟩]
            ⟨true, false⟩,
          ⟨[("=".toList, ⟨true, false⟩), ([], ⟨true, false⟩)],
            ⟨[("=".toList,
                [.functionDefinition [] [.definedFunction "eq".toList] ⟨true, false⟩]),
              ([], [.definedFunction "eq".toList])], []⟩⟩)) ∧
    (isLineFunctionDefinition "[ x := 1 ] f := 2".toList = true ∧
      scanState ["[".toList, "x".toList, ":=".toList, "1".toList, "]".toList, "f".toList]
        (0, false) = (0, false) ∧
      scanState ["[".toList, "x".toList] (0, false) = (1, false) ∧
      ∃ body info p', parseDefinition (lexAskToInline true 2) Parser.new
        "[ x := 1 ] f := 2".toList = .ok (.functionDefinition "[ x".toList body info, p')) ∧
    (∀ (OPTIMIZE_INLINE : Bool) (fuel : Nat) (p : Parser) (pre post : List Str),
      (∀ t ∈ pre ++ post, ' ' ∉ t) →
      scanState pre (0, false) = (0, false) →
      (∀ t ∈ pre, ¬ ":=".toList <:+: t) →
      isLineFunctionDefinition (joinSpaces (pre ++ ":=".toList :: post)) = true ∧
      parseDefinition (lexAskToInline OPTIMIZE_INLINE fuel) p
          (joinSpaces (pre ++ ":=".toList :: post)) =
        (lex OPTIMIZE_INLINE fuel p (joinSpaces ([] :: post))).bind fun r =>
          .ok (.functionDefinition (ltrim (rtrim (joinSpaces pre))) r.1
              (analyzeDefinition r.2.fA (ltrim (rtrim (joinSpaces pre))) r.1).1,
            definedState r.2 (ltrim (rtrim (joinSpaces pre))) r.1)) ∧
    parseDefinition (lexAskToInline true 1) Parser.new "sq := dup *".toList =
      .ok (.functionDefinition "sq".toList
          [.definedFunction "dup".toList, .definedFunction "*".toList] ⟨true, false⟩,
        ⟨[("sq".toList, ⟨true, false⟩)],
          ⟨[("sq".toList, [.definedFunction "dup".toList, .definedFunction "*".toList])],
            []⟩⟩) :=
  ⟨⟨by decide, by decide, by decide, rfl⟩, ⟨by decide, by decide, by decide, ⟨_, _, _, rfl⟩⟩,
    fun OPTIMIZE_INLINE fuel p pre post htok hsep hfirst =>
      parseDefinition_at_separator (lexAskToInline OPTIMIZE_INLINE fuel) p pre post htok hsep
        hfirst,
    rfl⟩

theorem balancedFrom_append (a b : List Str) :
    ∀ (d e : Int), balancedFrom d a = true → 0 ≤ e →
      balancedFrom (d + e) (a ++ b) = balancedFrom e b := by
  induction a with
  | nil =>
    intro d e h _
    simp only [balancedFrom, decide_eq_true_eq] at h
    subst h
    rw [List.nil_append, zero_add]
  | cons t a ih =>
    intro d e h he
    rw [balancedFrom] at h
    rw [List.cons_append, balancedFrom]
    by_cases h1 : t = "[".toList
    · rw [if_pos h1] at h ⊢
      rw [show d + e + 1 = (d + 1) + e by omega]
      exact ih _ _ h he
    · rw [if_neg h1] at h ⊢
      by_cases h2 : t = "]".toList
      · rw [if_pos h2] at h ⊢
        simp only [Bool.and_eq_true, decide_eq_true_eq] at h
        rw [show d + e - 1 = (d - 1) + e by omega, ih _ _ h.2 he]
        have : decide (0 ≤ d - 1 + e) = true := by
          simp only [decide_eq_true_eq]; omega
        rw [this, Bool.true_and]
      · rw [if_neg h2] at h ⊢
        exact ih _ _ h he

/-- A token sequence that closes one more bracket than it opens splits at the closing
bracket that matches: a balanced part, the `]` token, and the rest. -/
theorem balancedFrom_split :
    ∀ (k : Nat) (xs : List Str) (d : Int), xs.length ≤ k → 0 ≤ d →
      balancedFrom (d + 1) xs = true →
      ∃ body rest, xs = body ++ "]".toList :: rest ∧ balancedFrom 0 body = true ∧
        balancedFrom d rest = true := by
  intro k
  induction k with
  | zero =>
    intro xs d hk hd h
    have : xs = [] := List.eq_nil_of_length_eq_zero (by omega)
    subst this
    simp only [balancedFrom, decide_eq_true_eq] at h
    omega
  | succ k ih =>
    intro xs d hk hd h
    cases xs with
    | nil =>
      simp only [balancedFrom, decide_eq_true_eq] at h
      omega
    | cons t xs =>
      have hk' : xs.length ≤ k := by simp at hk; omega
      rw [balancedFrom] at h
      by_cases h1 : t = "[".toList
      · rw [if_pos h1] at h
        obtain ⟨b1, r1, e1, hb1, hr1⟩ := ih xs (d + 1) hk' (by omega) h
        have hr1len : r1.length ≤ k := by
          have := congrArg List.length e1
          simp at this
          omega
        obtain ⟨b2, r2, e2, hb2, hr2⟩ := ih r1 d hr1len hd hr1
        refine ⟨t :: (b1 ++ "]".toList :: b2), r2, ?_, ?_, hr2⟩
        · rw [e1, e2]; simp
        · rw [balancedFrom, if_pos h1]
          have := balancedFrom_append b1 ("]".toList :: b2) 0 1 hb1 (by omega)
          rw [this, balancedFrom, if_neg (by decide), if_pos rfl,
            show (1 : Int) - 1 = 0 from rfl, hb2]
          rfl
      · rw [if_neg h1] at h
        by_cases h2 : t = "]".toList
        · rw [if_pos h2] at h
          simp only [Bool.and_eq_true, decide_eq_true_eq] at h
          refine ⟨[], xs, by rw [h2]; rfl, rfl, ?_⟩
          have : d + 1 - 1 = d := by omega
          rw [this] at h
          exact h.2
        · rw [if_neg h2] at h
          obtain ⟨b, r, e, hb, hr⟩ := ih xs d hk' hd h
          refine ⟨t :: b, r, by rw [e]; rfl, ?_, hr⟩
          rw [balancedFrom, if_neg h1, if_neg h2]
          exact hb

theorem bodyReferencesName_append (n : Str) (a b : List CharmFunction) :
    bodyReferencesName n (a ++ b) = (bodyReferencesName n a || bodyReferencesName n b) := by
  induction a with
  | nil => simp [bodyReferencesName]
  | cons f a ih => rw [List.cons_append, bodyReferencesName, bodyReferencesName, ih, Bool.or_assoc]

theorem Quotes.nil : Quotes [] (.ok []) :=
  ⟨fun _ _ n hn => by simp at hn, fun _ => ⟨[], rfl⟩, fun ⟨_, ht, _⟩ => by simp at ht⟩

theorem Quotes.skip {ts : List Str} {res : Outcome (List CharmFunction)} (h : Quotes ts res) :
    Quotes ([] :: ts) res := by
  obtain ⟨h1, h2, h3⟩ := h
  refine ⟨?_, fun hv => h2 (fun t ht => hv t (List.mem_cons_of_mem _ ht)), ?_⟩
  · intro nodes hres n hn hne hl hrb hnum
    rcases List.mem_cons.1 hn with h | h
    · exact absurd h hne
    · exact h1 nodes hres n h hne hl hrb hnum
  · rintro ⟨t, ht, hn, hl⟩
    rcases List.mem_cons.1 ht with h | h
    · rw [h] at hn; exact absurd hn (by decide)
    · exact h3 ⟨t, h, hn, hl⟩

/-- A name or a number, then a quotation. -/
theorem Quotes.plain {t : Str} {ts : List Str} {res : Outcome (List CharmFunction)}
    (h : Quotes ts res) :
    Quotes (t :: ts)
      ((if isStringNumber t then (parseNumberFunction t).bind fun f => .ok [f]
        else .ok [.definedFunction t]).bind fun first =>
        res.bind fun nodes => .ok (first ++ nodes)) := by
  obtain ⟨h1, h2, h3⟩ := h
  by_cases hn : isStringNumber t = true
  · rw [if_pos hn, parseNumberFunction_numeric t hn]
    by_cases hl : numberLiteral t = true
    · rw [if_pos hl]
      refine ⟨?_, ?_, ?_⟩
      · intro nodes hres n hmem hne hlb hrb hnum
        cases res with
        | ok nr =>
          cases hres
          rw [bodyReferencesName_append]
          rcases List.mem_cons.1 hmem with h | h
          · rw [h, hn] at hnum; cases hnum
          · simp [h1 nr rfl n h hne hlb hrb hnum]
        | _ => cases hres
      · intro hv
        obtain ⟨nr, hnr⟩ := h2 (fun u hu => hv u (List.mem_cons_of_mem _ hu))
        rw [hnr]
        exact ⟨_, rfl⟩
      · rintro ⟨u, hu, hun, hul⟩
        rcases List.mem_cons.1 hu with h | h
        · rw [h, hl] at hul; cases hul
        · rw [h3 ⟨u, h, hun, hul⟩]; rfl
    · rw [if_neg hl]
      unfold Quotes
      refine ⟨fun nodes hres => (by cases hres), ?_, fun _ => rfl⟩
      intro hv
      exact absurd (hv t (by simp) hn) hl
  · rw [if_neg hn]
    refine ⟨?_, ?_, ?_⟩
    · intro nodes hres n hmem hne hlb hrb hnum
      cases res with
      | ok nr =>
        cases hres
        rw [bodyReferencesName_append]
        rcases List.mem_cons.1 hmem with h | h
        · subst h
          simp [bodyReferencesName, referencesName]
        · simp [h1 nr rfl n h hne hlb hrb hnum]
      | _ => cases hres
    · intro hv
      obtain ⟨nr, hnr⟩ := h2 (fun u hu => hv u (List.mem_cons_of_mem _ hu))
      rw [hnr]
      exact ⟨_, rfl⟩
    · rintro ⟨u, hu, hun, hul⟩
      rcases List.mem_cons.1 hu with h | h
      · rw [h] at hun; exact absurd hun hn
      · rw [h3 ⟨u, h, hun, hul⟩]; rfl

/-- A nested list, then a quotation. -/
theorem Quotes.list {body rest : List Str} {resb resr : Outcome (List CharmFunction)}
    (hb : Quotes body resb) (hr : Quotes rest resr) :
    Quotes ("[".toList :: (body ++ "]".toList :: rest))
      (resb.bind fun nb => resr.bind fun nr => .ok (.listFunction nb :: nr)) := by
  obtain ⟨b1, b2, b3⟩ := hb
  obtain ⟨r1, r2, r3⟩ := hr
  refine ⟨?_, ?_, ?_⟩
  · intro nodes hres n hmem hne hlb hrb hnum
    cases resb with
    | ok nb =>
      cases resr with
      | ok nr =>
        cases hres
        rw [show CharmFunction.listFunction nb :: nr = [.listFunction nb] ++ nr from rfl,
          bodyReferencesName_append]
        rcases List.mem_cons.1 hmem with h | h
        · exact absurd h hlb
        · rcases List.mem_append.1 h with h | h
          · have := b1 nb rfl n h hne hlb hrb hnum
            simp [bodyReferencesName, referencesName, this]
          · rcases List.mem_cons.1 h with h | h
            · exact absurd h hrb
            · simp [r1 nr rfl n h hne hlb hrb hnum]
      | _ => cases hres
    | _ => cases hres
  · intro hv
    obtain ⟨nb, hnb⟩ := b2 (fun u hu => hv u (by simp [hu]))
    obtain ⟨nr, hnr⟩ := r2 (fun u hu => hv u (by simp [hu]))
    rw [hnb, hnr]
    exact ⟨_, rfl⟩
  · rintro ⟨u, hu, hun, hul⟩
    by_cases hbody : ∃ t ∈ body, isStringNumber t = true ∧ numberLiteral t = false
    · rw [b3 hbody]; rfl
    · obtain ⟨nb, hnb⟩ := b2 (fun t ht hn => by
        by_contra hl
        exact hbody ⟨t, ht, hn, by simpa using hl⟩)
      rw [hnb, Outcome.bind_ok]
      rcases List.mem_cons.1 hu with h | h
      · rw [h] at hun; exact absurd hun (by decide)
      · rcases List.mem_append.1 h with h | h
        · exact absurd ⟨u, h, hun, hul⟩ hbody
        · rcases List.mem_cons.1 h with h | h
          · rw [h] at hun; exact absurd hun (by decide)
          · rw [r3 ⟨u, h, hun, hul⟩]; rfl

theorem lexItems_quotation (fuel : Nat)
    (hrec : ∀ ts : List Str, ts.length < fuel → balancedFrom 0 ts = true →
      (∀ t ∈ ts, QuotedToken t) →
      ∃ res : Outcome (List CharmFunction), (∀ (OPT : Bool) (p : Parser),
        lexAskToInline OPT fuel p (joinSpaces ts) false =
          res.bind fun nodes => .ok (nodes, p)) ∧
        Quotes ts res) :
    ∀ (k : Nat) (ts : List Str), ts.length ≤ k → ts.length ≤ fuel →
      balancedFrom 0 ts = true → (∀ t ∈ ts, QuotedToken t) →
      ∃ res : Outcome (List CharmFunction),
        (∀ (OPT : Bool) (p : Parser) (out : List CharmFunction),
          lexItems OPT (lexAskToInline OPT fuel) false (itemizeFrom .top ts) p out =
            res.bind fun nodes => .ok (out ++ nodes, p)) ∧
        Quotes ts res := by
  intro k
  induction k with
  | zero =>
    intro ts hk _ _ _
    have : ts = [] := List.eq_nil_of_length_eq_zero (by omega)
    subst this
    exact ⟨.ok [], fun OPT p out => by rw [itemizeFrom, lexItems, Outcome.bind_ok,
      List.append_nil], Quotes.nil⟩
  | succ k ih =>
    intro ts hk hfuel hbal htok
    cases ts with
    | nil =>
      exact ⟨.ok [], fun OPT p out => by rw [itemizeFrom, lexItems, Outcome.bind_ok,
        List.append_nil], Quotes.nil⟩
    | cons t ts =>
      have hk' : ts.length ≤ k := by simp at hk; omega
      have hfuel' : ts.length ≤ fuel := by simp at hfuel; omega
      have htok' : ∀ u ∈ ts, QuotedToken u := fun u hu => htok u (List.mem_cons_of_mem _ hu)
      have ht := htok t (by simp)
      rw [balancedFrom] at hbal
      by_cases h1 : t = "[".toList
      · rw [if_pos h1] at hbal
        obtain ⟨body, rest, e, hb, hr⟩ := balancedFrom_split ts.length ts 0 (le_refl _)
          (le_refl _) hbal
        have hlen : body.length + rest.length + 1 = ts.length := by
          have := congrArg List.length e
          simp at this
          omega
        have hbtok : ∀ u ∈ body, QuotedToken u :=
          fun u hu => htok' u (by rw [e]; simp [hu])
        have hrtok : ∀ u ∈ rest, QuotedToken u :=
          fun u hu => htok' u (by rw [e]; simp [hu])
        obtain ⟨resb, hnb, hqb⟩ := hrec body (by simp at hfuel; omega) hb hbtok
        obtain ⟨resr, hnr, hqr⟩ := ih rest (by omega) (by omega) hr hrtok
        refine ⟨resb.bind fun nb => resr.bind fun nr => .ok (.listFunction nb :: nr), ?_, ?_⟩
        · intro OPT p out
          rw [itemizeFrom, if_neg (by rw [h1]; decide), if_pos h1, e,
            show (1 : Int) = 0 + 1 from rfl,
            itemizeFrom_inLst_close rest body 0 [] hb (le_refl _), List.nil_append, lexItems,
            lexAskToInline_spaced OPT fuel p body false (fun u hu => (hbtok u hu).1.1.2),
            hnb OPT p]
          cases resb with
          | ok nb =>
            rw [Outcome.bind_ok, Outcome.bind_ok, Outcome.bind_ok]
            show lexItems OPT (lexAskToInline OPT fuel) false (itemizeFrom .top rest) p
              (out ++ [.listFunction nb]) = _
            rw [hnr OPT p]
            cases resr with
            | ok nr => simp [Outcome.bind]
            | _ => rfl
          | _ => rfl
        · rw [h1, e]
          exact Quotes.list hqb hqr
      · rw [if_neg h1] at hbal
        by_cases h2 : t = "]".toList
        · rw [if_pos h2] at hbal
          simp at hbal
        · rw [if_neg h2] at hbal
          obtain ⟨resr, hnr, hqr⟩ := ih ts hk' hfuel' hbal htok'
          by_cases h0 : t = []
          · refine ⟨resr, ?_, ?_⟩
            · intro OPT p out
              rw [itemizeFrom, if_pos h0]
              exact hnr OPT p out
            · rw [h0]; exact hqr.skip
          · refine ⟨_, ?_, hqr.plain (t := t)⟩
            intro OPT p out
            rw [itemizeFrom, if_neg h0, if_neg h1, if_neg ht.2, if_neg ht.1.2.1, lexItems,
              plainEmit_off (Bool.and_false OPT) p]
            generalize (if isStringNumber t then (parseNumberFunction t).bind fun f => .ok [f]
              else .ok [.definedFunction t] : Outcome (List CharmFunction)) = e
            cases e with
            | ok first =>
              rw [Outcome.bind_ok, Outcome.bind_ok, hnr OPT p]
              cases resr with
              | ok nr => simp [Outcome.bind]
              | _ => rfl
            | _ => rfl

/-- The nested call on the interior of a list literal made of names, numbers and nested
lists gives, with enough fuel, an outcome that does not depend on `OPTIMIZE_INLINE` or on
the parser state, and leaves the state unchanged; in the nodes it holds, every name token
occurs as a name node. -/
theorem lexAskToInline_quotation :
    ∀ (fuel : Nat) (ts : List Str), ts.length < fuel → balancedFrom 0 ts = true →
      (∀ t ∈ ts, QuotedToken t) →
      ∃ res : Outcome (List CharmFunction), (∀ (OPT : Bool) (p : Parser),
        lexAskToInline OPT fuel p (joinSpaces ts) false =
          res.bind fun nodes => .ok (nodes, p)) ∧
        Quotes ts res := by
  intro fuel
  induction fuel with
  | zero => intro ts h; omega
  | succ fuel ih =>
    intro ts hlen hbal htok
    have htok' : ∀ t ∈ ts, ' ' ∉ t ∧ '\n' ∉ t := fun t ht => (htok t ht).1.1
    have hd : isLineFunctionDefinition (joinSpaces ts) = false :=
      isLineFunctionDefinition_joinSpaces_false
        (fun t ht => ⟨(htok t ht).1.1.1, (htok t ht).1.2.1⟩)
    have hs : isLineTypeSignature (joinSpaces ts) = false :=
      isLineTypeSignature_joinSpaces_false
        (fun t ht => ⟨(htok t ht).1.1.1, (htok t ht).1.2.2⟩)
    obtain ⟨res, hres, hq⟩ := lexItems_quotation fuel ih ts.length ts (le_refl _)
      (by omega) hbal htok
    refine ⟨res, ?_, hq⟩
    intro OPT p
    rw [lexAskToInline_line OPT fuel p ts false htok']
    by_cases hl : joinSpaces ts = []
    · rw [if_pos hl]
      have := hres OPT p []
      rw [show itemizeFrom .top ts = [] from itemize_of_joinSpaces_nil hl, lexItems] at this
      simp only [List.nil_append] at this
      exact this
    · rw [if_neg hl, hd, hs]
      simp only [Bool.false_eq_true, if_false]
      rw [itemize, hres OPT p []]
      rfl

/-- A list literal whose interior is made of names, numbers and nested lists lexes, with
enough fuel, to an outcome that does not depend on `OPTIMIZE_INLINE` or on the parser
state: one list node, in whose body every name token of the interior occurs as a name
node, and the state unchanged; or, when GMP rejects a numeric token, the exception of its
constructor. -/
theorem lex_quotation (fuel : Nat) (ts : List Str) (hfuel : ts.length < fuel)
    (hbal : balancedFrom 0 ts = true) (htok : ∀ t ∈ ts, QuotedToken t) :
    ∃ res : Outcome (List CharmFunction), (∀ (OPT : Bool) (p : Parser),
      lex OPT (fuel + 1) p (joinSpaces ("[".toList :: ts ++ ["]".toList])) =
        res.bind fun body => .ok ([.listFunction body], p)) ∧
      Quotes ts res := by
  obtain ⟨res, hres, hq⟩ := lexAskToInline_quotation fuel ts hfuel hbal htok
  refine ⟨res, ?_, hq⟩
  intro OPT p
  unfold lex
  rw [lex_bracketed OPT fuel p ts true (fun t ht => (htok t ht).1.1) hbal, hres OPT p]
  cases res <;> rfl

/-- C18 (amended): call-site inlining is never applied to the tokens of a list body.  For
every list literal `[ ts ]` whose interior tokens are names, numbers and brackets that nest
(no token is `"`, `:=` or `::`, the reserved tokens that are not names), and with more
units of fuel than interior tokens, what `lex` does is the same for every definition-info
cache and analyzer state and for both settings of `OPTIMIZE_INLINE`: there is one outcome
`res` such that `lex` returns exactly one list node with the body held by `res` and leaves
the state unchanged.  In every body so returned, each name token `n` of the interior
occurs as the name node of `n` (at the list depth of the token); so the body is the one
obtained with an empty cache, where nothing can be inlined.  A body is returned when
every numeric token of the interior is a number literal that GMP reads; when some numeric
token is not, `lex` returns no node: it leaves by the exception of the GMP constructor,
whatever the state. -/
theorem list_body_not_inlined (fuel : Nat) (ts : List Str) (hfuel : ts.length < fuel)
    (hbal : balancedFrom 0 ts = true)
    (htok : ∀ t ∈ ts, ((' ' ∉ t ∧ '\n' ∉ t) ∧ t ≠ ":=".toList ∧ t ≠ "::".toList) ∧
      t ≠ "\"".toList) :
    ∃ res : Outcome (List CharmFunction),
      (∀ (OPTIMIZE_INLINE : Bool) (p : Parser),
        lex OPTIMIZE_INLINE (fuel + 1) p (joinSpaces ("[".toList :: ts ++ ["]".toList])) =
          res.bind fun body => .ok ([.listFunction body], p)) ∧
      (∀ body, res = .ok body →
        ∀ n ∈ ts, n ≠ [] → n ≠ "[".toList → n ≠ "]".toList → isStringNumber n = false →
          bodyReferencesName n body = true) ∧
      ((∀ t ∈ ts, isStringNumber t = true → numberLiteral t = true) →
        ∃ body, res = .ok body) ∧
      ((∃ t ∈ ts, isStringNumber t = true ∧ numberLiteral t = false) →
        res = .fault .invalidArgument) :=
  lex_quotation fuel ts hfuel hbal htok

/-- Witness for C18: after `sq := dup *` the name `sq` is cached as inlineable with a
registered body, and `[ sq ]` lexes to the list node whose body is the name node of `sq`;
`[ 5 sq ]` lexes to the list node whose body is the number 5 and the name node of `sq`. -/
theorem list_body_not_inlined_witness :
    lex true 2 Parser.new "sq := dup *".toList =
      .ok ([.functionDefinition "sq".toList
          [.definedFunction "dup".toList, .definedFunction "*".toList] ⟨true, false⟩],
        ⟨[("sq".toList, ⟨true, false⟩)],
          ⟨[("sq".toList, [.definedFunction "dup".toList, .definedFunction "*".toList])], []⟩⟩) ∧
    lex true 3 ⟨[("sq".toList, ⟨true, false⟩)],
        ⟨[("sq".toList, [.definedFunction "dup".toList, .definedFunction "*".toList])], []⟩⟩
        "[ sq ]".toList =
      .ok ([.listFunction [.definedFunction "sq".toList]],
        ⟨[("sq".toList, ⟨true, false⟩)],
          ⟨[("sq".toList, [.definedFunction "dup".toList, .definedFunction "*".toList])], []⟩⟩) ∧
    lex true 3 ⟨[("sq".toList, ⟨true, false⟩)],
        ⟨[("sq".toList, [.definedFunction "dup".toList, .definedFunction "*".toList])], []⟩⟩
        "[ 5 sq ]".toList =
      .ok ([.listFunction [.numberFunction (.integerValue "5".toList),
          .definedFunction "sq".toList]],
        ⟨[("sq".toList, ⟨true, false⟩)],
          ⟨[("sq".toList, [.definedFunction "dup".toList, .definedFunction "*".toList])], []⟩⟩) ∧
    ∃ res : Outcome (List CharmFunction),
      (∀ (OPTIMIZE_INLINE : Bool) (p : Parser),
        lex OPTIMIZE_INLINE 4 p "[ 5 sq ]".toList =
          res.bind fun body => .ok ([.listFunction body], p)) ∧
      (∀ body, res = .ok body →
        ∀ n ∈ ["5".toList, "sq".toList], n ≠ [] → n ≠ "[".toList → n ≠ "]".toList →
          isStringNumber n = false → bodyReferencesName n body = true) ∧
      ((∀ t ∈ ["5".toList, "sq".toList], isStringNumber t = true → numberLiteral t = true) →
        ∃ body, res = .ok body) ∧
      ((∃ t ∈ ["5".toList, "sq".toList], isStringNumber t = true ∧ numberLiteral t = false) →
        res = .fault .invalidArgument) :=
  ⟨rfl, rfl, rfl,
    list_body_not_inlined 3 ["5".toList, "sq".toList] (by decide) (by decide) (by decide)⟩

/-- Counterexample to C18 as stated: the interior tokens of `[ 09 sq ]` are the number
`09` (a numeric token: the lexer takes the number path for it) and the name `sq`; with
`sq` cached as inlineable with a registered body, and with an empty cache as well, `lex`
returns no list node, so `sq` occurs in no list body: GMP reads `09` as octal, rejects the
digit 9, and its constructor throws. -/
theorem list_body_not_inlined_counterexample :
    isStringNumber "09".toList = true ∧ isStringNumber "sq".toList = false ∧
    lex true 3 ⟨[("sq".toList, ⟨true, false⟩)],
        ⟨[("sq".toList, [.definedFunction "dup".toList, .definedFunction "*".toList])], []⟩⟩
        "[ 09 sq ]".toList = .fault .invalidArgument ∧
    lex true 3 Parser.new "[ 09 sq ]".toList = .fault .invalidArgument :=
  ⟨by decide, by decide, rfl, rfl⟩

theorem squeeze_cons_nil (ts : List Str) : squeeze ([] :: ts) = squeeze ts := by
  simp [squeeze]

theorem squeeze_cons_of_ne {t : Str} (h : t ≠ []) (ts : List Str) :
    squeeze (t :: ts) = t :: squeeze ts := by
  simp [squeeze, h]

theorem squeeze_append (a b : List Str) : squeeze (a ++ b) = squeeze a ++ squeeze b := by
  simp [squeeze]

theorem mem_squeeze {ts : List Str} {t : Str} (h : t ∈ squeeze ts) : t ∈ ts ∧ t ≠ [] := by
  simpa [squeeze] using h

theorem joinSpaces_eq_nil_of_squeeze {ts : List Str} (h : joinSpaces (squeeze ts) = []) :
    squeeze ts = [] := by
  cases hs : squeeze ts with
  | nil => rfl
  | cons t rest =>
    have hm : t ∈ squeeze ts := by rw [hs]; simp
    rw [hs] at h
    exact absurd h (joinSpaces_ne_nil_of_mem (List.mem_cons_self _ _) (mem_squeeze hm).2)

theorem itemizeFrom_top_of_squeeze_nil : ∀ {ts : List Str}, squeeze ts = [] →
    itemizeFrom .top ts = []
  | [], _ => rfl
  | t :: ts, h => by
    by_cases ht : t = []
    · subst ht
      rw [squeeze_cons_nil] at h
      rw [itemizeFrom, if_pos rfl]
      exact itemizeFrom_top_of_squeeze_nil h
    · rw [squeeze_cons_of_ne ht] at h
      cases h

/-- Lexing the items of a token sequence is not changed when the empty tokens are removed,
if the nested call has this property; no token is `"`. -/
theorem lexItems_squeeze (OPT : Bool) (rec : LexCall) (wi : Bool)
    (hrec : ∀ (p : Parser) (ts : List Str), (∀ t ∈ ts, QuotedToken t) →
      rec p (spaced ts) false = rec p (spaced (squeeze ts)) false)
    (ts : List Str) :
    ∀ (m : ScanMode), (∀ acc, m ≠ .inStr acc) → (∀ t ∈ m.acc, QuotedToken t) →
      (∀ t ∈ ts, QuotedToken t) → ∀ (p : Parser) (out : List CharmFunction),
      lexItems OPT rec wi (itemizeFrom m ts) p out =
        lexItems OPT rec wi (itemizeFrom m.squeeze (squeeze ts)) p out := by
  induction ts with
  | nil =>
    intro m hm _ _ p out
    cases m with
    | top => rfl
    | inStr acc => exact absurd rfl (hm acc)
    | inLst d acc => rfl
  | cons t ts ih =>
    intro m hm hacc htok p out
    have ht := htok t (by simp)
    have htok' : ∀ u ∈ ts, QuotedToken u := fun u hu => htok u (List.mem_cons_of_mem _ hu)
    have hacc' : ∀ (acc : List Str), (∀ u ∈ acc, QuotedToken u) →
        ∀ u ∈ acc ++ [t], QuotedToken u := by
      intro acc h u hu
      rcases List.mem_append.1 hu with h' | h'
      · exact h u h'
      · rw [List.mem_singleton.1 h']; exact ht
    cases m with
    | inStr acc => exact absurd rfl (hm acc)
    | top =>
      by_cases h0 : t = []
      · subst h0
        rw [squeeze_cons_nil, itemizeFrom, if_pos rfl]
        exact ih .top hm hacc htok' p out
      · rw [squeeze_cons_of_ne h0, show ScanMode.top.squeeze = ScanMode.top from rfl,
          itemizeFrom, itemizeFrom, if_neg h0, if_neg h0]
        by_cases h1 : t = "[".toList
        · rw [if_pos h1, if_pos h1]
          exact ih (.inLst 1 []) (fun acc h => by cases h) (by simp [ScanMode.acc]) htok' p out
        · rw [if_neg h1, if_neg h1, if_neg ht.2, if_neg ht.2, if_neg ht.1.2.1, if_neg ht.1.2.1,
            lexItems, lexItems]
          congr 1
          funext nodes
          exact ih .top hm hacc htok' p _
    | inLst d acc =>
      have hacc0 : ∀ u ∈ acc, QuotedToken u := hacc
      by_cases h0 : t = []
      · subst h0
        rw [squeeze_cons_nil, itemizeFrom, if_neg (by decide), if_neg (by decide)]
        have := ih (.inLst d (acc ++ [[]])) (fun acc h => by cases h) (hacc' acc hacc0) htok' p out
        rw [this]
        simp [ScanMode.squeeze, squeeze_append, squeeze]
      · rw [squeeze_cons_of_ne h0]
        have hsq : squeeze (acc ++ [t]) = squeeze acc ++ [t] := by
          rw [squeeze_append, squeeze_cons_of_ne h0]; rfl
        rw [ScanMode.squeeze, itemizeFrom, itemizeFrom]
        by_cases h1 : t = "[".toList
        · rw [if_pos h1, if_pos h1, ← hsq]
          exact ih (.inLst (d + 1) (acc ++ [t])) (fun acc h => by cases h) (hacc' acc hacc0)
            htok' p out
        · rw [if_neg h1, if_neg h1]
          by_cases h2 : t = "]".toList
          · rw [if_pos h2, if_pos h2]
            by_cases hd : d - 1 ≤ 0
            · rw [if_pos hd, if_pos hd, lexItems, lexItems, hrec p acc hacc0]
              cases rec p (spaced (squeeze acc)) false with
              | ok r =>
                obtain ⟨lf, p'⟩ := r
                simp only [Outcome.bind_ok]
                exact ih .top (fun acc h => by cases h) (by simp [ScanMode.acc]) htok' p' _
              | _ => rfl
            · rw [if_neg hd, if_neg hd, ← hsq]
              exact ih (.inLst (d - 1) (acc ++ [t])) (fun acc h => by cases h)
                (hacc' acc hacc0) htok' p out
          · rw [if_neg h2, if_neg h2, ← hsq]
            exact ih (.inLst d (acc ++ [t])) (fun acc h => by cases h) (hacc' acc hacc0)
              htok' p out

theorem quotedToken_squeeze {ts : List Str} (h : ∀ t ∈ ts, QuotedToken t) :
    ∀ t ∈ squeeze ts, QuotedToken t :=
  fun t ht => h t (mem_squeeze ht).1

theorem trim_cons_space (s : Str) : ltrim (rtrim (' ' :: s)) = ltrim (rtrim s) := by
  have hd : rtrim (' ' :: s) =
      (if (List.dropWhile isspace s.reverse).isEmpty = true then []
        else ' ' :: rtrim s) := by
    rw [rtrim, List.reverse_cons, List.dropWhile_append]
    split_ifs with h
    · rfl
    · rw [List.reverse_append]; rfl
  rw [hd]
  split_ifs with h
  · have : rtrim s = [] := by
      rw [rtrim, List.isEmpty_iff.1 h]; rfl
    rw [this]
  · rfl

theorem rtrim_append_spaces (s : Str) (k : Nat) : rtrim (s ++ List.replicate k ' ') = rtrim s := by
  induction k with
  | zero => simp
  | succ k ih =>
    rw [List.replicate_succ', ← List.append_assoc, rtrim_append_space, ih]

theorem joinSpaces_cons_empties : ∀ (rest : List Str), squeeze rest = [] → ∀ name : Str,
    joinSpaces (name :: rest) = name ++ List.replicate rest.length ' '
  | [], _, name => by simp [joinSpaces]
  | r :: rest, h, name => by
    have hr : r = [] := by
      by_contra hne
      rw [squeeze_cons_of_ne hne] at h
      cases h
    subst hr
    rw [squeeze_cons_nil] at h
    rw [joinSpaces_cons_cons, joinSpaces_cons_empties rest h []]
    simp [List.replicate_succ]

/-- The trimmed text of a token sequence that holds one non-empty token is that token,
trimmed. -/
theorem trim_joinSpaces_of_squeeze : ∀ (pre : List Str) (name : Str), squeeze pre = [name] →
    ltrim (rtrim (joinSpaces pre)) = ltrim (rtrim name)
  | [], _, h => by cases h
  | t :: rest, name, h => by
    by_cases ht : t = []
    · subst ht
      rw [squeeze_cons_nil] at h
      have hne : rest ≠ [] := by
        intro e; subst e; cases h
      rw [joinSpaces_cons_of_ne_nil _ hne, List.nil_append, trim_cons_space]
      exact trim_joinSpaces_of_squeeze rest name h
    · rw [squeeze_cons_of_ne ht] at h
      simp only [List.cons.injEq] at h
      obtain ⟨h1, h2⟩ := h
      subst h1
      rw [joinSpaces_cons_empties rest h2, rtrim_append_spaces]

theorem mem_of_squeeze_singleton {pre : List Str} {name : Str} (h : squeeze pre = [name]) :
    ∀ t ∈ pre, t = [] ∨ t = name := by
  intro t ht
  by_cases h0 : t = []
  · exact Or.inl h0
  · right
    have : t ∈ squeeze pre := by simp [squeeze, ht, h0]
    rw [h] at this
    exact List.mem_singleton.1 this

theorem scanState_of_plain (pre : List Str)
    (h : ∀ t ∈ pre, t ≠ "[".toList ∧ t ≠ "]".toList ∧ t ≠ "\"".toList) :
    ∀ s, scanState pre s = s := by
  induction pre with
  | nil => intro s; rfl
  | cons t pre ih =>
    intro s
    obtain ⟨h1, h2, h3⟩ := h t (by simp)
    rw [scanState, if_neg h1, if_neg h2, if_neg h3]
    exact ih (fun u hu => h u (List.mem_cons_of_mem _ hu)) s

theorem isLineTypeSignature_scan (line : Str) :
    isLineTypeSignature line = true ↔
      ∃ pre post, splitSpaces line = pre ++ "::".toList :: post ∧
        scanState pre (0, false) = (0, false) := by
  rw [isLineTypeSignature, classifyLoop_splitSpaces _ (by decide), classifyLoop_iff]
  constructor
  · rintro ⟨pre, tok, post, h1, h2, h3⟩
    have : tok = "::".toList := by simpa using h2
    subst this
    refine ⟨pre, post, h1, ?_⟩
    rw [scanState_append] at h3
    exact h3
  · rintro ⟨pre, post, h1, h3⟩
    refine ⟨pre, "::".toList, post, h1, by decide, ?_⟩
    rw [scanState_append, h3]
    rfl

theorem joinSpaces_append {a b : List Str} (ha : a ≠ []) (hb : b ≠ []) :
    joinSpaces (a ++ b) = joinSpaces a ++ ' ' :: joinSpaces b := by
  induction a with
  | nil => exact absurd rfl ha
  | cons t a ih =>
    cases a with
    | nil => rw [List.singleton_append, joinSpaces_cons_of_ne_nil _ hb, joinSpaces_single]
    | cons t' a =>
      rw [List.cons_append, joinSpaces_cons_of_ne_nil _ (by simp), ih (by simp),
        joinSpaces_cons_cons]
      simp

theorem pushesTokens_squeeze (us : List Str) :
    ∀ pushes, pushesTokens pushes (squeeze us) = pushesTokens pushes us := by
  induction us with
  | nil => intro pushes; rfl
  | cons u us ih =>
    intro pushes
    by_cases h0 : u = []
    · subst h0
      rw [squeeze_cons_nil, pushesTokens, if_pos rfl]
      exact ih _
    · rw [squeeze_cons_of_ne h0, pushesTokens, pushesTokens, if_neg h0, if_neg h0]
      split_ifs
      · rfl
      · cases tokenToType u with
        | ok ty => simp only [Outcome.bind_ok]; exact ih _
        | _ => rfl

theorem popsTokens_squeeze {γ : Type} (K : List CharmTypes → Bool × List CharmTypes → Outcome γ)
    (us : List Str) :
    ∀ pops, ((popsTokens pops (squeeze us)).bind fun r =>
        (pushesTokens [] r.2).bind fun s => K r.1 s) =
      (popsTokens pops us).bind fun r => (pushesTokens [] r.2).bind fun s => K r.1 s := by
  induction us with
  | nil => intro pops; rfl
  | cons u us ih =>
    intro pops
    by_cases h0 : u = []
    · subst h0
      rw [squeeze_cons_nil, popsTokens, if_pos rfl]
      exact ih _
    · rw [squeeze_cons_of_ne h0, popsTokens, popsTokens, if_neg h0, if_neg h0]
      split_ifs
      · simp only [Outcome.bind_ok, pushesTokens_squeeze]
      · rfl
      · cases tokenToType u with
        | ok ty => simp only [Outcome.bind_ok]; exact ih _
        | _ => rfl

theorem unitTokens_squeeze (us : List Str) : unitTokens (squeeze us) = unitTokens us := by
  rw [unitTokens, unitTokens]
  exact popsTokens_squeeze
    (fun pops s => Outcome.ok (s.1, CharmTypeSignatureUnit.mk pops s.2)) us []

/-- Two texts after `::` that give the same unit at each pass give the same units. -/
theorem parseUnit_congr (line line' : Str) (colonIndex colonIndex' : Option Nat)
    (ts ts' : List Str) (hts : ∀ t ∈ ts, ' ' ∉ t) (hts' : ∀ t ∈ ts', ' ' ∉ t)
    (hrest : substrFrom line (indexPlus colonIndex 2) = .ok (joinSpaces ts))
    (hrest' : substrFrom line' (indexPlus colonIndex' 2) = .ok (joinSpaces ts'))
    (hunit : unitTokens ts = unitTokens ts') :
    ∀ (fuel : Nat) (units : List CharmTypeSignatureUnit),
      parseUnit line colonIndex fuel units = parseUnit line' colonIndex' fuel units := by
  intro fuel
  induction fuel with
  | zero => intro units; rfl
  | succ fuel ih =>
    intro units
    rw [parseUnit_tokens _ _ _ hts hrest, parseUnit_tokens _ _ _ hts' hrest', hunit]
    cases unitTokens ts' with
    | ok r =>
      simp only [Outcome.bind_ok]
      split_ifs
      · exact ih _
      · rfl
    | _ => rfl

/-- The parse of a signature line `name :: tokens`, with any runs of spaces between its
tokens, is that of the line in which every run is a single space. -/
theorem parseTypeSignature_squeeze (fuel : Nat) (name : Str) (pre ts : List Str)
    (hname : NameToken name) (hpre : squeeze pre = [name])
    (hts : ∀ t ∈ ts, ' ' ∉ t) :
    parseTypeSignature fuel (joinSpaces (pre ++ "::".toList :: ts)) =
      parseTypeSignature fuel (joinSpaces (name :: "::".toList :: squeeze ts)) := by
  obtain ⟨⟨hn1, hn2⟩, ⟨hn3, hn4, hn5⟩, hn6, hn7⟩ := hname
  have hmem := mem_of_squeeze_singleton hpre
  have hprene : pre ≠ [] := by intro e; subst e; cases hpre
  have hinf : ∀ {qs : List Str}, (∀ t ∈ qs, t = [] ∨ t = name) →
      ¬ "::".toList <:+: joinSpaces qs := by
    intro qs hqs h
    by_cases hq : qs = []
    · subst hq
      have := List.eq_nil_of_infix_nil h
      cases this
    · have h' : "::".toList <:+: spaced qs := by
        rw [spaced_eq_joinSpaces hq]
        exact h.trans (List.prefix_append _ _).isInfix
      obtain ⟨t, ht, ht'⟩ := infix_spaced (by decide) (by decide) h'
      rcases hqs t ht with e | e <;> subst e
      · have := List.eq_nil_of_infix_nil ht'
        cases this
      · exact hn7 ht'
  have e1 : joinSpaces (pre ++ "::".toList :: ts) =
      joinSpaces pre ++ ' ' :: joinSpaces ("::".toList :: ts) :=
    joinSpaces_append hprene (by simp)
  have e2 : joinSpaces (name :: "::".toList :: squeeze ts) =
      joinSpaces [name] ++ ' ' :: joinSpaces ("::".toList :: squeeze ts) := rfl
  obtain ⟨a1, a2⟩ := substrFrom_signature (joinSpaces pre) ts (hinf hmem)
  obtain ⟨b1, b2⟩ := substrFrom_signature (joinSpaces [name]) (squeeze ts)
    (hinf (fun t ht => Or.inr (List.mem_singleton.1 ht)))
  have hsq : ∀ t ∈ squeeze ts, ' ' ∉ t := fun t ht => hts t (mem_squeeze ht).1
  have hc := parseUnit_congr _ _ _ _ ([] :: ts) ([] :: squeeze ts)
    (by
      intro t ht
      rcases List.mem_cons.1 ht with h | h
      · subst h; simp
      · exact hts t h)
    (by
      intro t ht
      rcases List.mem_cons.1 ht with h | h
      · subst h; simp
      · exact hsq t h)
    a1 b1
    (by
      rw [← unitTokens_squeeze ([] :: ts), ← unitTokens_squeeze ([] :: squeeze ts),
        squeeze_cons_nil, squeeze_cons_nil]
      congr 1
      simp [squeeze])
  rw [parseTypeSignature, parseTypeSignature, e1, e2, a2, b2, hc fuel [], rtrim_append_space,
    rtrim_append_space, trim_joinSpaces_of_squeeze pre name hpre, joinSpaces_single]

/-- Counterexample to C13 as stated: in `" hello   world "` the characters `[`, `]` and `"`
occur only as free-standing tokens, and replacing the run of three spaces by one space
gives `" hello world "`; the first lexes to the string `hello   world`, the second to the
string `hello world`.  Likewise `a  b := 1` defines the name `a  b`, and `a b := 1` the
name `a b`; and so do, inside a list literal, `[ a  b := 1 ]` and `[ a b := 1 ]`. -/
theorem lex_space_runs_counterexample :
    lex true 1 Parser.new "\" hello   world \"".toList =
      .ok ([.stringFunction "hello   world".toList], Parser.new) ∧
    lex true 1 Parser.new "\" hello world \"".toList =
      .ok ([.stringFunction "hello world".toList], Parser.new) ∧
    lex true 1 Parser.new "\" hello   world \"".toList ≠
      lex true 1 Parser.new "\" hello world \"".toList ∧
    (∃ p, lex true 2 Parser.new "a  b := 1".toList =
      .ok ([.functionDefinition "a  b".toList [.numberFunction (.integerValue "1".toList)]
        ⟨true, false⟩], p)) ∧
    (∃ p, lex true 2 Parser.new "a b := 1".toList =
      .ok ([.functionDefinition "a b".toList [.numberFunction (.integerValue "1".toList)]
        ⟨true, false⟩], p)) ∧
    (∃ p, lex true 3 Parser.new "[ a  b := 1 ]".toList =
      .ok ([.listFunction [.functionDefinition "a  b".toList
        [.numberFunction (.integerValue "1".toList)] ⟨true, false⟩]], p)) ∧
    (∃ p, lex true 3 Parser.new "[ a b := 1 ]".toList =
      .ok ([.listFunction [.functionDefinition "a b".toList
        [.numberFunction (.integerValue "1".toList)] ⟨true, false⟩]], p)) := by
  refine ⟨rfl, rfl, ?_, ⟨_, rfl⟩, ⟨_, rfl⟩, ⟨_, rfl⟩, ⟨_, rfl⟩⟩
  intro h
  have h1 : lex true 1 Parser.new "\" hello   world \"".toList =
      .ok ([.stringFunction "hello   world".toList], Parser.new) := rfl
  have h2 : lex true 1 Parser.new "\" hello world \"".toList =
      .ok ([.stringFunction "hello world".toList], Parser.new) := rfl
  rw [h1, h2] at h
  injection h with h
  injection h with h _
  injection h with h _
  injection h with h
  exact absurd h (by decide)

section Trace

variable (p0 : Parser)

end Trace

theorem scanState_depth (pre : List Str) :
    ∀ s : Int × Bool, (scanState pre s).1 =
      s.1 + (pre.count "[".toList : Int) - (pre.count "]".toList : Int) := by
  induction pre with
  | nil => intro s; simp [scanState]
  | cons t pre ih =>
    intro s
    rw [scanState, ih]
    by_cases h1 : t = "[".toList
    · subst h1
      rw [if_pos rfl, List.count_cons_self, List.count_cons_of_ne (by decide)]
      push_cast
      ring
    · rw [if_neg h1, List.count_cons_of_ne (Ne.symm h1)]
      by_cases h2 : t = "]".toList
      · subst h2
        rw [if_pos rfl, List.count_cons_self]
        push_cast
        ring
      · rw [if_neg h2, List.count_cons_of_ne (Ne.symm h2)]
        split_ifs <;> rfl

/-- The loop of the line classifier over a line that starts with the tokens `pre`: either
it answers true, or it reaches the tokens after `pre` in the state `scanState pre`. -/
theorem classifyLoop_state (isSeparator : Str → Bool) (pre rest : List Str) :
    ∀ (stringDepth : Bool) (listDepth : Int),
      classifyLoop isSeparator (pre ++ rest) stringDepth listDepth = true ∨
      classifyLoop isSeparator (pre ++ rest) stringDepth listDepth =
        classifyLoop isSeparator rest (scanState pre (listDepth, stringDepth)).2
          (scanState pre (listDepth, stringDepth)).1 := by
  induction pre with
  | nil => intro sd d; right; rfl
  | cons f pre ih =>
    intro sd d
    rw [List.cons_append, classifyLoop_cons]
    split_ifs
    · left; rfl
    · have e : scanState (f :: pre) (d, sd) = scanState pre (scanState [f] (d, sd)) := by
        rw [show f :: pre = [f] ++ pre from rfl, scanState_append]
      rw [e]
      exact ih _ _

/-- C21 (amended): in the line classifier (`isLineFunctionDefinition` and
`isLineTypeSignature`, which differ by the separator test only), the loop that has not
answered within a prefix of the tokens of the line reaches the tokens after it with the
list depth and string flag of `scanState`; that list depth is the number of `[` tokens of
the prefix minus the number of its `]` tokens; so it is non-negative after every prefix of
the tokens of a line in which no prefix holds more `]` tokens than `[` tokens. -/
theorem classifier_depth :
    (∀ (isSeparator : Str → Bool) (pre rest : List Str),
      classifyLoop isSeparator (pre ++ rest) false 0 = true ∨
      classifyLoop isSeparator (pre ++ rest) false 0 =
        classifyLoop isSeparator rest (scanState pre (0, false)).2
          (scanState pre (0, false)).1) ∧
    (∀ pre : List Str, (scanState pre (0, false)).1 =
      (pre.count "[".toList : Int) - (pre.count "]".toList : Int)) ∧
    (∀ ts : List Str,
      (∀ pre, pre <+: ts → pre.count "]".toList ≤ pre.count "[".toList) →
      ∀ pre, pre <+: ts → 0 ≤ (scanState pre (0, false)).1) := by
  refine ⟨fun isSeparator pre rest => classifyLoop_state isSeparator pre rest false 0, ?_, ?_⟩
  · intro pre
    rw [scanState_depth]
    simp
  · intro ts h pre hpre
    rw [scanState_depth]
    have := h pre hpre
    simp only [zero_add]
    omega

/-- Counterexample to C21 as stated: after the one token of the line `]` the list depth of
the classifier is −1.  The negative depth shows in its answers: `] [ f := 1` is taken for a
definition line, its `:=` being read at depth 0, while `[ f := 1` is not. -/
theorem classifier_depth_counterexample :
    (scanState (splitSpaces "]".toList) (0, false)).1 = -1 ∧
    (∀ (isSeparator : Str → Bool) (rest : List Str), isSeparator "]".toList = false →
      classifyLoop isSeparator ("]".toList :: rest) false 0 =
        classifyLoop isSeparator rest false (-1)) ∧
    isLineFunctionDefinition "] [ f := 1".toList = true ∧
    isLineFunctionDefinition "[ f := 1".toList = false := by
  refine ⟨by decide, ?_, by decide, by decide⟩
  intro isSeparator rest hsep
  rw [classifyLoop_cons]
  have e : scanState ["]".toList] (0, false) = (-1, false) := by decide
  rw [e]
  simp [hsep]

theorem escapeScan_pair (c d : Char) (cs : Str) :
    escapeScan (c :: d :: cs) =
      if c = '\\' then
        if d = 'n' then (escapeScan cs).map fun r => '\n' :: r
        else if d = '"' then (escapeScan cs).map fun r => '"' :: r
        else if d = 't' then (escapeScan cs).map fun r => '\t' :: r
        else if d = '0' then
          match cs with
          | [] => .fault .readPastEnd
          | x :: rest => (escapeScan rest).map fun r => x :: r
        else if d = '\\' then (escapeScan cs).map fun r => '\\' :: r
        else (escapeScan (d :: cs)).map fun r => c :: r
      else (escapeScan (d :: cs)).map fun r => c :: r := by
  cases cs with
  | nil =>
    simp only [escapeScan]
    split_ifs <;> rfl
  | cons x rest => rw [escapeScan]

theorem escapeStringLoop_last (n : Nat) (tok : Str) (c : Nat) (h : c + 1 = tok.length) :
    escapeStringLoop (n + 1) tok c = .ok tok := by
  rw [escapeStringLoop, if_neg (by omega), if_pos h]

theorem Outcome.map_map_cons (done : Str) (x : Char) (o : Outcome Str) :
    (o.map fun r => done ++ x :: r) = (o.map fun r => x :: r).map fun r => done ++ r := by
  cases o <;> rfl

/-- The loop of `escapeString`, with the cursor after the characters `done`, returns
`done` followed by what `escapeScan` makes of the rest of the token. -/
theorem escapeStringLoop_scan :
    ∀ (n : Nat) (rem done : Str), rem.length < n →
      escapeStringLoop n (done ++ rem) done.length =
        (escapeScan rem).map fun r => done ++ r := by
  intro n
  induction n with
  | zero => intro rem done h; omega
  | succ n ih =>
    intro rem done hlen
    match rem, hlen with
    | [], _ =>
      rw [escapeStringLoop, if_pos (by simp)]
      simp [escapeScan, Outcome.map, Outcome.bind]
    | [c], _ =>
      rw [escapeStringLoop, if_neg (by simp), if_pos (by simp)]
      simp [escapeScan, Outcome.map, Outcome.bind]
    | c :: d :: cs, hlen =>
      have hl : (done ++ c :: d :: cs).length = done.length + (cs.length + 2) := by simp
      have e0 : (done ++ c :: d :: cs)[done.length]? = some c := by
        rw [getElem?_append_length]; rfl
      have e1 : (done ++ c :: d :: cs)[done.length + 1]? = some d := by
        rw [getElem?_append_length_succ]; simp
      have hcs : cs.length < n := by simp at hlen; omega
      have hdcs : (d :: cs).length < n := by simp at hlen ⊢; omega
      have step : ∀ x : Char,
          escapeStringLoop n (replace2 (done ++ c :: d :: cs) done.length [x]) (done.length + 1) =
            ((escapeScan cs).map fun r => x :: r).map fun r => done ++ r := by
        intro x
        rw [replace2_append, ← Outcome.map_map_cons]
        have := ih cs (done ++ [x]) hcs
        simp only [List.length_append, List.length_singleton, List.append_assoc,
          List.singleton_append] at this ⊢
        exact this
      have skip : escapeStringLoop n (done ++ c :: d :: cs) (done.length + 1) =
            ((escapeScan (d :: cs)).map fun r => c :: r).map fun r => done ++ r := by
        rw [← Outcome.map_map_cons]
        have := ih (d :: cs) (done ++ [c]) hdcs
        simp only [List.length_append, List.length_singleton, List.append_assoc,
          List.singleton_append] at this
        exact this
      have nul : escapeStringLoop n (replace2 (done ++ c :: d :: cs) done.length [])
            (done.length + 1) =
          (match cs with
            | [] => Outcome.fault Fault.readPastEnd
            | x :: rest => (escapeScan rest).map fun r => x :: r).map fun r => done ++ r := by
        rw [replace2_append, List.append_nil]
        cases cs with
        | nil =>
          cases n with
          | zero => omega
          | succ n =>
            rw [List.append_nil, escapeStringLoop, if_neg (by omega), if_neg (by omega),
              if_pos (by omega)]
            rfl
        | cons x rest =>
          have hr : rest.length < n := by simp at hcs; omega
          have := ih rest (done ++ [x]) hr
          simp only [List.length_append, List.length_singleton, List.append_assoc,
            List.singleton_append] at this
          show _ = ((escapeScan rest).map fun r => x :: r).map fun r => done ++ r
          rw [← Outcome.map_map_cons]
          exact this
      rw [escapeStringLoop, if_neg (by rw [hl]; omega), if_neg (by rw [hl]; omega),
        if_neg (by rw [hl]; omega), e0, e1, escapeScan_pair]
      by_cases hc : c = '\\'
      · rw [if_pos (by rw [hc]), if_pos hc]
        by_cases h1 : d = 'n'
        · rw [if_pos (by rw [h1]), if_pos h1]; exact step _
        · rw [if_neg (by simpa using h1), if_neg h1]
          by_cases h2 : d = '"'
          · rw [if_pos (by rw [h2]), if_pos h2]; exact step _
          · rw [if_neg (by simpa using h2), if_neg h2]
            by_cases h3 : d = 't'
            · rw [if_pos (by rw [h3]), if_pos h3]; exact step _
            · rw [if_neg (by simpa using h3), if_neg h3]
              by_cases h4 : d = '0'
              · rw [if_pos (by rw [h4]), if_pos h4]; exact nul
              · rw [if_neg (by simpa using h4), if_neg h4]
                by_cases h5 : d = '\\'
                · rw [if_pos (by rw [h5]), if_pos h5]; exact step _
                · rw [if_neg (by simpa using h5), if_neg h5]; exact skip
      · rw [if_neg (by simpa using hc), if_neg hc]
        exact skip

/-- The function `escapeString` returns what `escapeScan` makes of the token. -/
theorem escapeString_eq_escapeScan (t : Str) : escapeString t = escapeScan t := by
  have := escapeStringLoop_scan (t.length + 1) t [] (Nat.lt_succ_self _)
  rw [escapeString]
  simp only [List.nil_append, List.length_nil] at this
  rw [this]
  cases escapeScan t <;> rfl

theorem escapeTable_cons_of_ne {c : Char} (hc : c ≠ '\\') (s : Str) :
    escapeTable (c :: s) = c :: escapeTable s ∧ meetsNulPair (c :: s) = meetsNulPair s := by
  cases s with
  | nil => exact ⟨rfl, rfl⟩
  | cons d cs => rw [escapeTable, meetsNulPair, if_neg hc, if_neg hc]; exact ⟨rfl, rfl⟩

theorem escapeTable_trailing : ∀ (t : Str), '\\' ∉ t →
    escapeTable (t ++ ['\\']) = t ++ ['\\'] ∧ meetsNulPair (t ++ ['\\']) = false
  | [], _ => ⟨rfl, rfl⟩
  | c :: t, h => by
    have hc : c ≠ '\\' := fun e => h (by simp [e])
    obtain ⟨h1, h2⟩ := escapeTable_trailing t (fun e => h (List.mem_cons_of_mem _ e))
    obtain ⟨e1, e2⟩ := escapeTable_cons_of_ne hc (t ++ ['\\'])
    rw [List.cons_append, e1, e2, h1]
    exact ⟨rfl, h2⟩

/-- A token without a backslash, followed by one backslash, is returned unchanged. -/
theorem escapeString_trailing {t : Str} (h : '\\' ∉ t) :
    escapeString (t ++ ['\\']) = .ok (t ++ ['\\']) := by
  obtain ⟨h1, h2⟩ := escapeTable_trailing t h
  rw [escapeString_table _ h2, h1]

/-- When the cursor of the scan stands on the last character of the token, the scan stops
and the token is returned as it is. -/
theorem escapeStringLoop_at_last (n : Nat) (tok : Str) (c : Nat) (h : c + 1 = tok.length)
    (hb : tok[c]? = some '\\') :
    escapeStringLoop (n + 1) tok c = .ok tok ∧ tok.getLast? = some '\\' := by
  refine ⟨escapeStringLoop_last n tok c h, ?_⟩
  rw [List.getLast?_eq_getElem?, ← h]
  exact hb

/-- C22: a trailing backslash is left intact.  For every token `t` that contains no
backslash, `escapeString` applied to `t` followed by one backslash returns it unchanged
(witness: `abc\`); and whenever the cursor of the scan stands on a backslash that is the
last character of the token as it is then, the scan stops and returns that token, which
ends with that backslash. -/
theorem escapeString_trailing_backslash :
    (∀ t : Str, '\\' ∉ t → escapeString (t ++ ['\\']) = .ok (t ++ ['\\'])) ∧
    (∀ (n : Nat) (tok : Str) (c : Nat), c + 1 = tok.length → tok[c]? = some '\\' →
      escapeStringLoop (n + 1) tok c = .ok tok ∧ tok.getLast? = some '\\') ∧
    escapeString "abc\\".toList = .ok "abc\\".toList :=
  ⟨fun _ h => escapeString_trailing h,
    fun n tok c h hb => escapeStringLoop_at_last n tok c h hb,
    escapeString_trailing (t := "abc".toList) (by decide)⟩

/-- C23: on the token `\0` (backslash, zero) the scan of `escapeString` does not stay within
the token: the pair is replaced by the empty C string `"\0"`, the token becomes empty, and
the cursor is advanced to offset 1, past its end, where the loop test `c != tok.end()`
does not stop it and `*c` is read; the same happens on every token whose scan meets the
pair `\0` as its last two characters (`a\0`), and through `lex` on the line `" \0 "`.
What `escapeString` does on every token is what `escapeScan` describes, and on every token
whose scan does not meet the pair `\0` the claim holds: the scan stays within the token
and returns. -/
theorem escapeString_index_safety :
    (escapeString "\\0".toList = .fault .readPastEnd ∧
      escapeString "a\\0".toList = .fault .readPastEnd ∧
      lex true 1 Parser.new "\" \\0 \"".toList = .fault .readPastEnd) ∧
    (∀ t : Str, escapeString t = escapeScan t) ∧
    (∀ t : Str, meetsNulPair t = false → escapeString t = .ok (escapeTable t)) :=
  ⟨⟨by decide, by decide, rfl⟩, fun t => escapeString_eq_escapeScan t,
    fun t h => escapeString_table t h⟩

theorem isspace_iff (c : Char) : isspace c = true ↔ c ∈ whitespaceChars := by
  simp only [isspace, whitespaceChars, Bool.or_eq_true, decide_eq_true_eq, List.mem_cons,
    List.mem_singleton, List.not_mem_nil, or_false]
  tauto

theorem dropWhile_append_of_all {α : Type} (p : α → Bool) (a b : List α)
    (h : ∀ x ∈ a, p x = true) : (a ++ b).dropWhile p = b.dropWhile p := by
  induction a with
  | nil => rfl
  | cons x a ih =>
    rw [List.cons_append, List.dropWhile_cons, if_pos (h x (by simp))]
    exact ih (fun y hy => h y (List.mem_cons_of_mem _ hy))

theorem dropWhile_of_head {α : Type} (p : α → Bool) (l : List α)
    (h : ∀ x, l.head? = some x → p x = false) : l.dropWhile p = l := by
  cases l with
  | nil => rfl
  | cons x l => rw [List.dropWhile_cons, if_neg (by simp [h x rfl])]

/-- Trimming: white space around a text that neither starts nor ends with white space is
removed by `rtrim` followed by `ltrim`, and the text is what remains. -/
theorem trim_surrounded (lead core trail : Str)
    (hlead : ∀ c ∈ lead, c ∈ whitespaceChars) (htrail : ∀ c ∈ trail, c ∈ whitespaceChars)
    (hfirst : ∀ c, core.head? = some c → c ∉ whitespaceChars)
    (hlast : ∀ c, core.getLast? = some c → c ∉ whitespaceChars) :
    ltrim (rtrim (lead ++ core ++ trail)) = core := by
  have hl : ∀ c ∈ lead, isspace c = true := fun c hc => (isspace_iff c).2 (hlead c hc)
  have ht : ∀ c ∈ trail.reverse, isspace c = true :=
    fun c hc => (isspace_iff c).2 (htrail c (List.mem_reverse.1 hc))
  have hf : ∀ c, core.head? = some c → isspace c = false := fun c hc => by
    rw [← Bool.not_eq_true, isspace_iff]; exact hfirst c hc
  unfold ltrim rtrim
  rw [List.reverse_append, dropWhile_append_of_all _ _ _ ht, List.reverse_append]
  by_cases hcore : core = []
  · subst hcore
    rw [List.reverse_nil, List.nil_append,
      show lead.reverse = lead.reverse ++ [] from (List.append_nil _).symm,
      dropWhile_append_of_all _ _ _ (fun c hc => hl c (List.mem_reverse.1 hc))]
    rfl
  · have hr : (core.reverse ++ lead.reverse).dropWhile isspace = core.reverse ++ lead.reverse := by
      apply dropWhile_of_head
      intro c hc
      have : core.reverse.head? = some c := by
        cases hcr : core.reverse with
        | nil => exact absurd (List.reverse_eq_nil_iff.1 hcr) hcore
        | cons x xs => rw [hcr] at hc; simpa using hc
      rw [List.head?_reverse] at this
      rw [← Bool.not_eq_true, isspace_iff]
      exact hlast c this
    rw [hr, List.reverse_append, List.reverse_reverse, List.reverse_reverse,
      dropWhile_append_of_all _ _ _ hl]
    exact dropWhile_of_head _ _ hf

theorem typeTable_tokenToType : ∀ x ∈ typeTable, tokenToType x.1 = .ok x.2 := by
  decide

theorem forall₂_typeTable (ps : List (Str × CharmTypes)) (h : ∀ x ∈ ps, x ∈ typeTable) :
    List.Forall₂ (fun t ty => tokenToType t = .ok ty) (ps.map Prod.fst) (ps.map Prod.snd) := by
  induction ps with
  | nil => exact List.Forall₂.nil
  | cons x ps ih =>
    exact List.Forall₂.cons (typeTable_tokenToType x (h x (by simp)))
      (ih (fun y hy => h y (List.mem_cons_of_mem _ hy)))

theorem exists_prefix_split (P : Char → Prop) [DecidablePred P] :
    ∀ l : Str, ∃ lead rest, l = lead ++ rest ∧ (∀ c ∈ lead, P c) ∧
      ∀ c, rest.head? = some c → ¬ P c
  | [] => ⟨[], [], rfl, fun c hc => by simp at hc, fun c hc => by simp at hc⟩
  | x :: xs => by
    by_cases hx : P x
    · obtain ⟨lead, rest, e, h1, h2⟩ := exists_prefix_split P xs
      refine ⟨x :: lead, rest, by rw [e]; rfl, ?_, h2⟩
      intro c hc
      rcases List.mem_cons.1 hc with h | h
      · rw [h]; exact hx
      · exact h1 c h
    · refine ⟨[], x :: xs, rfl, fun c hc => by simp at hc, ?_⟩
      intro c hc
      simp only [List.head?_cons, Option.some.injEq] at hc
      rw [← hc]; exact hx

/-- Every text is white space, then a text that neither starts nor ends with white space,
then white space again. -/
theorem exists_trim_split (name : Str) :
    ∃ lead core trail, name = lead ++ core ++ trail ∧
      (∀ c ∈ lead, c ∈ whitespaceChars) ∧ (∀ c ∈ trail, c ∈ whitespaceChars) ∧
      (∀ c, core.head? = some c → c ∉ whitespaceChars) ∧
      (∀ c, core.getLast? = some c → c ∉ whitespaceChars) := by
  obtain ⟨lead, rest, e1, h1, h2⟩ := exists_prefix_split (fun c => c ∈ whitespaceChars) name
  obtain ⟨tr, cr, e2, h3, h4⟩ :=
    exists_prefix_split (fun c => c ∈ whitespaceChars) rest.reverse
  have e3 : rest = cr.reverse ++ tr.reverse := by
    have := congrArg List.reverse e2
    rw [List.reverse_reverse, List.reverse_append] at this
    exact this
  refine ⟨lead, cr.reverse, tr.reverse, by rw [e1, e3, List.append_assoc], h1,
    fun c hc => h3 c (List.mem_reverse.1 hc), ?_, ?_⟩
  · intro c hc
    apply h2 c
    rw [e3]
    cases hcr : cr.reverse with
    | nil => rw [hcr] at hc; simp at hc
    | cons x xs => rw [hcr] at hc; simpa using hc
  · intro c hc
    rw [List.getLast?_reverse] at hc
    exact h4 c hc

/-- C8: on the line `name :: p1 ... pm -> q1 ... qn` (m, n ≥ 0), where the name holds no
`::` and the `p`s and `q`s are type tokens of the table (`any`, `list`, `list/string`,
`string`, `int`, `float`), `parseTypeSignature` returns as `functionName` the name with the
surrounding white space removed, and exactly one unit, whose pops are the types of the
`p`s in order and whose pushes are the types of the `q`s in order.  The name with the
surrounding white space removed: the name is white space, then a text that neither starts
nor ends with white space, then white space again (every name is so written), and that
text is the `functionName`. -/
theorem parseTypeSignature_single_unit (fuel : Nat) (name : Str)
    (ps qs : List (Str × CharmTypes))
    (hname : ¬ "::".toList <:+: name)
    (hps : ∀ x ∈ ps, x ∈ typeTable) (hqs : ∀ x ∈ qs, x ∈ typeTable) :
    (∃ lead core trail, name = lead ++ core ++ trail ∧
      (∀ c ∈ lead, c ∈ whitespaceChars) ∧ (∀ c ∈ trail, c ∈ whitespaceChars) ∧
      (∀ c, core.head? = some c → c ∉ whitespaceChars) ∧
      (∀ c, core.getLast? = some c → c ∉ whitespaceChars)) ∧
    (∀ lead core trail, name = lead ++ core ++ trail →
      (∀ c ∈ lead, c ∈ whitespaceChars) → (∀ c ∈ trail, c ∈ whitespaceChars) →
      (∀ c, core.head? = some c → c ∉ whitespaceChars) →
      (∀ c, core.getLast? = some c → c ∉ whitespaceChars) →
      parseTypeSignature (fuel + 1)
          (name ++ ' ' ::
            joinSpaces ("::".toList :: ps.map Prod.fst ++ "->".toList :: qs.map Prod.fst)) =
        .ok ⟨core, [⟨ps.map Prod.snd, qs.map Prod.snd⟩]⟩) := by
  refine ⟨exists_trim_split name, ?_⟩
  intro lead core trail e hlead htrail hfirst hlast
  rw [parseTypeSignature_unit fuel name _ _ _ _ hname
    (forall₂_typeTable ps hps) (forall₂_typeTable qs hqs), e,
    trim_surrounded lead core trail hlead htrail hfirst hlast]

/-- Witness for C8: on the line ` swap TAB :: int float -> float int`, whose name is
written with a space before it and a TAB after it, the name is `swap`; on `nop :: ->`
both type lists are empty. -/
theorem parseTypeSignature_single_unit_witness :
    parseTypeSignature 1 " swap\t :: int float -> float int".toList =
      .ok ⟨"swap".toList,
        [⟨[.TYPESIG_INT, .TYPESIG_FLOAT], [.TYPESIG_FLOAT, .TYPESIG_INT]⟩]⟩ ∧
    parseTypeSignature 1 "nop :: ->".toList = .ok ⟨"nop".toList, [⟨[], []⟩]⟩ :=
  ⟨(parseTypeSignature_single_unit 0 " swap\t".toList
      [("int".toList, .TYPESIG_INT), ("float".toList, .TYPESIG_FLOAT)]
      [("float".toList, .TYPESIG_FLOAT), ("int".toList, .TYPESIG_INT)]
      (by decide) (by decide) (by decide)).2 " ".toList "swap".toList "\t".toList rfl
      (by decide) (by decide) (by decide) (by decide),
    (parseTypeSignature_single_unit 0 "nop".toList [] []
      (by decide) (by decide) (by decide)).2 [] "nop".toList [] rfl
      (by decide) (by decide) (by decide) (by decide)⟩

/-- A `[` token that the scan of an expression line reaches at top level and that is never
closed: `lex` does what it does on the tokens before the bracket and, when these lex,
fails with the error "expected a close bracket". -/
theorem lex_openList_bind (OPT : Bool) (fuel : Nat) (p : Parser)
    (pre post : List Str)
    (htok : ∀ t ∈ pre ++ post, ' ' ∉ t ∧ '\n' ∉ t)
    (hopen : neverCloses 1 post = true)
    (hdef : isLineFunctionDefinition (joinSpaces (pre ++ "[".toList :: post)) = false)
    (hsig : isLineTypeSignature (joinSpaces (pre ++ "[".toList :: post)) = false)
    (htop : scanEnd .top pre = .top) :
    lex OPT (fuel + 1) p (joinSpaces (pre ++ "[".toList :: post)) =
      (lex OPT (fuel + 1) p (joinSpaces pre)).bind fun _ => .die .expectedCloseBracket := by
  have htok' : ∀ t ∈ pre ++ "[".toList :: post, ' ' ∉ t ∧ '\n' ∉ t := by
    intro t ht
    rcases List.mem_append.1 ht with h | h
    · exact htok t (by simp [h])
    · rcases List.mem_cons.1 h with h | h
      · subst h; decide
      · exact htok t (by simp [h])
  have hpt : ∀ t ∈ pre, ' ' ∉ t ∧ '\n' ∉ t := fun t ht => htok t (by simp [ht])
  have hne : joinSpaces (pre ++ "[".toList :: post) ≠ [] :=
    joinSpaces_ne_nil_of_mem (t := "[".toList) (by simp) (by decide)
  have hpre : lex OPT (fuel + 1) p (joinSpaces pre) =
      lexItems OPT (lexAskToInline OPT fuel) true (closedItems .top pre) p [] := by
    unfold lex
    rw [lexAskToInline_line OPT fuel p pre true hpt]
    have hitems : itemize pre = closedItems .top pre := by
      rw [itemize, itemizeFrom_eq_closed, htop]
      exact List.append_nil _
    by_cases hl : joinSpaces pre = []
    · rw [if_pos hl, ← hitems, itemize_of_joinSpaces_nil hl]
      rfl
    · have hd : isLineFunctionDefinition (joinSpaces pre) = false :=
        classify_prefix _ (fun t ht => (hpt t ht).1) (by simp) hdef
      have hs : isLineTypeSignature (joinSpaces pre) = false :=
        classify_prefix _ (fun t ht => (hpt t ht).1) (by simp) hsig
      rw [if_neg hl, hd, hs, hitems]
      rfl
  rw [hpre]
  unfold lex
  rw [lexAskToInline_line OPT fuel p _ true htok', if_neg hne, hdef, hsig]
  simp only [Bool.false_eq_true, if_false]
  rw [itemize, itemizeFrom_append, lexItems_append, htop, itemizeFrom, if_neg (by decide),
    if_pos rfl, itemizeFrom_inLst_open post 1 [] (le_refl _) hopen]
  rfl

/-- C11 (amended): in an expression line, a free-standing `[` token after which the
bracket depth (start 1, +1 on each `[` token, −1 on each `]` token) never reaches 0 before
the end of the line makes `lex` fail with the fatal error "expected a close bracket",
without a node list, when the tokens before the bracket lex on their own.  More
generally, when the scan of the tokens before the bracket ends at top level (outside any
string and any list), so that the bracket is a top-level token, `lex` does on the line what
it does on the tokens before the bracket, and then fails with "expected a close bracket":
it returns no node list, and it fails with the failure of those tokens when they do not
lex. -/
theorem lex_unterminated_list (OPTIMIZE_INLINE : Bool) (fuel : Nat) (p : Parser)
    (pre post : List Str)
    (htok : ∀ t ∈ pre ++ post, ' ' ∉ t ∧ '\n' ∉ t)
    (hopen : neverCloses 1 post = true)
    (hdef : isLineFunctionDefinition (joinSpaces (pre ++ "[".toList :: post)) = false)
    (hsig : isLineTypeSignature (joinSpaces (pre ++ "[".toList :: post)) = false) :
    (∀ (out1 : List CharmFunction) (p1 : Parser),
      lex OPTIMIZE_INLINE (fuel + 1) p (joinSpaces pre) = .ok (out1, p1) →
      lex OPTIMIZE_INLINE (fuel + 1) p (joinSpaces (pre ++ "[".toList :: post)) =
        .die .expectedCloseBracket) ∧
    (scanEnd .top pre = .top →
      lex OPTIMIZE_INLINE (fuel + 1) p (joinSpaces (pre ++ "[".toList :: post)) =
          (lex OPTIMIZE_INLINE (fuel + 1) p (joinSpaces pre)).bind fun _ =>
            .die .expectedCloseBracket) ∧
    (scanEnd .top pre = .top →
      ∀ r, lex OPTIMIZE_INLINE (fuel + 1) p (joinSpaces (pre ++ "[".toList :: post)) ≠ .ok r) :=
  ⟨fun out1 p1 hpre =>
      lex_openList OPTIMIZE_INLINE fuel p pre post out1 p1 htok hopen hdef hsig hpre,
    fun htop => lex_openList_bind OPTIMIZE_INLINE fuel p pre post htok hopen hdef hsig htop,
    fun htop r hr => by
      rw [lex_openList_bind OPTIMIZE_INLINE fuel p pre post htok hopen hdef hsig htop] at hr
      cases hx : lex OPTIMIZE_INLINE (fuel + 1) p (joinSpaces pre) <;> rw [hx] at hr <;>
        cases hr⟩

/-- Witness for C11: the lines `[ [ 1 ]`, `[ 1 2` and `[` fail with "expected a close
bracket", and so does `2 [ 1 2`, whose bracket follows a number. -/
theorem lex_unterminated_list_witness :
    lex true 1 Parser.new "[ [ 1 ]".toList = .die .expectedCloseBracket ∧
    lex true 1 Parser.new "[ 1 2".toList = .die .expectedCloseBracket ∧
    lex true 1 Parser.new "[".toList = .die .expectedCloseBracket ∧
    lex true 1 Parser.new "2 [ 1 2".toList = .die .expectedCloseBracket :=
  ⟨(lex_unterminated_list true 0 Parser.new [] ["[".toList, "1".toList, "]".toList]
      (by decide) (by decide) (by decide) (by decide)).1 [] Parser.new rfl,
    rfl, rfl,
    (lex_unterminated_list true 0 Parser.new ["2".toList] ["1".toList, "2".toList]
      (by decide) (by decide) (by decide) (by decide)).1
      [.numberFunction (.integerValue "2".toList)] Parser.new rfl⟩

/-- Counterexample to C11 as stated: `[ " ] [ 1` is an expression line whose second `[`
is a free-standing token at top level (the scan of the tokens `[ " ]` before it ends
outside any string and any list) and is never closed; `lex` fails on it, but with the
error "expected an ending quote" of the list `[ " ]`, not with "expected a close
bracket".  Likewise on `09 [ 1` the GMP constructor throws on `09` before the bracket
is reached. -/
theorem lex_unterminated_list_counterexample :
    (isLineFunctionDefinition "[ \" ] [ 1".toList = false ∧
      isLineTypeSignature "[ \" ] [ 1".toList = false ∧
      scanEnd .top ["[".toList, "\"".toList, "]".toList] = .top ∧
      neverCloses 1 ["1".toList] = true ∧
      lex true 2 Parser.new "[ \" ] [ 1".toList = .die .expectedEndingQuote) ∧
    (isLineFunctionDefinition "09 [ 1".toList = false ∧
      isLineTypeSignature "09 [ 1".toList = false ∧
      scanEnd .top ["09".toList] = .top ∧
      lex true 2 Parser.new "09 [ 1".toList = .fault .invalidArgument) := by
  refine ⟨⟨by decide, by decide, by decide, by decide, rfl⟩, by decide, by decide, by decide, rfl⟩

/-- Either a token sequence closes the bracket that is open before it, after a balanced
part, or the depth never returns to zero. -/
theorem closes_or_neverCloses : ∀ (ts : List Str) (d : Int), 0 ≤ d →
    (∃ body rest, ts = body ++ "]".toList :: rest ∧ balancedFrom d body = true) ∨
      neverCloses (d + 1) ts = true
  | [], _, _ => Or.inr rfl
  | t :: ts, d, hd => by
    by_cases h1 : t = "[".toList
    · rcases closes_or_neverCloses ts (d + 1) (by omega) with ⟨body, rest, e, hb⟩ | h
      · refine Or.inl ⟨t :: body, rest, by rw [e]; rfl, ?_⟩
        rw [balancedFrom, if_pos h1]; exact hb
      · refine Or.inr ?_
        rw [neverCloses, if_pos h1]; exact h
    · by_cases h2 : t = "]".toList
      · by_cases h0 : d = 0
        · subst h0
          exact Or.inl ⟨[], ts, by rw [h2]; rfl, rfl⟩
        · rcases closes_or_neverCloses ts (d - 1) (by omega) with ⟨body, rest, e, hb⟩ | h
          · refine Or.inl ⟨t :: body, rest, by rw [e]; rfl, ?_⟩
            rw [balancedFrom, if_neg h1, if_pos h2, hb]
            simp; omega
          · refine Or.inr ?_
            rw [neverCloses, if_neg h1, if_pos h2]
            rw [show d - 1 + 1 = d + 1 - 1 by omega] at h
            rw [h]
            simp; omega
      · rcases closes_or_neverCloses ts d hd with ⟨body, rest, e, hb⟩ | h
        · refine Or.inl ⟨t :: body, rest, by rw [e]; rfl, ?_⟩
          rw [balancedFrom, if_neg h1, if_neg h2]; exact hb
        · refine Or.inr ?_
          rw [neverCloses, if_neg h1, if_neg h2]; exact h

/-- Either a token sequence holds a `"` token, after tokens that are not, or it holds none. -/
theorem quote_or_none : ∀ (ts : List Str),
    (∃ ss rest, ts = ss ++ "\"".toList :: rest ∧ ∀ t ∈ ss, t ≠ "\"".toList) ∨
      ∀ t ∈ ts, t ≠ "\"".toList
  | [] => Or.inr (fun t ht => by simp at ht)
  | t :: ts => by
    by_cases h : t = "\"".toList
    · exact Or.inl ⟨[], ts, by rw [h]; rfl, fun t ht => by simp at ht⟩
    · rcases quote_or_none ts with ⟨ss, rest, e, hs⟩ | hn
      · refine Or.inl ⟨t :: ss, rest, by rw [e]; rfl, ?_⟩
        intro u hu
        rcases List.mem_cons.1 hu with hu | hu
        · rw [hu]; exact h
        · exact hs u hu
      · refine Or.inr ?_
        intro u hu
        rcases List.mem_cons.1 hu with hu | hu
        · rw [hu]; exact h
        · exact hn u hu

theorem squeezeFrom_inStr_close (sq : List Str → List Str) (ss rest : List Str)
    (h : ∀ t ∈ ss, t ≠ "\"".toList) (acc : List Str) :
    squeezeFrom sq (.inStr acc) (ss ++ "\"".toList :: rest) =
      ss ++ "\"".toList :: squeezeFrom sq .top rest := by
  induction ss with
  | nil => simp [squeezeFrom]
  | cons t ss ih =>
    rw [List.cons_append, squeezeFrom, if_neg (h t (by simp)),
      ih (fun u hu => h u (by simp [hu]))]
    rfl

theorem squeezeFrom_inStr_open (sq : List Str → List Str) (ss : List Str)
    (h : ∀ t ∈ ss, t ≠ "\"".toList) (acc : List Str) :
    squeezeFrom sq (.inStr acc) ss = ss := by
  induction ss with
  | nil => rfl
  | cons t ss ih =>
    rw [squeezeFrom, if_neg (h t (by simp)), ih (fun u hu => h u (by simp [hu]))]

theorem squeezeFrom_inLst_close (sq : List Str → List Str) (rest : List Str)
    (ts : List Str) :
    ∀ (d : Int) (acc : List Str), balancedFrom d ts = true → 0 ≤ d →
      squeezeFrom sq (.inLst (d + 1) acc) (ts ++ "]".toList :: rest) =
        "[".toList :: sq (acc ++ ts) ++ "]".toList :: squeezeFrom sq .top rest := by
  induction ts with
  | nil =>
    intro d acc hb _
    simp only [balancedFrom, decide_eq_true_eq] at hb
    subst hb
    rw [List.nil_append, squeezeFrom, if_neg (by decide), if_pos rfl, if_pos (by omega),
      List.append_nil]
  | cons t ts ih =>
    intro d acc hb hd
    rw [balancedFrom] at hb
    rw [List.cons_append, squeezeFrom]
    by_cases h1 : t = "[".toList
    · rw [if_pos h1] at hb
      rw [if_pos h1, ih (d + 1) (acc ++ [t]) hb (by omega)]
      simp
    · rw [if_neg h1] at hb
      rw [if_neg h1]
      by_cases h2 : t = "]".toList
      · rw [if_pos h2] at hb
        simp only [Bool.and_eq_true, decide_eq_true_eq] at hb
        rw [if_pos h2, if_neg (by omega)]
        have := ih (d - 1) (acc ++ [t]) hb.2 hb.1
        rw [show d - 1 + 1 = d + 1 - 1 by omega] at this
        rw [this]
        simp
      · rw [if_neg h2] at hb
        rw [if_neg h2, ih d (acc ++ [t]) hb hd]
        simp

theorem squeezeFrom_inLst_open (sq : List Str → List Str) (post : List Str) :
    ∀ (d : Int) (acc : List Str), 1 ≤ d → neverCloses d post = true →
      squeezeFrom sq (.inLst d acc) post = "[".toList :: sq (acc ++ post) := by
  induction post with
  | nil => intro d acc _ _; rw [squeezeFrom, List.append_nil]
  | cons t ts ih =>
    intro d acc hd h
    rw [neverCloses] at h
    rw [squeezeFrom]
    by_cases h1 : t = "[".toList
    · rw [if_pos h1] at h ⊢
      rw [ih _ _ (by omega) h]
      simp
    · rw [if_neg h1] at h ⊢
      by_cases h2 : t = "]".toList
      · rw [if_pos h2] at h ⊢
        simp only [Bool.and_eq_true, decide_eq_true_eq] at h
        rw [if_neg (by omega), ih _ _ (by omega) h.2]
        simp
      · rw [if_neg h2] at h ⊢
        rw [ih _ _ hd h]
        simp

theorem squeezeFrom_all (P : Str → Prop) (sq : List Str → List Str)
    (hsq : ∀ acc, (∀ t ∈ acc, P t) → ∀ t ∈ sq acc, P t) (hb : P "[".toList)
    (ts : List Str) :
    ∀ m : ScanMode, (∀ t ∈ m.acc, P t) → (∀ t ∈ ts, P t) →
      ∀ t ∈ squeezeFrom sq m ts, P t := by
  induction ts with
  | nil =>
    intro m hacc _ t ht
    cases m with
    | top => simp [squeezeFrom] at ht
    | inStr acc => simp [squeezeFrom] at ht
    | inLst d acc =>
      rw [squeezeFrom] at ht
      rcases List.mem_cons.1 ht with h | h
      · rw [h]; exact hb
      · exact hsq acc hacc t h
  | cons u ts ih =>
    intro m hacc hts t ht
    have hu : P u := hts u (by simp)
    have hts' : ∀ x ∈ ts, P x := fun x hx => hts x (List.mem_cons_of_mem _ hx)
    have hacc' : ∀ (acc : List Str), (∀ x ∈ acc, P x) → ∀ x ∈ acc ++ [u], P x := by
      intro acc h x hx
      rcases List.mem_append.1 hx with h' | h'
      · exact h x h'
      · rw [List.mem_singleton.1 h']; exact hu
    cases m with
    | top =>
      rw [squeezeFrom] at ht
      split_ifs at ht
      · exact ih .top (by simp [ScanMode.acc]) hts' t ht
      · exact ih (.inLst 1 []) (by simp [ScanMode.acc]) hts' t ht
      · rcases List.mem_cons.1 ht with h | h
        · rw [h]; exact hu
        · exact ih (.inStr []) (by simp [ScanMode.acc]) hts' t h
      · rcases List.mem_cons.1 ht with h | h
        · rw [h]; exact hu
        · exact ih .top (by simp [ScanMode.acc]) hts' t h
    | inStr acc =>
      rw [squeezeFrom] at ht
      split_ifs at ht
      · rcases List.mem_cons.1 ht with h | h
        · rw [h]; exact hu
        · exact ih .top (by simp [ScanMode.acc]) hts' t h
      · rcases List.mem_cons.1 ht with h | h
        · rw [h]; exact hu
        · exact ih (.inStr acc) hacc hts' t h
    | inLst d acc =>
      have hacc0 : ∀ x ∈ acc, P x := hacc
      rw [squeezeFrom] at ht
      split_ifs at ht
      · exact ih (.inLst (d + 1) (acc ++ [u])) (hacc' acc hacc0) hts' t ht
      · rcases List.mem_cons.1 ht with h | h
        · rw [h]; exact hb
        · rcases List.mem_append.1 h with h | h
          · exact hsq acc hacc0 t h
          · rcases List.mem_cons.1 h with h | h
            · rw [h]; exact hu
            · exact ih .top (by simp [ScanMode.acc]) hts' t h
      · exact ih (.inLst (d - 1) (acc ++ [u])) (hacc' acc hacc0) hts' t ht
      · exact ih (.inLst d (acc ++ [u])) (hacc' acc hacc0) hts' t ht

theorem squeezeOutside_all (P : Str → Prop) (hb : P "[".toList) :
    ∀ (n : Nat) (ts : List Str), (∀ t ∈ ts, P t) → ∀ t ∈ squeezeOutside n ts, P t
  | 0, _, h => h
  | n + 1, ts, h =>
    squeezeFrom_all P (squeezeOutside n) (fun acc hacc => squeezeOutside_all P hb n acc hacc) hb
      ts .top (by simp [ScanMode.acc]) h

theorem squeeze_squeezeFrom (sq : List Str → List Str)
    (hsq : ∀ acc, squeeze (sq acc) = squeeze acc) (ts : List Str) :
    squeeze (squeezeFrom sq .top ts) = squeeze ts ∧
    (∀ acc, squeeze (squeezeFrom sq (.inStr acc) ts) = squeeze ts) ∧
    (∀ d acc, squeeze (squeezeFrom sq (.inLst d acc) ts) =
      squeeze ("[".toList :: (acc ++ ts))) := by
  induction ts with
  | nil =>
    refine ⟨rfl, fun _ => rfl, fun d acc => ?_⟩
    have hb : "[".toList ≠ ([] : Str) := by decide
    rw [squeezeFrom, List.append_nil, squeeze_cons_of_ne hb, squeeze_cons_of_ne hb, hsq]
  | cons t ts ih =>
    obtain ⟨ih1, ih2, ih3⟩ := ih
    refine ⟨?_, ?_, ?_⟩
    · rw [squeezeFrom]
      split_ifs with h0 h1 h2
      · rw [ih1, h0, squeeze_cons_nil]
      · rw [ih3, h1]; rfl
      · rw [squeeze_cons_of_ne h0, squeeze_cons_of_ne h0, ih2]
      · rw [squeeze_cons_of_ne h0, squeeze_cons_of_ne h0, ih1]
    · intro acc
      rw [squeezeFrom]
      by_cases h0 : t = []
      · subst h0
        rw [if_neg (by decide), squeeze_cons_nil, squeeze_cons_nil, ih2]
      · split_ifs
        · rw [squeeze_cons_of_ne h0, squeeze_cons_of_ne h0, ih1]
        · rw [squeeze_cons_of_ne h0, squeeze_cons_of_ne h0, ih2]
    · intro d acc
      have hb : "[".toList ≠ ([] : Str) := by decide
      rw [squeezeFrom]
      split_ifs with h1 h2 h3
      · rw [ih3]; simp
      · have ht : t ≠ [] := by rw [h2]; decide
        rw [show "[".toList :: sq acc ++ t :: squeezeFrom sq .top ts =
            "[".toList :: (sq acc ++ t :: squeezeFrom sq .top ts) from rfl,
          squeeze_cons_of_ne hb, squeeze_append, hsq, squeeze_cons_of_ne ht, ih1,
          squeeze_cons_of_ne hb, squeeze_append, squeeze_cons_of_ne ht]
      · rw [ih3]; simp
      · rw [ih3]; simp

theorem squeeze_squeezeOutside : ∀ (n : Nat) (ts : List Str),
    squeeze (squeezeOutside n ts) = squeeze ts
  | 0, _ => rfl
  | n + 1, ts => (squeeze_squeezeFrom (squeezeOutside n) (squeeze_squeezeOutside n) ts).1

theorem balancedFrom_squeeze : ∀ (ts : List Str) (d : Int),
    balancedFrom d (squeeze ts) = balancedFrom d ts
  | [], _ => rfl
  | t :: ts, d => by
    by_cases h0 : t = []
    · subst h0
      rw [squeeze_cons_nil, balancedFrom_squeeze ts d, balancedFrom, if_neg (by decide),
        if_neg (by decide)]
    · rw [squeeze_cons_of_ne h0, balancedFrom, balancedFrom]
      split_ifs <;> rw [balancedFrom_squeeze ts]

theorem balancedFrom_squeezeOutside (n : Nat) (ts : List Str) (d : Int) :
    balancedFrom d (squeezeOutside n ts) = balancedFrom d ts := by
  rw [← balancedFrom_squeeze, squeeze_squeezeOutside, balancedFrom_squeeze]

theorem neverCloses_squeeze : ∀ (ts : List Str) (d : Int),
    neverCloses d (squeeze ts) = neverCloses d ts
  | [], _ => rfl
  | t :: ts, d => by
    by_cases h0 : t = []
    · subst h0
      rw [squeeze_cons_nil, neverCloses_squeeze ts d, neverCloses, if_neg (by decide),
        if_neg (by decide)]
    · rw [squeeze_cons_of_ne h0, neverCloses, neverCloses]
      split_ifs <;> rw [neverCloses_squeeze ts]

theorem neverCloses_squeezeOutside (n : Nat) (ts : List Str) (d : Int) :
    neverCloses d (squeezeOutside n ts) = neverCloses d ts := by
  rw [← neverCloses_squeeze, squeeze_squeezeOutside, neverCloses_squeeze]

theorem lineLoop_cons (OPT : Bool) (rec : LexCall) (fuel : Nat) (wi : Bool) (l : Str)
    (ls : List Str) (p : Parser) (out : List CharmFunction) :
    lineLoop OPT rec fuel wi (l :: ls) p out =
      (lineLoop OPT rec fuel wi [l] p out).bind fun r => lineLoop OPT rec fuel wi ls r.2 r.1 := by
  rw [lineLoop, lineLoop]
  by_cases hd : isLineFunctionDefinition l = true
  · rw [if_pos hd, if_pos hd]
    cases parseDefinition rec p l with
    | ok r => simp only [Outcome.bind_ok, lineLoop]
    | _ => rfl
  · rw [if_neg hd, if_neg hd]
    by_cases hs : isLineTypeSignature l = true
    · rw [if_pos hs, if_pos hs]
      cases parseTypeSignature fuel l with
      | ok r => simp only [Outcome.bind_ok, lineLoop]
      | _ => rfl
    · rw [if_neg hs, if_neg hs]
      cases tokenLoop OPT rec wi (l.length + 1) p out [] l with
      | ok r => simp only [Outcome.bind_ok, lineLoop]
      | _ => rfl

theorem lineLoop_empty_line (OPT : Bool) (rec : LexCall) (fuel : Nat) (wi : Bool)
    (ls : List Str) (p : Parser) (out : List CharmFunction) :
    lineLoop OPT rec fuel wi ([] :: ls) p out = lineLoop OPT rec fuel wi ls p out := by
  rw [lineLoop, if_neg (by decide), if_neg (by decide)]
  rfl

theorem lineLoop_joinLines (OPT : Bool) (rec : LexCall) (fuel : Nat) (wi : Bool) :
    ∀ (ls : List Str), (∀ l ∈ ls, '\n' ∉ l) → ∀ (p : Parser) (out : List CharmFunction),
      lineLoop OPT rec fuel wi (getlineAll '\n' (joinLines ls)) p out =
        lineLoop OPT rec fuel wi ls p out
  | [], _, _, _ => rfl
  | [l], h, p, out => by
    rw [joinLines, getlineAll_line (h l (by simp))]
    by_cases hl : l = []
    · rw [if_pos hl, hl, lineLoop_empty_line]
    · rw [if_neg hl]
  | l :: l' :: ls, h, p, out => by
    rw [joinLines, getlineAll_append (h l (by simp)), lineLoop_cons,
      lineLoop_cons OPT rec fuel wi l (l' :: ls)]
    congr 1
    funext r
    exact lineLoop_joinLines OPT rec fuel wi (l' :: ls) (fun x hx => h x (by simp [hx])) r.2 r.1

theorem lexItems_out (OPT : Bool) (rec : LexCall) (wi : Bool) :
    ∀ (is : List Item) (p : Parser) (out : List CharmFunction),
      lexItems OPT rec wi is p out =
        (lexItems OPT rec wi is p []).bind fun r => .ok (out ++ r.1, r.2) := by
  intro is
  induction is with
  | nil => intro p out; simp [lexItems, Outcome.bind_ok]
  | cons i is ih =>
    intro p out
    cases i with
    | plain t =>
      rw [lexItems, lexItems]
      cases plainEmit OPT wi p t with
      | ok nodes =>
        rw [Outcome.bind_ok, Outcome.bind_ok, ih p (out ++ nodes), ih p ([] ++ nodes),
          Outcome.bind_assoc]
        simp [Outcome.bind_ok, List.append_assoc]
      | _ => rfl
    | assign =>
      rw [lexItems, lexItems, ih p (out ++ _), ih p ([] ++ _), Outcome.bind_assoc]
      simp [Outcome.bind_ok, List.append_assoc]
    | str ss =>
      rw [lexItems, lexItems]
      cases escapeAll ss with
      | ok es =>
        rw [Outcome.bind_ok, Outcome.bind_ok, ih p (out ++ _), ih p ([] ++ _),
          Outcome.bind_assoc]
        simp [Outcome.bind_ok, List.append_assoc]
      | _ => rfl
    | openStr ss =>
      rw [lexItems, lexItems]
      cases escapeAll ss <;> rfl
    | lst body =>
      rw [lexItems, lexItems]
      cases rec p (spaced body) false with
      | ok r =>
        simp only [Outcome.bind_ok]
        rw [ih r.2 (out ++ _), ih r.2 ([] ++ _), Outcome.bind_assoc]
        simp [Outcome.bind_ok, List.append_assoc]
      | _ => rfl
    | openLst => rfl

/-- What one line appends: the nodes of a line are appended to the nodes of the lines
before it. -/
theorem lineLoop_out (OPT : Bool) (rec : LexCall) (fuel : Nat) (wi : Bool) (ts : List Str)
    (hts : ∀ t ∈ ts, ' ' ∉ t) (p : Parser) (out : List CharmFunction) :
    lineLoop OPT rec fuel wi [joinSpaces ts] p out =
      (lineLoop OPT rec fuel wi [joinSpaces ts] p []).bind fun r => .ok (out ++ r.1, r.2) := by
  rw [lineLoop, lineLoop]
  by_cases hd : isLineFunctionDefinition (joinSpaces ts) = true
  · rw [if_pos hd, if_pos hd]
    cases parseDefinition rec p (joinSpaces ts) with
    | ok r => simp [Outcome.bind_ok, lineLoop]
    | _ => rfl
  · rw [if_neg hd, if_neg hd]
    by_cases hs : isLineTypeSignature (joinSpaces ts) = true
    · rw [if_pos hs, if_pos hs]
      cases parseTypeSignature fuel (joinSpaces ts) with
      | ok r => simp [Outcome.bind_ok, lineLoop]
      | _ => rfl
    · rw [if_neg hs, if_neg hs,
        (loops_eq_lexItems OPT rec wi ts hts).1 _ p out [] (Nat.lt_succ_self _),
        (loops_eq_lexItems OPT rec wi ts hts).1 _ p [] [] (Nat.lt_succ_self _),
        lexItems_out OPT rec wi _ p out]
      cases lexItems OPT rec wi (itemizeFrom .top ts) p [] with
      | ok r => simp [Outcome.bind_ok, lineLoop]
      | _ => rfl

theorem lex_single_line (OPT : Bool) (fuel : Nat) (p : Parser) {l : Str} (h : '\n' ∉ l) :
    lex OPT (fuel + 1) p l =
      lineLoop OPT (lexAskToInline OPT fuel) (fuel + 1) true [l] p [] := by
  unfold lex
  rw [lexAskToInline, getlineAll_line h]
  by_cases hl : l = []
  · rw [if_pos hl, hl, lineLoop_empty_line]
  · rw [if_neg hl]

/-- An input of several lines is lexed line by line: when each line of one input lexes
like the line at the same place in another input, in every parser state, the two inputs
lex alike. -/
theorem lex_lines_congr (OPT : Bool) (fuel : Nat) (ls ls' : List (List Str))
    (h1 : ∀ ts ∈ ls, ∀ t ∈ ts, ' ' ∉ t ∧ '\n' ∉ t)
    (h2 : ∀ ts ∈ ls', ∀ t ∈ ts, ' ' ∉ t ∧ '\n' ∉ t)
    (h : List.Forall₂ (fun ts ts' =>
      ∀ q, lex OPT fuel q (joinSpaces ts) = lex OPT fuel q (joinSpaces ts')) ls ls')
    (p : Parser) :
    lex OPT fuel p (joinLines (ls.map joinSpaces)) =
      lex OPT fuel p (joinLines (ls'.map joinSpaces)) := by
  cases fuel with
  | zero => rfl
  | succ fuel =>
    have hnl : ∀ (xs : List (List Str)), (∀ ts ∈ xs, ∀ t ∈ ts, ' ' ∉ t ∧ '\n' ∉ t) →
        ∀ l ∈ xs.map joinSpaces, '\n' ∉ l := by
      intro xs hxs l hl
      obtain ⟨ts, hts, rfl⟩ := List.mem_map.1 hl
      exact not_mem_joinSpaces (by decide) (fun t ht => (hxs ts hts t ht).2)
    unfold lex
    rw [lexAskToInline, lexAskToInline, lineLoop_joinLines OPT _ _ _ _ (hnl ls h1),
      lineLoop_joinLines OPT _ _ _ _ (hnl ls' h2)]
    clear hnl
    generalize ([] : List CharmFunction) = out
    induction h generalizing p out with
    | nil => rfl
    | @cons ts ts' ls ls' he _ ih =>
      have e := he p
      have t1 := h1 ts (by simp)
      have t2 := h2 ts' (by simp)
      rw [lex_single_line OPT fuel p
          (not_mem_joinSpaces (by decide) (fun t ht => (t1 t ht).2)),
        lex_single_line OPT fuel p
          (not_mem_joinSpaces (by decide) (fun t ht => (t2 t ht).2))] at e
      rw [List.map_cons, List.map_cons, lineLoop_cons,
        lineLoop_cons OPT _ _ _ (joinSpaces ts'),
        lineLoop_out OPT _ _ _ ts (fun t ht => (t1 t ht).1),
        lineLoop_out OPT _ _ _ ts' (fun t ht => (t2 t ht).1), e]
      congr 1
      funext r
      exact ih (fun x hx => h1 x (by simp [hx])) (fun x hx => h2 x (by simp [hx])) r.2 r.1

theorem scanState_single (t : Str) (s : Int × Bool) (ts : List Str) :
    scanState (t :: ts) s = scanState ts (scanState [t] s) := rfl

theorem topSeparator_iff (sep : Str) (ts : List Str) :
    ∀ s, topSeparator sep s ts = true ↔
      ∃ pre post, ts = pre ++ sep :: post ∧ scanState pre s = (0, false) := by
  induction ts with
  | nil =>
    intro s
    simp [topSeparator]
  | cons t ts ih =>
    intro s
    rw [topSeparator, Bool.or_eq_true, Bool.and_eq_true, decide_eq_true_eq, decide_eq_true_eq,
      ih]
    constructor
    · rintro (⟨h1, h2⟩ | ⟨pre, post, e, h⟩)
      · exact ⟨[], ts, by rw [h1]; rfl, h2⟩
      · exact ⟨t :: pre, post, by rw [e]; rfl, by rw [scanState_single]; exact h⟩
    · rintro ⟨pre, post, e, h⟩
      cases pre with
      | nil =>
        injection e with e1 e2
        exact Or.inl ⟨e1, h⟩
      | cons u pre =>
        injection e with e1 e2
        subst e1
        exact Or.inr ⟨pre, post, e2, by rw [scanState_single] at h; exact h⟩

theorem topSeparator_squeeze (sep : Str) (hsep : sep ≠ []) :
    ∀ (ts : List Str) (s : Int × Bool),
      topSeparator sep s (squeeze ts) = topSeparator sep s ts
  | [], _ => rfl
  | t :: ts, s => by
    by_cases h0 : t = []
    · subst h0
      rw [squeeze_cons_nil, topSeparator_squeeze sep hsep ts s, topSeparator,
        decide_eq_false (fun e => hsep e.symm), Bool.false_and, Bool.false_or]
      rfl
    · rw [squeeze_cons_of_ne h0, topSeparator, topSeparator,
        topSeparator_squeeze sep hsep ts]

theorem isLineFunctionDefinition_top {ts : List Str} (h : ∀ t ∈ ts, ' ' ∉ t) :
    isLineFunctionDefinition (joinSpaces ts) = topSeparator ":=".toList (0, false) ts := by
  by_cases hne : ts = []
  · subst hne; rfl
  · rw [Bool.eq_iff_iff, isLineFunctionDefinition_scan, splitSpaces_joinSpaces hne h,
      topSeparator_iff]

theorem isLineTypeSignature_top {ts : List Str} (h : ∀ t ∈ ts, ' ' ∉ t) :
    isLineTypeSignature (joinSpaces ts) = topSeparator "::".toList (0, false) ts := by
  by_cases hne : ts = []
  · subst hne; rfl
  · rw [Bool.eq_iff_iff, isLineTypeSignature_scan, splitSpaces_joinSpaces hne h,
      topSeparator_iff]

theorem mem_of_topSeparator {sep : Str} {ts : List Str} {s : Int × Bool}
    (h : topSeparator sep s ts = true) : sep ∈ ts := by
  obtain ⟨pre, post, e, _⟩ := (topSeparator_iff sep ts s).1 h
  rw [e]; simp

theorem split_at_separator (sep : Str) :
    ∀ (ts : List Str), sep ∈ ts →
      ts = beforeSeparator sep ts ++ sep :: afterSeparator sep ts
  | [], h => by simp at h
  | t :: ts, h => by
    rw [beforeSeparator, afterSeparator]
    by_cases e : t = sep
    · rw [if_pos e, if_pos e, e]; rfl
    · rw [if_neg e, if_neg e]
      have : sep ∈ ts := by
        rcases List.mem_cons.1 h with h' | h'
        · exact absurd h'.symm e
        · exact h'
      rw [List.cons_append, ← split_at_separator sep ts this]

theorem oneName_iff (pre : List Str) :
    oneName pre = true ↔ ∃ name, squeeze pre = [name] ∧ NameToken name := by
  unfold oneName
  constructor
  · intro h
    split at h
    · next name e => exact ⟨name, e, of_decide_eq_true h⟩
    · cases h
  · rintro ⟨name, e, hn⟩
    rw [e]
    exact decide_eq_true hn

theorem all_empty_of_squeeze {e : List Str} (h : squeeze e = []) : ∀ t ∈ e, t = [] := by
  intro t ht
  by_contra h0
  have : t ∈ squeeze e := by simp [squeeze, ht, h0]
  rw [h] at this
  simp at this

theorem itemizeFrom_empties {e : List Str} (h : squeeze e = []) (ts : List Str) :
    itemizeFrom .top (e ++ ts) = itemizeFrom .top ts := by
  induction e with
  | nil => rfl
  | cons t e ih =>
    have ht : t = [] := all_empty_of_squeeze h t (by simp)
    subst ht
    rw [squeeze_cons_nil] at h
    rw [List.cons_append, itemizeFrom, if_pos rfl, ih h]

theorem squeezeFrom_empties (sq : List Str → List Str) {e : List Str} (h : squeeze e = [])
    (ts : List Str) :
    squeezeFrom sq .top (e ++ ts) = squeezeFrom sq .top ts := by
  induction e with
  | nil => rfl
  | cons t e ih =>
    have ht : t = [] := all_empty_of_squeeze h t (by simp)
    subst ht
    rw [squeeze_cons_nil] at h
    rw [List.cons_append, squeezeFrom, if_pos rfl, ih h]

/-- The tokens of a line `name sep rest`, the name being one token, with the empty tokens
outside string literals removed: the name, the separator, and the tokens of the rest. -/
theorem squeezeFrom_name (sq : List Str → List Str) {name sep : Str} (hname : NameToken name)
    (hsep : sep = ":=".toList ∨ sep = "::".toList) :
    ∀ (pre rest : List Str), squeeze pre = [name] →
      squeezeFrom sq .top (pre ++ sep :: rest) = name :: sep :: squeezeFrom sq .top rest
  | [], _, h => by cases h
  | t :: pre, rest, h => by
    by_cases h0 : t = []
    · subst h0
      rw [squeeze_cons_nil] at h
      rw [List.cons_append, squeezeFrom, if_pos rfl, squeezeFrom_name sq hname hsep pre rest h]
    · rw [squeeze_cons_of_ne h0] at h
      injection h with h1 h2
      subst h1
      obtain ⟨_, ⟨hn3, _, hn5⟩, _, _⟩ := hname
      have hs0 : sep ≠ [] := by rcases hsep with e | e <;> rw [e] <;> decide
      have hs1 : sep ≠ "[".toList := by rcases hsep with e | e <;> rw [e] <;> decide
      have hs2 : sep ≠ "\"".toList := by rcases hsep with e | e <;> rw [e] <;> decide
      rw [List.cons_append, squeezeFrom, if_neg h0, if_neg hn3, if_neg hn5,
        squeezeFrom_empties sq h2, squeezeFrom, if_neg hs0, if_neg hs1, if_neg hs2]

/-- Lexing the items of a token sequence is not changed when the empty tokens outside
string literals are removed, if the nested call on the interior of each closed list
literal is not changed when the interior is rewritten by `sq`. -/
theorem lexItems_squeezeOutside (OPT : Bool) (rec : LexCall) (wi : Bool)
    (sq : List Str → List Str) (R : List Str → Prop)
    (hbal : ∀ acc, balancedFrom 0 acc = true → balancedFrom 0 (sq acc) = true)
    (hopen' : ∀ acc, neverCloses 1 acc = true → neverCloses 1 (sq acc) = true)
    (hrec : ∀ (p : Parser) (acc : List Str), (∀ t ∈ acc, ' ' ∉ t ∧ '\n' ∉ t) → R acc →
      rec p (spaced acc) false = rec p (spaced (sq acc)) false) :
    ∀ (k : Nat) (ts : List Str), ts.length ≤ k → (∀ t ∈ ts, ' ' ∉ t ∧ '\n' ∉ t) →
      (∀ body, Item.lst body ∈ itemizeFrom .top ts → R body) →
      ∀ (p : Parser) (out : List CharmFunction),
        lexItems OPT rec wi (itemizeFrom .top ts) p out =
          lexItems OPT rec wi (itemizeFrom .top (squeezeFrom sq .top ts)) p out := by
  intro k
  induction k with
  | zero =>
    intro ts hk _ _ p out
    have : ts = [] := List.eq_nil_of_length_eq_zero (by omega)
    subst this
    rfl
  | succ k ih =>
    intro ts hk htok hint p out
    cases ts with
    | nil => rfl
    | cons t ts =>
      have hk' : ts.length ≤ k := by simp at hk; omega
      have htok' : ∀ u ∈ ts, ' ' ∉ u ∧ '\n' ∉ u := fun u hu => htok u (List.mem_cons_of_mem _ hu)
      by_cases h0 : t = []
      · rw [itemizeFrom, if_pos h0] at hint
        rw [itemizeFrom, if_pos h0, squeezeFrom, if_pos h0]
        exact ih ts hk' htok' hint p out
      · rw [itemizeFrom, if_neg h0] at hint
        rw [itemizeFrom, if_neg h0, squeezeFrom, if_neg h0]
        by_cases h1 : t = "[".toList
        · rw [if_pos h1] at hint
          rw [if_pos h1, if_pos h1]
          rcases closes_or_neverCloses ts 0 (le_refl _) with ⟨body, rest, e, hb⟩ | hopen
          · have hlen : rest.length ≤ k := by
              have := congrArg List.length e
              simp at this
              omega
            have hbtok : ∀ u ∈ body, ' ' ∉ u ∧ '\n' ∉ u :=
              fun u hu => htok' u (by rw [e]; simp [hu])
            have hrtok : ∀ u ∈ rest, ' ' ∉ u ∧ '\n' ∉ u :=
              fun u hu => htok' u (by rw [e]; simp [hu])
            rw [e, show (1 : Int) = 0 + 1 from rfl,
              itemizeFrom_inLst_close rest body 0 [] hb (le_refl _), List.nil_append] at hint
            rw [e, show (1 : Int) = 0 + 1 from rfl,
              itemizeFrom_inLst_close rest body 0 [] hb (le_refl _),
              squeezeFrom_inLst_close sq rest body 0 [] hb (le_refl _), List.nil_append,
              show "[".toList :: sq body ++ "]".toList :: squeezeFrom sq .top rest =
                "[".toList :: (sq body ++ "]".toList :: squeezeFrom sq .top rest) from rfl,
              itemizeFrom, if_neg (by decide), if_pos rfl, show (1 : Int) = 0 + 1 from rfl,
              itemizeFrom_inLst_close (squeezeFrom sq .top rest) (sq body) 0 [] (hbal body hb)
                (le_refl _), List.nil_append, lexItems, lexItems,
              ← hrec p body hbtok (hint body (List.mem_cons_self _ _))]
            cases rec p (spaced body) false with
            | ok r =>
              simp only [Outcome.bind_ok]
              exact ih rest hlen hrtok (fun b hb' => hint b (List.mem_cons_of_mem _ hb')) r.2 _
            | _ => rfl
          · rw [itemizeFrom_inLst_open ts 1 [] (le_refl _) hopen,
              squeezeFrom_inLst_open sq ts 1 [] (le_refl _) hopen, List.nil_append, itemizeFrom,
              if_neg (by decide), if_pos rfl,
              itemizeFrom_inLst_open (sq ts) 1 [] (le_refl _) (hopen' ts hopen)]
        · rw [if_neg h1] at hint
          rw [if_neg h1, if_neg h1]
          by_cases h2 : t = "\"".toList
          · rw [if_pos h2] at hint
            rw [if_pos h2, if_pos h2]
            rcases quote_or_none ts with ⟨ss, rest, e, hs⟩ | hnone
            · have hlen : rest.length ≤ k := by
                have := congrArg List.length e
                simp at this
                omega
              have hrtok : ∀ u ∈ rest, ' ' ∉ u ∧ '\n' ∉ u :=
                fun u hu => htok' u (by rw [e]; simp [hu])
              rw [e, itemizeFrom_inStr_close ss rest hs []] at hint
              rw [e, itemizeFrom_inStr_close ss rest hs [],
                squeezeFrom_inStr_close sq ss rest hs [], h2, itemizeFrom, if_neg (by decide),
                if_neg (by decide), if_pos rfl, itemizeFrom_inStr_close ss _ hs [], lexItems,
                lexItems]
              cases escapeAll ([] ++ ss) with
              | ok es =>
                simp only [Outcome.bind_ok]
                exact ih rest hlen hrtok (fun b hb' => hint b (List.mem_cons_of_mem _ hb')) p _
              | _ => rfl
            · rw [itemizeFrom_inStr_open ts hnone [], squeezeFrom_inStr_open sq ts hnone [], h2,
                itemizeFrom, if_neg (by decide), if_neg (by decide), if_pos rfl,
                itemizeFrom_inStr_open ts hnone []]
          · rw [if_neg h2] at hint
            rw [if_neg h2, if_neg h2, itemizeFrom, if_neg h0, if_neg h1, if_neg h2]
            by_cases h3 : t = ":=".toList
            · rw [if_pos h3] at hint
              rw [if_pos h3, if_pos h3, lexItems, lexItems]
              exact ih ts hk' htok' (fun b hb' => hint b (List.mem_cons_of_mem _ hb')) p _
            · rw [if_neg h3] at hint
              rw [if_neg h3, if_neg h3, lexItems, lexItems]
              cases plainEmit OPT wi p t with
              | ok nodes =>
                simp only [Outcome.bind_ok]
                exact ih ts hk' htok' (fun b hb' => hint b (List.mem_cons_of_mem _ hb')) p _
              | _ => rfl

/-- A line that is neither a definition line nor a signature line is lexed item by
item. -/
theorem lexAskToInline_expressionLine (OPT : Bool) (fuel : Nat) (p : Parser) (ts : List Str)
    (wi : Bool) (htok : ∀ t ∈ ts, ' ' ∉ t ∧ '\n' ∉ t)
    (hd : isLineFunctionDefinition (joinSpaces ts) = false)
    (hs : isLineTypeSignature (joinSpaces ts) = false) :
    lexAskToInline OPT (fuel + 1) p (joinSpaces ts) wi =
      lexItems OPT (lexAskToInline OPT fuel) wi (itemize ts) p [] := by
  rw [lexAskToInline_line OPT fuel p ts wi htok]
  by_cases hl : joinSpaces ts = []
  · rw [if_pos hl, itemize_of_joinSpaces_nil hl]
    rfl
  · rw [if_neg hl, hd, hs]
    rfl

/-- A definition line whose name is one token: the node is named by that token, whatever
the spaces around it, and its body is what lexing the text after `:=` gives. -/
theorem lexAskToInline_definitionLine (OPT : Bool) (fuel : Nat) (p : Parser) (name : Str)
    (pre body : List Str) (wi : Bool) (hname : NameToken name) (hpre : squeeze pre = [name])
    (hbody : ∀ t ∈ body, ' ' ∉ t ∧ '\n' ∉ t) :
    lexAskToInline OPT (fuel + 1) p (joinSpaces (pre ++ ":=".toList :: body)) wi =
      (lexAskToInline OPT fuel p (joinSpaces ([] :: body)) true).bind fun r =>
        .ok ([.functionDefinition (ltrim (rtrim name)) r.1
            (analyzeDefinition r.2.fA (ltrim (rtrim name)) r.1).1],
          definedState r.2 (ltrim (rtrim name)) r.1) := by
  obtain ⟨⟨hn1, hn2⟩, ⟨hn3, hn4, hn5⟩, hn6, _⟩ := hname
  have hmem := mem_of_squeeze_singleton hpre
  have hpretok : ∀ t ∈ pre, ' ' ∉ t ∧ '\n' ∉ t := by
    intro t ht
    rcases hmem t ht with h | h <;> subst h
    · simp
    · exact ⟨hn1, hn2⟩
  have htok : ∀ t ∈ pre ++ ":=".toList :: body, ' ' ∉ t ∧ '\n' ∉ t := by
    intro t ht
    rcases List.mem_append.1 ht with h | h
    · exact hpretok t h
    · rcases List.mem_cons.1 h with h | h
      · subst h; decide
      · exact hbody t h
  have hsplit := parseDefinition_at_separator (lexAskToInline OPT fuel) p pre body
    (by
      intro t ht
      rcases List.mem_append.1 ht with h | h
      · exact (hpretok t h).1
      · exact (hbody t h).1)
    (scanState_of_plain pre (by
      intro t ht
      rcases hmem t ht with h | h <;> subst h
      · decide
      · exact ⟨hn3, hn4, hn5⟩) _)
    (by
      intro t ht
      rcases hmem t ht with h | h <;> subst h
      · decide
      · exact hn6)
  have hne : joinSpaces (pre ++ ":=".toList :: body) ≠ [] :=
    joinSpaces_ne_nil_of_mem (t := ":=".toList) (by simp) (by decide)
  rw [lexAskToInline_line OPT fuel p _ wi htok, if_neg hne, if_pos hsplit.1, hsplit.2,
    trim_joinSpaces_of_squeeze pre name hpre]
  cases lexAskToInline OPT fuel p (joinSpaces ([] :: body)) true with
  | ok r => rfl
  | _ => rfl

/-- A signature line whose name is one token, with any runs of spaces between its tokens,
lexes as the line in which every run is a single space. -/
theorem lexAskToInline_signatureLine (OPT : Bool) (fuel : Nat) (p : Parser) (name : Str)
    (pre ts : List Str) (wi : Bool) (hname : NameToken name) (hpre : squeeze pre = [name])
    (hts : ∀ t ∈ ts, ' ' ∉ t ∧ '\n' ∉ t)
    (hd : isLineFunctionDefinition (joinSpaces (pre ++ "::".toList :: ts)) = false) :
    lexAskToInline OPT (fuel + 1) p (joinSpaces (pre ++ "::".toList :: ts)) wi =
      (parseTypeSignature (fuel + 1) (joinSpaces (name :: "::".toList :: squeeze ts))).bind
        fun typeSignature => .ok ([], { p with fA := p.fA.addTypeSignature typeSignature }) := by
  have hname' := hname
  obtain ⟨⟨hn1, hn2⟩, ⟨hn3, hn4, hn5⟩, hn6, hn7⟩ := hname'
  have hmem := mem_of_squeeze_singleton hpre
  have hpretok : ∀ t ∈ pre, ' ' ∉ t ∧ '\n' ∉ t := by
    intro t ht
    rcases hmem t ht with h | h <;> subst h
    · exact ⟨by simp, by simp⟩
    · exact ⟨hn1, hn2⟩
  have htok : ∀ t ∈ pre ++ "::".toList :: ts, ' ' ∉ t ∧ '\n' ∉ t := by
    intro t ht
    rcases List.mem_append.1 ht with h | h
    · exact hpretok t h
    · rcases List.mem_cons.1 h with h | h
      · subst h; decide
      · exact hts t h
  have hs : isLineTypeSignature (joinSpaces (pre ++ "::".toList :: ts)) = true := by
    rw [isLineTypeSignature_scan]
    refine ⟨pre, ts, splitSpaces_joinSpaces (by simp) (fun t ht => (htok t ht).1), ?_⟩
    apply scanState_of_plain
    intro t ht
    rcases hmem t ht with h | h <;> subst h
    · decide
    · exact ⟨hn3, hn4, hn5⟩
  have hne : joinSpaces (pre ++ "::".toList :: ts) ≠ [] :=
    joinSpaces_ne_nil_of_mem (t := "::".toList) (by simp) (by decide)
  rw [lexAskToInline_line OPT fuel p _ wi htok, if_neg hne, hd,
    if_pos hs, parseTypeSignature_squeeze (fuel + 1) name pre ts hname hpre
      (fun t ht => (hts t ht).1)]
  simp

/-- On a line in which every definition and every signature has a name of one token,
lexing is not changed when the empty tokens outside string literals are removed, in the
line and in the interiors of its list literals, down to any number of levels: every run
of spaces outside a string literal may be replaced by a single space, and spaces may be
added or removed at the start of the line. -/
theorem lexAskToInline_singleNames (OPT : Bool) :
    ∀ (fuel k n : Nat) (p : Parser) (ts e e' : List Str) (wi : Bool),
      (∀ t ∈ ts, ' ' ∉ t ∧ '\n' ∉ t) → squeeze e = [] → squeeze e' = [] →
      singleNames k ts = true →
      lexAskToInline OPT fuel p (joinSpaces (e ++ ts)) wi =
        lexAskToInline OPT fuel p (joinSpaces (e' ++ squeezeOutside (n + 1) ts)) wi := by
  intro fuel
  induction fuel with
  | zero => intro k n p ts e e' wi _ _ _ _; rfl
  | succ fuel ih =>
    intro k n p ts e e' wi htok he he' hreg
    cases k with
    | zero => rw [singleNames] at hreg; cases hreg
    | succ k =>
      have hfree : (' ' ∉ "[".toList ∧ '\n' ∉ "[".toList) := ⟨by decide, by decide⟩
      have hempty : ∀ {x : List Str}, squeeze x = [] → ∀ t ∈ x, ' ' ∉ t ∧ '\n' ∉ t := by
        intro x hx t ht
        rw [all_empty_of_squeeze hx t ht]
        exact ⟨by simp, by simp⟩
      have hsqtok : ∀ (m : Nat) (acc : List Str), (∀ t ∈ acc, ' ' ∉ t ∧ '\n' ∉ t) →
          ∀ t ∈ squeezeOutside m acc, ' ' ∉ t ∧ '\n' ∉ t :=
        fun m acc h => squeezeOutside_all (fun t => ' ' ∉ t ∧ '\n' ∉ t) hfree m acc h
      have htok1 : ∀ t ∈ e ++ ts, ' ' ∉ t ∧ '\n' ∉ t := by
        intro t ht
        rcases List.mem_append.1 ht with h | h
        · exact hempty he t h
        · exact htok t h
      have htok2 : ∀ t ∈ e' ++ squeezeOutside (n + 1) ts, ' ' ∉ t ∧ '\n' ∉ t := by
        intro t ht
        rcases List.mem_append.1 ht with h | h
        · exact hempty he' t h
        · exact hsqtok (n + 1) ts htok t h
      have hsq1 : squeeze (e ++ ts) = squeeze ts := by rw [squeeze_append, he]; rfl
      have hsq2 : squeeze (e' ++ squeezeOutside (n + 1) ts) = squeeze ts := by
        rw [squeeze_append, he', squeeze_squeezeOutside]; rfl
      have hd1 : isLineFunctionDefinition (joinSpaces (e ++ ts)) =
          topSeparator ":=".toList (0, false) ts := by
        rw [isLineFunctionDefinition_top (fun t ht => (htok1 t ht).1),
          ← topSeparator_squeeze _ (by decide), hsq1, topSeparator_squeeze _ (by decide)]
      have hd2 : isLineFunctionDefinition (joinSpaces (e' ++ squeezeOutside (n + 1) ts)) =
          topSeparator ":=".toList (0, false) ts := by
        rw [isLineFunctionDefinition_top (fun t ht => (htok2 t ht).1),
          ← topSeparator_squeeze _ (by decide), hsq2, topSeparator_squeeze _ (by decide)]
      have hs1 : isLineTypeSignature (joinSpaces (e ++ ts)) =
          topSeparator "::".toList (0, false) ts := by
        rw [isLineTypeSignature_top (fun t ht => (htok1 t ht).1),
          ← topSeparator_squeeze _ (by decide), hsq1, topSeparator_squeeze _ (by decide)]
      have hs2 : isLineTypeSignature (joinSpaces (e' ++ squeezeOutside (n + 1) ts)) =
          topSeparator "::".toList (0, false) ts := by
        rw [isLineTypeSignature_top (fun t ht => (htok2 t ht).1),
          ← topSeparator_squeeze _ (by decide), hsq2, topSeparator_squeeze _ (by decide)]
      rw [singleNames] at hreg
      by_cases hD : topSeparator ":=".toList (0, false) ts = true
      · rw [if_pos hD, Bool.and_eq_true] at hreg
        obtain ⟨hone, hbody⟩ := hreg
        obtain ⟨name, hpre, hname⟩ := (oneName_iff _).1 hone
        have hsplit := split_at_separator ":=".toList ts (mem_of_topSeparator hD)
        generalize beforeSeparator ":=".toList ts = pre at hsplit hpre
        generalize afterSeparator ":=".toList ts = body at hsplit hbody
        subst hsplit
        have hbtok : ∀ t ∈ body, ' ' ∉ t ∧ '\n' ∉ t := fun t ht => htok t (by simp [ht])
        have hne : name ≠ [] := by
          have : name ∈ squeeze pre := by rw [hpre]; simp
          exact (mem_squeeze this).2
        rw [squeezeOutside, squeezeFrom_name (squeezeOutside n) hname (Or.inl rfl) pre body hpre,
          ← List.append_assoc,
          show e' ++ name :: ":=".toList :: squeezeFrom (squeezeOutside n) .top body =
            (e' ++ [name]) ++ ":=".toList :: squeezeOutside (n + 1) body by
              rw [squeezeOutside]; simp,
          lexAskToInline_definitionLine OPT fuel p name (e ++ pre) body wi hname
            (by rw [squeeze_append, he, hpre]; rfl) hbtok,
          lexAskToInline_definitionLine OPT fuel p name (e' ++ [name])
            (squeezeOutside (n + 1) body) wi hname
            (by rw [squeeze_append, he', squeeze_cons_of_ne hne]; rfl)
            (hsqtok (n + 1) body hbtok),
          show ([] : Str) :: body = [[]] ++ body from rfl,
          show ([] : Str) :: squeezeOutside (n + 1) body =
            [[]] ++ squeezeOutside (n + 1) body from rfl,
          ih k n p body [[]] [[]] true hbtok rfl rfl hbody]
      · rw [if_neg hD] at hreg
        rw [Bool.not_eq_true] at hD
        by_cases hS : topSeparator "::".toList (0, false) ts = true
        · rw [if_pos hS] at hreg
          obtain ⟨name, hpre, hname⟩ := (oneName_iff _).1 hreg
          have hsplit := split_at_separator "::".toList ts (mem_of_topSeparator hS)
          generalize beforeSeparator "::".toList ts = pre at hsplit hpre
          generalize afterSeparator "::".toList ts = rest at hsplit
          subst hsplit
          have hrtok : ∀ t ∈ rest, ' ' ∉ t ∧ '\n' ∉ t := fun t ht => htok t (by simp [ht])
          have hne : name ≠ [] := by
            have : name ∈ squeeze pre := by rw [hpre]; simp
            exact (mem_squeeze this).2
          have hX : ∀ t ∈ squeezeFrom (squeezeOutside n) .top rest, ' ' ∉ t ∧ '\n' ∉ t :=
            hsqtok (n + 1) rest hrtok
          rw [hD] at hd1 hd2
          rw [squeezeOutside,
            squeezeFrom_name (squeezeOutside n) hname (Or.inr rfl) pre rest hpre] at hd2 ⊢
          rw [show e' ++ name :: "::".toList :: squeezeFrom (squeezeOutside n) .top rest =
              (e' ++ [name]) ++ "::".toList :: squeezeFrom (squeezeOutside n) .top rest by
                simp] at hd2 ⊢
          rw [← List.append_assoc] at hd1 ⊢
          rw [lexAskToInline_signatureLine OPT fuel p name (e ++ pre) rest wi hname
              (by rw [squeeze_append, he, hpre]; rfl) hrtok hd1,
            lexAskToInline_signatureLine OPT fuel p name (e' ++ [name]) _ wi hname
              (by rw [squeeze_append, he', squeeze_cons_of_ne hne]; rfl) hX hd2,
            (squeeze_squeezeFrom (squeezeOutside n) (squeeze_squeezeOutside n) rest).1]
        · rw [if_neg hS] at hreg
          rw [Bool.not_eq_true] at hS
          rw [hD] at hd1 hd2
          rw [hS] at hs1 hs2
          have hint : ∀ body, Item.lst body ∈ itemizeFrom .top ts →
              singleNames k body = true := by
            intro body hb
            have := (List.all_eq_true.1 hreg) _ hb
            exact this
          have hrec : ∀ (q : Parser) (acc : List Str), (∀ t ∈ acc, ' ' ∉ t ∧ '\n' ∉ t) →
              singleNames k acc = true →
              lexAskToInline OPT fuel q (spaced acc) false =
                lexAskToInline OPT fuel q (spaced (squeezeOutside n acc)) false := by
            intro q acc hacc hr
            cases n with
            | zero => rfl
            | succ n =>
              rw [lexAskToInline_spaced OPT fuel q acc false (fun t ht => (hacc t ht).2),
                lexAskToInline_spaced OPT fuel q (squeezeOutside (n + 1) acc) false
                  (fun t ht => (hsqtok (n + 1) acc hacc t ht).2)]
              exact ih k n q acc [] [] false hacc rfl rfl hr
          rw [lexAskToInline_expressionLine OPT fuel p _ wi htok1 hd1 hs1,
            lexAskToInline_expressionLine OPT fuel p _ wi htok2 hd2 hs2, itemize, itemize,
            itemizeFrom_empties he, itemizeFrom_empties he', squeezeOutside]
          exact lexItems_squeezeOutside OPT (lexAskToInline OPT fuel) wi (squeezeOutside n)
            (fun acc => singleNames k acc = true)
            (fun acc h => by rw [balancedFrom_squeezeOutside]; exact h)
            (fun acc h => by rw [neverCloses_squeezeOutside]; exact h) hrec ts.length ts
            (le_refl _) htok hint p []

/-- A line in which every definition and every signature has a name of one token lexes
like any line that has the same tokens once the empty tokens outside string literals are
removed. -/
theorem lex_squeezeOutside (OPT : Bool) (fuel k n : Nat) (ts ts' : List Str)
    (h : ∀ t ∈ ts, ' ' ∉ t ∧ '\n' ∉ t) (h' : ∀ t ∈ ts', ' ' ∉ t ∧ '\n' ∉ t)
    (hk : singleNames k ts = true) (hk' : singleNames k ts' = true)
    (hsq : squeezeOutside n ts = squeezeOutside n ts') (p : Parser) :
    lex OPT fuel p (joinSpaces ts) = lex OPT fuel p (joinSpaces ts') := by
  cases n with
  | zero =>
    have : ts = ts' := hsq
    rw [this]
  | succ n =>
    unfold lex
    have e1 := lexAskToInline_singleNames OPT fuel k n p ts [] [] true h rfl rfl hk
    have e2 := lexAskToInline_singleNames OPT fuel k n p ts' [] [] true h' rfl rfl hk'
    rw [List.nil_append, List.nil_append] at e1 e2
    rw [e1, e2, hsq]

theorem forall₂_of_map_eq {α β : Type} (f : α → β) (R : α → α → Prop) :
    ∀ (xs ys : List α), (∀ x ∈ xs, ∀ y ∈ ys, f x = f y → R x y) → xs.map f = ys.map f →
      List.Forall₂ R xs ys
  | [], [], _, _ => List.Forall₂.nil
  | [], _ :: _, _, h => by cases h
  | _ :: _, [], _, h => by cases h
  | x :: xs, y :: ys, hR, h => by
    rw [List.map_cons, List.map_cons] at h
    injection h with h1 h2
    exact List.Forall₂.cons (hR x (by simp) y (by simp) h1)
      (forall₂_of_map_eq f R xs ys
        (fun a ha b hb => hR a (List.mem_cons_of_mem _ ha) b (List.mem_cons_of_mem _ hb)) h2)

/-- A line accepted with the bound `k` is accepted with any larger bound. -/
theorem singleNames_succ : ∀ (k : Nat) (ts : List Str),
    singleNames k ts = true → singleNames (k + 1) ts = true := by
  intro k
  induction k with
  | zero => intro ts h; rw [singleNames] at h; cases h
  | succ k ih =>
    intro ts h
    rw [singleNames] at h ⊢
    by_cases hD : topSeparator ":=".toList (0, false) ts = true
    · rw [if_pos hD] at h ⊢
      rw [Bool.and_eq_true] at h ⊢
      exact ⟨h.1, ih _ h.2⟩
    · rw [if_neg hD] at h ⊢
      by_cases hS : topSeparator "::".toList (0, false) ts = true
      · rw [if_pos hS] at h ⊢
        exact h
      · rw [if_neg hS] at h ⊢
        rw [List.all_eq_true] at h ⊢
        intro i hi
        have := h i hi
        cases i with
        | lst body => exact ih body this
        | _ => rfl

/-- C13 (amended): in an input in which every definition and every signature, also inside
list literals and inside definition bodies, has a name of one token, replacing runs of
spaces that are outside the string literals by single spaces does not change what `lex`
returns: two inputs whose lines have the same tokens once the empty tokens outside string
literals are removed (`squeezeOutside`, in each line and in its list literals down to any
number `n` of levels) lex alike.  Between the quotes of a string literal the runs are not
collapsed: the text between the opening quote and the closing quote, when it holds no
backslash, no `"` and no LF, is the value of the string node, with all its spaces. -/
theorem lex_space_runs (OPTIMIZE_INLINE : Bool) (fuel : Nat) (p : Parser) :
    (∀ (k n : Nat) (ls ls' : List (List Str)),
      (∀ ts ∈ ls, ∀ t ∈ ts, ' ' ∉ t ∧ '\n' ∉ t) →
      (∀ ts ∈ ls', ∀ t ∈ ts, ' ' ∉ t ∧ '\n' ∉ t) →
      (∀ ts ∈ ls, singleNames k ts = true) → (∀ ts ∈ ls', singleNames k ts = true) →
      ls.map (squeezeOutside n) = ls'.map (squeezeOutside n) →
      lex OPTIMIZE_INLINE fuel p (joinLines (ls.map joinSpaces)) =
        lex OPTIMIZE_INLINE fuel p (joinLines (ls'.map joinSpaces))) ∧
    (∀ v : Str, '\\' ∉ v → '"' ∉ v → '\n' ∉ v →
      lex OPTIMIZE_INLINE (fuel + 1) p ('"' :: ' ' :: v ++ [' ', '"']) =
        .ok ([.stringFunction v], p)) := by
  refine ⟨?_, ?_⟩
  · intro k n ls ls' h h' hk hk' hsq
    refine lex_lines_congr OPTIMIZE_INLINE fuel ls ls' h h' ?_ p
    refine forall₂_of_map_eq (squeezeOutside n) _ ls ls' ?_ hsq
    intro ts hts ts' hts' e q
    exact lex_squeezeOutside OPTIMIZE_INLINE fuel k n ts ts' (h ts hts) (h' ts' hts')
      (hk ts hts) (hk' ts' hts') e q
  · intro v hb hq hnl
    exact lex_quoted_text OPTIMIZE_INLINE fuel p v hb hq hnl

/-- Witness for C13: the one line `1   " a  b "   2` lexes as `1 " a  b " 2` (the runs
outside the quotes are collapsed, those between the quotes are kept); and the four lines
`sq  :=  dup   *`, `" a  :=  b "   sq`, `[  f  :=  [ " c  d "   x  ]  ]`,
`swap ::  int   float ->  float int` lex as the four lines `sq := dup *`,
`" a  :=  b " sq`, `[ f := [ " c  d " x ] ]`, `swap :: int float -> float int`. -/
theorem lex_space_runs_witness :
    lex true 2 Parser.new
        (joinLines ([["1".toList, [], [], "\"".toList, "a".toList, [], "b".toList,
          "\"".toList, [], [], "2".toList]].map joinSpaces)) =
      lex true 2 Parser.new
        (joinLines ([["1".toList, "\"".toList, "a".toList, [], "b".toList, "\"".toList,
          "2".toList]].map joinSpaces)) ∧
    lex true 4 Parser.new
        (joinLines
          ([["sq".toList, [], ":=".toList, [], "dup".toList, [], [], "*".toList],
            ["\"".toList, "a".toList, [], ":=".toList, [], "b".toList, "\"".toList, [], [],
              "sq".toList],
            ["[".toList, [], "f".toList, [], ":=".toList, [], "[".toList, "\"".toList,
              "c".toList, [], "d".toList, "\"".toList, [], [], "x".toList, [], "]".toList, [],
              "]".toList],
            ["swap".toList, "::".toList, [], "int".toList, [], [], "float".toList,
              "->".toList, [], "float".toList, "int".toList]].map joinSpaces)) =
      lex true 4 Parser.new
        (joinLines
          ([["sq".toList, ":=".toList, "dup".toList, "*".toList],
            ["\"".toList, "a".toList, [], ":=".toList, [], "b".toList, "\"".toList,
              "sq".toList],
            ["[".toList, "f".toList, ":=".toList, "[".toList, "\"".toList, "c".toList, [],
              "d".toList, "\"".toList, "x".toList, "]".toList, "]".toList],
            ["swap".toList, "::".toList, "int".toList, "float".toList, "->".toList,
              "float".toList, "int".toList]].map joinSpaces)) :=
  ⟨(lex_space_runs true 2 Parser.new).1 1 1 _ _ (by decide) (by decide) (by decide) (by decide)
      (by decide),
    (lex_space_runs true 4 Parser.new).1 4 3 _ _ (by decide) (by decide) (by decide) (by decide)
      (by decide)⟩

end Charm
